import Mathlib

/-!
# MBPol CUDA kernels: a shallow embedding of `CudaMBPolKernels.cpp`

The host-side logic of `platforms/cuda/src/CudaMBPolKernels.cpp` is embedded as
pure Lean functions.  C++ `int` values are mathematical integers (`Int`; where
the range of `int` decides the outcome, as for `findFFTDimension32`, leaving it
is an outcome of its own), the device arrays are lists, and a C++ `throw` is
the `error` constructor of a result that still carries the state reached when
the exception left the function.  Loops whose trip count is not syntactically
bounded (`while`) take a `fuel` argument and answer `none` when it runs out.
-/

namespace MBPol

/-! ## `findFFTDimension` (lines 415-433) -/

/-- The inner loop `while (unfactored > 1 && unfactored%factor == 0) unfactored /= factor;`.
C++ `%` and `/` on `int` truncate, hence `Int.tmod` and `Int.tdiv`.  One unit of
`fuel` pays for one evaluation of the loop condition. -/
def divideOut (factor : Int) : Nat → Int → Option Int
  | 0, _ => none
  | fuel + 1, unfactored =>
    if unfactored > 1 ∧ unfactored.tmod factor = 0 then
      divideOut factor fuel (unfactored.tdiv factor)
    else
      some unfactored

/-- The loop `for (int factor = 2; factor < 8; factor++) while (...) ...;`, started
with `unfactored = minimum`: the factors 2, 3, 4, 5, 6, 7 are divided out in
this order. -/
def factorOut (fuel : Nat) (unfactored : Int) : Option Int :=
  [2, 3, 4, 5, 6, 7].foldlM (fun u factor => divideOut factor fuel u) unfactored

/-- The body of `while (true)`: factor the current value, return it when nothing
is left over, otherwise `minimum++` and go round again.  `rounds` bounds the
number of trips round the outer loop, `fuel` the trips of each inner loop. -/
def findFFTDimensionLoop (fuel : Nat) : Nat → Int → Option Int
  | 0, _ => none
  | rounds + 1, minimum =>
    match factorOut fuel minimum with
    | none => none
    | some unfactored =>
      if unfactored = 1 then some minimum
      else findFFTDimensionLoop fuel rounds (minimum + 1)

/-- The function `static int findFFTDimension(int minimum)` read over the
unbounded integers: `minimum++` never overflows.  `fuel` bounds every loop of
the function; `none` means the bound was reached before the function returned.
The function on 32-bit `int` is `findFFTDimension32` below. -/
def findFFTDimension (fuel : Nat) (minimum : Int) : Option Int :=
  if minimum < 1 then some 1
  else findFFTDimensionLoop fuel fuel minimum

/-- How a run of `findFFTDimension` on 32-bit `int` ends: it returns a value, or
it evaluates `minimum++` for `minimum = 2147483647`, a signed overflow, after
which the language defines no behaviour. -/
inductive IntOutcome
  | returned (value : Int)
  | overflow
deriving DecidableEq, Repr

/-- The body of `while (true)` on 32-bit `int`, for `1 <= minimum <= 2147483647`.
The inner loops only divide `unfactored`, which starts at `minimum`, so they
stay in range; the one statement that can leave the range is `minimum++`. -/
def findFFTDimensionLoop32 (fuel : Nat) : Nat → Int → Option IntOutcome
  | 0, _ => none
  | rounds + 1, minimum =>
    match factorOut fuel minimum with
    | none => none
    | some unfactored =>
      if unfactored = 1 then some (.returned minimum)
      else if minimum = 2147483647 then some .overflow
      else findFFTDimensionLoop32 fuel rounds (minimum + 1)

/-- The function `static int findFFTDimension(int minimum)` on 32-bit `int`, for
an argument in the range of `int`. -/
def findFFTDimension32 (fuel : Nat) (minimum : Int) : Option IntOutcome :=
  if minimum < 1 then some (.returned 1)
  else findFFTDimensionLoop32 fuel fuel minimum

/-- An integer "factors completely into the primes 2, 3, 5, 7": it is positive
and every prime that divides it is one of these four. -/
def Smooth7 (n : Int) : Prop :=
  1 ≤ n ∧ ∀ p : Nat, p.Prime → (p : Int) ∣ n → p = 2 ∨ p = 3 ∨ p = 5 ∨ p = 7

/-- What one run of the inner `while` loop establishes between the value
`u` it starts from and the value `r` it leaves in `unfactored`. -/
structure Stripped (factor u r : Int) : Prop where
  one_le : 1 ≤ r
  le : r ≤ u
  dvd : r ∣ u
  pow : ∃ k : Nat, u = r * factor ^ k
  done : r = 1 ∨ ¬ factor ∣ r

/-! ## Data model -/

/-- The C++ floating-point types as the host code uses them.  `D` is `double`
(the type of the force's parameters), `F` is `float` (the element type of the
five parameter tables) and `R` is the real type of the context's precision,
`double` when `cu.getUseDoublePrecision()` and `float` otherwise: the two
branches of every `if (cu.getUseDoublePrecision())` of the modelled functions
differ only in that type, so they are embedded once, over `R`. -/
structure FloatModel (D F R : Type) where
  /-- The value of a default-constructed `Vec3` component, `0.0`. -/
  zeroD : D
  /-- The literal `0` stored into a `float`. -/
  zeroF : F
  /-- The literal `0` stored at the context's precision. -/
  zeroR : R
  /-- The cast `(float) x` of a `double`. -/
  toFloat : D → F
  /-- A `double` stored at the context's precision (`charge` or `(float) charge`). -/
  toDevice : D → R
  /-- A real of the context's precision converted to `double` (as `Vec3(...)` does). -/
  toDouble : R → D
  /-- The test `x == 0.0` on a `double`. -/
  eqZeroD : D → Bool
  /-- The test `x != 0.0` on a `float`. -/
  neZeroF : F → Bool
  /-- The test `x != y` on two reals of the context's precision. -/
  neR : R → R → Bool

/-- The CUDA vector types `float4` / `double4`. -/
structure Real4 (R : Type) where
  x : R
  y : R
  z : R
  w : R
deriving DecidableEq, Repr

/-- The CUDA vector type `float2`. -/
structure Float2 (F : Type) where
  x : F
  y : F
deriving DecidableEq, Repr

/-- The CUDA vector type `int4`. -/
structure Int4 where
  x : Int
  y : Int
  z : Int
  w : Int
deriving DecidableEq, Repr

/-- What `AmoebaMultipoleForce::getMultipoleParameters(i, ...)` hands back for
one particle: the dipole has 3 components, the quadrupole 9. -/
structure MultipoleInfo (D : Type) where
  charge : D
  dipole : Fin 3 → D
  quadrupole : Fin 9 → D
  axisType : Int
  atomZ : Int
  atomX : Int
  atomY : Int
  thole : D
  damping : D
  polarity : D

/-- `AmoebaMultipoleForce::NonbondedMethod`. -/
inductive NonbondedMethod
  | NoCutoff
  | PME
deriving DecidableEq, Repr

/-- `AmoebaMultipoleForce::PolarizationType`. -/
inductive PolarizationType
  | Mutual
  | Direct
deriving DecidableEq, Repr

/-- The part of an `AmoebaMultipoleForce` that the modelled functions read. -/
structure AmoebaMultipoleForce (D : Type) where
  /-- One record per multipole; `getNumMultipoles()` is the length. -/
  multipoles : List (MultipoleInfo D)
  nonbondedMethod : NonbondedMethod
  polarizationType : PolarizationType
  mutualInducedMaxIterations : Int
  mutualInducedTargetEpsilon : D
  /-- The three entries that `getPmeGridDimensions` writes. -/
  pmeGridDimension : Int × Int × Int
  aEwald : D

/-- `force.getNumMultipoles()`. -/
def AmoebaMultipoleForce.getNumMultipoles {D : Type} (force : AmoebaMultipoleForce D) : Nat :=
  force.multipoles.length

/-- The exceptions the modelled functions throw. -/
inductive OpenMMException
  /-- "updateParametersInContext: The number of bonds has changed" -/
  | numBondsChanged
  /-- "updateParametersInContext: The number of multipoles has changed" -/
  | numMultipolesChanged
  /-- "updateParametersInContext: Cannot set a non-zero quadrupole moment, because
  quadrupoles were excluded from the kernel" -/
  | nonZeroQuadrupole
  /-- "Error initializing FFT: ..." -/
  | fftInitFailed
deriving DecidableEq, Repr

/-- How a call ends: it returns, or an exception leaves it.  Both carry the
state (kernel object and context) reached at that point. -/
inductive Result (σ : Type)
  | returned (state : σ)
  | raised (e : OpenMMException) (state : σ)

/-- Whether the call ended with an exception. -/
def Result.isRaised {σ : Type} : Result σ → Bool
  | .returned _ => false
  | .raised _ _ => true

/-- The state the call ended in. -/
def Result.state {σ : Type} : Result σ → σ
  | .returned s => s
  | .raised _ s => s

/-- The kernels that `initialize` looks up with `cu.getKernel(module, name)`. -/
inductive KernelName
  | computeLabFrameMoments
  | recordInducedDipoles
  | mapTorqueToForce
  | computePotentialAtPoints
  | computeFixedField
  | computeInducedField
  | updateInducedFieldByDIIS
  | recordInducedDipolesForDIIS
  | computeDIISMatrix
  | computeElectrostatics
  | findAtomGridIndex
  | transformMultipolesToFractionalCoordinates
  | transformPotentialToCartesianCoordinates
  | gridSpreadFixedMultipoles
  | gridSpreadInducedDipoles
  | finishSpreadCharge
  | reciprocalConvolution
  | computeFixedPotentialFromGrid
  | computeInducedPotentialFromGrid
  | computeFixedMultipoleForceAndEnergy
  | computeInducedDipoleForceAndEnergy
  | recordInducedFieldDipoles
deriving DecidableEq, Repr

/-- The device buffers that the host code clears, uploads or downloads by name. -/
inductive Buffer
  | inducedField
  | inducedFieldPolar
  | pmeGrid
  | inducedDipoleErrors
  | diisMatrix
  | diisCoefficients
deriving DecidableEq, Repr

/-- What the host code does that is visible outside it, in program order. -/
inductive Event
  /-- The member function `initializeScaleFactors()` runs. -/
  | initializeScaleFactors
  /-- `cu.executeKernel(kernel, ...)`. -/
  | launch (kernel : KernelName)
  /-- `cu.clearBuffer(buffer)`. -/
  | clearBuffer (buffer : Buffer)
  /-- `sort->sort(*pmeAtomGridIndex)`. -/
  | sortAtomGridIndex
  /-- `cufftExecZ2Z` / `cufftExecC2C` with `CUFFT_FORWARD` (`true`) or `CUFFT_INVERSE`. -/
  | fftExec (forward : Bool)
  /-- `buffer->download(...)`. -/
  | download (buffer : Buffer)
  /-- `buffer->upload(...)`. -/
  | upload (buffer : Buffer)
  /-- `cu.getPosq().copyTo(*lastPositions)`. -/
  | copyPosqToLastPositions
  /-- `context.calcForcesAndEnergy(false, false, -1)`. -/
  | calcForcesAndEnergy
deriving DecidableEq, Repr

/-- The part of the `CudaContext` (`cu`) that the modelled functions use. -/
structure CudaContext (R : Type) where
  /-- `cu.getNumAtoms()`. -/
  numAtoms : Nat
  /-- `cu.getPaddedNumAtoms()`, also the size of `posq`. -/
  paddedNumAtoms : Nat
  /-- `cu.getUseDoublePrecision()`. -/
  useDoublePrecision : Bool
  /-- `cu.getContextIndex()`. -/
  contextIndex : Int
  /-- `cu.getPlatformData().contexts.size()`. -/
  numContexts : Int
  /-- The device array `cu.getPosq()`: position and charge of every atom. -/
  posq : List (Real4 R)
  /-- The host scratch memory `cu.getPinnedBuffer()`, read as `float4*` / `double4*`. -/
  pinnedBuffer : List (Real4 R)
  /-- Set to `true` by `cu.invalidateMolecules()`. -/
  moleculesInvalidated : Bool
  /-- Everything issued so far, oldest first. -/
  log : List Event

/-- The five host vectors that `initialize` and `copyParametersToContext` fill
with `push_back` before uploading them. -/
structure HostVectors (F : Type) where
  dampingAndTholeVec : List (Float2 F)
  polarizabilityVec : List F
  molecularDipolesVec : List F
  molecularQuadrupolesVec : List F
  multipoleParticlesVec : List Int4

/-- The five freshly declared, empty vectors. -/
def HostVectors.empty {F : Type} : HostVectors F :=
  ⟨[], [], [], [], []⟩

/-- The members of `CudaCalcMBPolElectrostaticsForceKernel` that the modelled
functions read or write.  A device array that is still `NULL` is `none`. -/
structure ElectrostaticsKernel (F R : Type) where
  numMultipoles : Nat
  hasQuadrupoles : Bool
  hasInitializedScaleFactors : Bool
  hasInitializedFFT : Bool
  multipolesAreValid : Bool
  maxInducedIterations : Int
  dampingAndThole : Option (List (Float2 F))
  polarizability : Option (List F)
  multipoleParticles : Option (List Int4)
  molecularDipoles : Option (List F)
  molecularQuadrupoles : Option (List F)
  lastPositions : Option (List (Real4 R))
  /-- `inducedField` and `inducedFieldPolar` are allocated together. -/
  inducedField : Option Nat
  /-- The number of elements of `pmeGrid`, when allocated. -/
  pmeGrid : Option Int
  /-- The dimensions given to `cufftPlan3d(&fft, ...)`. -/
  fft : Option (Int × Int × Int)

/-! ## `CudaCalcMBPolOneBodyForceKernel` (lines 84-125) -/

/-- The members of `CudaCalcMBPolOneBodyForceKernel` and the part of its
context that `initialize` and `copyParametersToContext` touch. -/
structure OneBodyKernel where
  numBonds : Int
  /-- `cu.getContextIndex()`. -/
  contextIndex : Int
  /-- `cu.getPlatformData().contexts.size()`. -/
  numContexts : Int
  /-- The atom lists handed to `cu.getBondedUtilities().addInteraction`. -/
  interactions : List (List (List Int))
  /-- Set to `true` by `cu.invalidateMolecules()`. -/
  moleculesInvalidated : Bool

/-- An `MBPolOneBodyForce`: the particle indices of each one-body term, so that
`getNumOneBodys()` is the length and `getOneBodyParameters(i, ...)` the entry `i`. -/
abbrev MBPolOneBodyForce := List (List Int)

/-- `int startIndex = cu.getContextIndex()*force.getNumOneBodys()/numContexts;` -/
def OneBodyKernel.startIndex (k : OneBodyKernel) (force : MBPolOneBodyForce) : Int :=
  (k.contextIndex * (force.length : Int)).tdiv k.numContexts

/-- `int endIndex = (cu.getContextIndex()+1)*force.getNumOneBodys()/numContexts;` -/
def OneBodyKernel.endIndex (k : OneBodyKernel) (force : MBPolOneBodyForce) : Int :=
  ((k.contextIndex + 1) * (force.length : Int)).tdiv k.numContexts

/-- The function `CudaCalcMBPolOneBodyForceKernel::initialize` (lines 90-106). -/
def OneBodyKernel.initialize (force : MBPolOneBodyForce) (k : OneBodyKernel) : OneBodyKernel :=
  let startIndex := k.startIndex force
  let endIndex := k.endIndex force
  let k1 := { k with numBonds := endIndex - startIndex }
  if k1.numBonds = 0 then k1
  else
    let atoms := (List.range k1.numBonds.toNat).map fun i =>
      force.getD (startIndex + (i : Int)).toNat []
    { k1 with interactions := k1.interactions ++ [atoms] }

/-- The function `CudaCalcMBPolOneBodyForceKernel::copyParametersToContext`
(lines 112-125). -/
def OneBodyKernel.copyParametersToContext (force : MBPolOneBodyForce) (k : OneBodyKernel) :
    Result OneBodyKernel :=
  let startIndex := k.startIndex force
  let endIndex := k.endIndex force
  if k.numBonds ≠ endIndex - startIndex then
    .raised .numBondsChanged k
  else if k.numBonds = 0 then
    .returned k
  else
    .returned { k with moleculesInvalidated := true }

/-! ## `CudaCalcMBPolElectrostaticsForceKernel`: construction and `initialize` -/

/-- The constructor (lines 326-333): the three flags are `false` and every
array is `NULL`.  The three members it leaves uninitialised are arguments. -/
def ElectrostaticsKernel.construct {F R : Type} (numMultipoles : Nat) (hasQuadrupoles : Bool)
    (maxInducedIterations : Int) : ElectrostaticsKernel F R where
  numMultipoles := numMultipoles
  hasQuadrupoles := hasQuadrupoles
  hasInitializedScaleFactors := false
  hasInitializedFFT := false
  multipolesAreValid := false
  maxInducedIterations := maxInducedIterations
  dampingAndThole := none
  polarizability := none
  multipoleParticles := none
  molecularDipoles := none
  molecularQuadrupoles := none
  lastPositions := none
  inducedField := none
  pmeGrid := none
  fft := none

/-- The body of the particle loop of `initialize` (lines 451-468) for particle
`i` with parameters `p`: one `posq` entry is written, the five host vectors
grow by 1, 1, 1, 3 and 5 entries. -/
def initializeParticle {D F R : Type} (fm : FloatModel D F R) (i : Nat) (p : MultipoleInfo D)
    (st : HostVectors F × List (Real4 R)) : HostVectors F × List (Real4 R) :=
  let v := st.1
  let temp := st.2
  ({ dampingAndTholeVec := v.dampingAndTholeVec ++ [⟨fm.toFloat p.damping, fm.toFloat p.thole⟩]
     polarizabilityVec := v.polarizabilityVec ++ [fm.toFloat p.polarity]
     multipoleParticlesVec := v.multipoleParticlesVec ++ [⟨p.atomX, p.atomY, p.atomZ, p.axisType⟩]
     molecularDipolesVec := v.molecularDipolesVec ++
       [fm.toFloat (p.dipole 0), fm.toFloat (p.dipole 1), fm.toFloat (p.dipole 2)]
     molecularQuadrupolesVec := v.molecularQuadrupolesVec ++
       [fm.toFloat (p.quadrupole 0), fm.toFloat (p.quadrupole 1), fm.toFloat (p.quadrupole 2),
        fm.toFloat (p.quadrupole 4), fm.toFloat (p.quadrupole 5)] },
   temp.set i ⟨fm.zeroR, fm.zeroR, fm.zeroR, fm.toDevice p.charge⟩)

/-- A loop `for (int i = first; i < force.getNumMultipoles(); i++) { force.getMultipoleParameters(i, ...);
body }` over the particles that are left, the next one having index `i`. -/
def forEachParticle {D σ : Type} (body : Nat → MultipoleInfo D → σ → σ) :
    List (MultipoleInfo D) → Nat → σ → σ
  | [], _, st => st
  | p :: rest, i, st => forEachParticle body rest (i + 1) (body i p st)

/-- The loop `for (int i = 0; i < numMultipoles; i++)` of `initialize`
(lines 450-469), from particle `i` on. -/
def initializeParticles {D F R : Type} (fm : FloatModel D F R) :
    List (MultipoleInfo D) → Nat → HostVectors F × List (Real4 R) →
      HostVectors F × List (Real4 R) :=
  forEachParticle (initializeParticle fm)

/-- The body of the padding loop (lines 476-482 and 1482-1488). -/
def pushPadding {D F R : Type} (fm : FloatModel D F R) (v : HostVectors F) : HostVectors F where
  dampingAndTholeVec := v.dampingAndTholeVec ++ [⟨fm.zeroF, fm.zeroF⟩]
  polarizabilityVec := v.polarizabilityVec ++ [fm.zeroF]
  multipoleParticlesVec := v.multipoleParticlesVec ++ [⟨0, 0, 0, 0⟩]
  molecularDipolesVec := v.molecularDipolesVec ++ [fm.zeroF, fm.zeroF, fm.zeroF]
  molecularQuadrupolesVec := v.molecularQuadrupolesVec ++
    [fm.zeroF, fm.zeroF, fm.zeroF, fm.zeroF, fm.zeroF]

/-- The loop `for (int i = numMultipoles; i < paddedNumAtoms; i++)`: `count` is
its trip count `paddedNumAtoms - numMultipoles`, zero when that is negative. -/
def padVectors {D F R : Type} (fm : FloatModel D F R) : Nat → HostVectors F → HostVectors F
  | 0, v => v
  | count + 1, v => padVectors fm count (pushPadding fm v)

/-- The host vectors and the `posq` image that `initialize` uploads (lines 440-483):
`temp` starts as `posq.getSize()` zeroed entries. -/
def initializeHost {D F R : Type} (fm : FloatModel D F R) (force : AmoebaMultipoleForce D)
    (cu : CudaContext R) : HostVectors F × List (Real4 R) × Bool :=
  let numMultipoles := force.getNumMultipoles
  let temp : List (Real4 R) := List.replicate cu.posq.length ⟨fm.zeroR, fm.zeroR, fm.zeroR, fm.zeroR⟩
  let st := initializeParticles fm force.multipoles 0 (HostVectors.empty, temp)
  let hasQuadrupoles := st.1.molecularQuadrupolesVec.any fm.neZeroF
  let v := padVectors fm (cu.paddedNumAtoms - numMultipoles) st.1
  (v, st.2, hasQuadrupoles)

/-- What `NonbondedForceImpl::calcPMEParameters` (a library function) writes
into its four output arguments. -/
structure PMEParameters (D : Type) where
  alpha : D
  gridSizeX : Int
  gridSizeY : Int
  gridSizeZ : Int

/-- The values of `alpha`, `gridSizeX`, `gridSizeY`, `gridSizeZ` after the
`if (usePME)` block of `initialize` (lines 603-620). -/
def pmeGridSize {D F R : Type} (fm : FloatModel D F R) (fuel : Nat)
    (force : AmoebaMultipoleForce D) (computed : PMEParameters D) :
    Option (D × Int × Int × Int) :=
  let alpha := force.aEwald
  let pmeGridDimension := force.pmeGridDimension
  if pmeGridDimension.1 = 0 ∨ fm.eqZeroD alpha = true then
    match findFFTDimension fuel computed.gridSizeX, findFFTDimension fuel computed.gridSizeY,
        findFFTDimension fuel computed.gridSizeZ with
    | some gridSizeX, some gridSizeY, some gridSizeZ =>
      some (computed.alpha, gridSizeX, gridSizeY, gridSizeZ)
    | _, _, _ => none
  else
    some (alpha, pmeGridDimension.1, pmeGridDimension.2.1, pmeGridDimension.2.2)

/-- What `initialize` takes from outside the modelled code. -/
structure InitEnv (D R : Type) where
  /-- The outputs of `NonbondedForceImpl::calcPMEParameters`. -/
  calcPMEParameters : PMEParameters D
  /-- Whether `cufftPlan3d` answers `CUFFT_SUCCESS`. -/
  cufftPlanOk : Bool
  /-- The contents of the freshly allocated `lastPositions`. -/
  freshLastPositions : List (Real4 R)

/-- The function `CudaCalcMBPolElectrostaticsForceKernel::initialize` (lines
435-839), as far as it sets the modelled members: the parameter tables and
`posq` (440-495), the polarization options (566-574), the PME grid and FFT
plan (603-620, 718-735).  The workspace arrays, the covalent flags, the
kernel compilation and the B-spline moduli are not part of this state. -/
def ElectrostaticsKernel.initialize {D F R : Type} (fm : FloatModel D F R) (fuel : Nat)
    (env : InitEnv D R) (force : AmoebaMultipoleForce D)
    (st : ElectrostaticsKernel F R × CudaContext R) :
    Option (Result (ElectrostaticsKernel F R × CudaContext R)) :=
  let k := st.1
  let cu := st.2
  let host := initializeHost fm force cu
  let v := host.1
  let paddedNumAtoms := cu.paddedNumAtoms
  let k1 : ElectrostaticsKernel F R :=
    { k with
      numMultipoles := force.getNumMultipoles
      hasQuadrupoles := host.2.2
      dampingAndThole := some v.dampingAndTholeVec
      polarizability := some v.polarizabilityVec
      multipoleParticles := some v.multipoleParticlesVec
      molecularDipoles := some v.molecularDipolesVec
      molecularQuadrupoles := some v.molecularQuadrupolesVec
      lastPositions := some env.freshLastPositions }
  let cu1 : CudaContext R := { cu with posq := host.2.1 }
  let k2 : ElectrostaticsKernel F R :=
    if force.polarizationType = .Mutual then
      { k1 with
        maxInducedIterations := force.mutualInducedMaxIterations
        inducedField := some (3 * paddedNumAtoms) }
    else
      { k1 with maxInducedIterations := 0 }
  let usePME := decide (force.nonbondedMethod = .PME)
  if usePME then
    match pmeGridSize fm fuel force env.calcPMEParameters with
    | none => none
    | some (_, gridSizeX, gridSizeY, gridSizeZ) =>
      let k3 := { k2 with pmeGrid := some (gridSizeX * gridSizeY * gridSizeZ) }
      if env.cufftPlanOk then
        some (.returned ({ k3 with fft := some (gridSizeX, gridSizeY, gridSizeZ)
                                   hasInitializedFFT := true }, cu1))
      else
        some (.raised .fftInitFailed (k3, cu1))
  else
    some (.returned (k2, cu1))

/-! ## `copyParametersToContext` (lines 1439-1498) -/

/-- The body of the particle loop of `copyParametersToContext` (lines 1457-1474)
for particle `i`: the charge is written into the `w` component of entry `i` of
the pinned buffer, the five host vectors grow by 1, 1, 1, 3 and 5 entries. -/
def copyParticle {D F R : Type} (fm : FloatModel D F R) (i : Nat) (p : MultipoleInfo D)
    (st : HostVectors F × List (Real4 R)) : HostVectors F × List (Real4 R) :=
  let v := st.1
  let pinned := st.2
  ({ dampingAndTholeVec := v.dampingAndTholeVec ++ [⟨fm.toFloat p.damping, fm.toFloat p.thole⟩]
     polarizabilityVec := v.polarizabilityVec ++ [fm.toFloat p.polarity]
     multipoleParticlesVec := v.multipoleParticlesVec ++ [⟨p.atomX, p.atomY, p.atomZ, p.axisType⟩]
     molecularDipolesVec := v.molecularDipolesVec ++
       [fm.toFloat (p.dipole 0), fm.toFloat (p.dipole 1), fm.toFloat (p.dipole 2)]
     molecularQuadrupolesVec := v.molecularQuadrupolesVec ++
       [fm.toFloat (p.quadrupole 0), fm.toFloat (p.quadrupole 1), fm.toFloat (p.quadrupole 2),
        fm.toFloat (p.quadrupole 4), fm.toFloat (p.quadrupole 5)] },
   match pinned[i]? with
   | some entry => pinned.set i { entry with w := fm.toDevice p.charge }
   | none => pinned)

/-- The loop `for (int i = 0; i < force.getNumMultipoles(); i++)` of
`copyParametersToContext` (lines 1456-1475), from particle `i` on. -/
def copyParticles {D F R : Type} (fm : FloatModel D F R) :
    List (MultipoleInfo D) → Nat → HostVectors F × List (Real4 R) →
      HostVectors F × List (Real4 R) :=
  forEachParticle (copyParticle fm)

/-- The function `CudaCalcMBPolElectrostaticsForceKernel::copyParametersToContext`.
The pinned buffer is modelled by the `posq` image the function keeps in it. -/
def ElectrostaticsKernel.copyParametersToContext {D F R : Type} (fm : FloatModel D F R)
    (force : AmoebaMultipoleForce D) (st : ElectrostaticsKernel F R × CudaContext R) :
    Result (ElectrostaticsKernel F R × CudaContext R) :=
  let k := st.1
  let cu := st.2
  if force.getNumMultipoles ≠ cu.numAtoms then
    .raised .numMultipolesChanged (k, cu)
  else
    let cu1 : CudaContext R := { cu with pinnedBuffer := cu.posq }
    let host := copyParticles fm force.multipoles 0 (HostVectors.empty, cu1.pinnedBuffer)
    let cu2 : CudaContext R := { cu1 with pinnedBuffer := host.2 }
    if k.hasQuadrupoles = false ∧ host.1.molecularQuadrupolesVec.any fm.neZeroF = true then
      .raised .nonZeroQuadrupole (k, cu2)
    else
      let v := padVectors fm (cu.paddedNumAtoms - force.getNumMultipoles) host.1
      .returned
        ({ k with
           dampingAndThole := some v.dampingAndTholeVec
           polarizability := some v.polarizabilityVec
           multipoleParticles := some v.multipoleParticlesVec
           molecularDipoles := some v.molecularDipolesVec
           molecularQuadrupoles := some v.molecularQuadrupolesVec
           multipolesAreValid := false },
         { cu2 with posq := cu2.pinnedBuffer, moleculesInvalidated := true })

/-! ## `execute` (lines 914-1141) as the sequence of operations it issues -/

/-- The function `initializeScaleFactors` (lines 841-912), as far as the flag
and the log go: its first statement sets `hasInitializedScaleFactors`. -/
def ElectrostaticsKernel.initializeScaleFactors {F R : Type}
    (st : ElectrostaticsKernel F R × CudaContext R) : ElectrostaticsKernel F R × CudaContext R :=
  ({ st.1 with hasInitializedScaleFactors := true },
   { st.2 with log := st.2.log ++ [Event.initializeScaleFactors] })

/-- What one call `iterateDipolesByDIIS(iteration)` issues (lines 1143-1227);
`converged` is the outcome of its convergence test, which is also its result. -/
def iterateDipolesByDIIS (converged : Bool) : List Event :=
  [.launch .recordInducedDipolesForDIIS, .download .inducedDipoleErrors,
   .launch .computeDIISMatrix, .download .diisMatrix] ++
  (if converged then [] else [.upload .diisCoefficients, .launch .updateInducedFieldByDIIS])

/-- The loop `for (int i = 0; i < maxInducedIterations; i++) { body;
bool converged = iterateDipolesByDIIS(i); if (converged) break; }` of both
branches of `execute`, from iteration `i` on with `remaining` iterations left;
`converged i` is the outcome of the convergence test of iteration `i`. -/
def inducedDipoleLoop (body : List Event) (converged : Nat → Bool) : Nat → Nat → List Event
  | 0, _ => []
  | remaining + 1, i =>
    body ++ iterateDipolesByDIIS (converged i) ++
      (if converged i then [] else inducedDipoleLoop body converged remaining (i + 1))

/-- The grid spreading, FFT, convolution and inverse FFT that `execute` issues
three times in its PME branch after a spreading kernel: `finishSpreadCharge`
only in double precision. -/
def pmeConvolve (useDoublePrecision : Bool) : List Event :=
  (if useDoublePrecision then [.launch .finishSpreadCharge] else []) ++
  [.fftExec true, .launch .reciprocalConvolution, .fftExec false]

/-- The operations of the branch `pmeGrid == NULL` of `execute` (lines 932-966). -/
def executeNoPme (maxInducedIterations : Int) (converged : Nat → Bool) : List Event :=
  [.launch .computeFixedField, .launch .recordInducedDipoles] ++
  inducedDipoleLoop
    [.clearBuffer .inducedField, .clearBuffer .inducedFieldPolar, .launch .computeInducedField]
    converged maxInducedIterations.toNat 0 ++
  [.launch .computeElectrostatics]

/-- The operations of the PME branch of `execute` (lines 969-1127). -/
def executePme (useDoublePrecision : Bool) (maxInducedIterations : Int)
    (converged : Nat → Bool) : List Event :=
  [.launch .findAtomGridIndex, .sortAtomGridIndex,
   .launch .transformMultipolesToFractionalCoordinates,
   .launch .gridSpreadFixedMultipoles] ++
  pmeConvolve useDoublePrecision ++
  [.launch .computeFixedPotentialFromGrid, .launch .transformPotentialToCartesianCoordinates,
   .launch .computeFixedMultipoleForceAndEnergy,
   .launch .computeFixedField, .launch .recordInducedDipoles,
   .clearBuffer .pmeGrid, .launch .gridSpreadInducedDipoles] ++
  pmeConvolve useDoublePrecision ++
  [.launch .computeInducedPotentialFromGrid] ++
  inducedDipoleLoop
    ([.clearBuffer .inducedField, .clearBuffer .inducedFieldPolar, .launch .computeInducedField,
      .clearBuffer .pmeGrid, .launch .gridSpreadInducedDipoles] ++
     pmeConvolve useDoublePrecision ++
     [.launch .computeInducedPotentialFromGrid, .launch .recordInducedFieldDipoles])
    converged maxInducedIterations.toNat 0 ++
  [.launch .computeElectrostatics, .launch .transformPotentialToCartesianCoordinates,
   .launch .computeInducedDipoleForceAndEnergy]

/-- The function `CudaCalcMBPolElectrostaticsForceKernel::execute`; `converged i`
is what `iterateDipolesByDIIS(i)` answers during this call.  The result `0.0`
is not represented. -/
def ElectrostaticsKernel.execute {F R : Type} (converged : Nat → Bool)
    (st : ElectrostaticsKernel F R × CudaContext R) : ElectrostaticsKernel F R × CudaContext R :=
  let st1 := if st.1.hasInitializedScaleFactors = false then
      ElectrostaticsKernel.initializeScaleFactors st else st
  let k := st1.1
  let cu := st1.2
  let issued : List Event :=
    [.launch .computeLabFrameMoments] ++
    (if k.pmeGrid = none then executeNoPme k.maxInducedIterations converged
     else executePme cu.useDoublePrecision k.maxInducedIterations converged) ++
    [.launch .mapTorqueToForce, .copyPosqToLastPositions]
  ({ k with lastPositions := some cu.posq, multipolesAreValid := true },
   { cu with log := cu.log ++ issued })

/-- A sequence of `execute` calls on one kernel object; the list holds, per
call, the outcomes of its convergence tests. -/
def ElectrostaticsKernel.executeMany {F R : Type} :
    List (Nat → Bool) → ElectrostaticsKernel F R × CudaContext R →
      ElectrostaticsKernel F R × CudaContext R
  | [], st => st
  | converged :: rest, st =>
    ElectrostaticsKernel.executeMany rest (ElectrostaticsKernel.execute converged st)

/-! ## The accessors (lines 1229-1274) -/

/-- The class `Vec3`. -/
structure Vec3 (D : Type) where
  x : D
  y : D
  z : D
deriving DecidableEq, Repr

/-- The call `dipoles.resize(n)` of a `std::vector`: longer vectors are cut,
shorter ones filled with default-constructed elements. -/
def resize {α : Type} (v : List α) (n : Nat) (fill : α) : List α :=
  v.take n ++ List.replicate (n - v.length) fill

/-- The loop `for (int i = 0; i < numParticles; i++) dipoles[order[i]] =
Vec3(d[3*i], d[3*i+1], d[3*i+2]);` (lines 1265-1266 and 1271-1272), run for
`i = 0, ..., count-1`. -/
def storeDipoles {D F R : Type} (fm : FloatModel D F R) (order : List Nat) (d : List R) :
    Nat → List (Vec3 D) → List (Vec3 D)
  | 0, dipoles => dipoles
  | count + 1, dipoles =>
    (storeDipoles fm order d count dipoles).set (order.getD count 0)
      ⟨fm.toDouble (d.getD (3 * count) fm.zeroR), fm.toDouble (d.getD (3 * count + 1) fm.zeroR),
       fm.toDouble (d.getD (3 * count + 2) fm.zeroR)⟩

/-- The function `getInducedDipoles` (lines 1257-1274) after its call of
`ensureMultipolesValid`: `order` is `cu.getAtomIndex()`, `d` what
`inducedDipole->download(d)` yields and `dipoles` the caller's vector. -/
def getInducedDipoles {D F R : Type} (fm : FloatModel D F R) (numParticles : Nat)
    (order : List Nat) (d : List R) (dipoles : List (Vec3 D)) : List (Vec3 D) :=
  storeDipoles fm order d numParticles
    (resize dipoles numParticles ⟨fm.zeroD, fm.zeroD, fm.zeroD⟩)

/-! ## `computeSystemMultipoleMoments` (lines 1317-1427) in exact arithmetic

The template parameters `T`, `T4`, `M4` and `double` are all read as the
rationals, so that every `+`, `*` and `/` of the source is exact. -/

/-- The element read by `v[i]` from a downloaded array of `float4`/`double4`. -/
def at4 (v : List (Real4 ℚ)) (i : Nat) : Real4 ℚ :=
  v.getD i ⟨0, 0, 0, 0⟩

/-- The element read by `v[i]` from a downloaded array of reals. -/
def at1 (v : List ℚ) (i : Nat) : ℚ :=
  v.getD i 0

/-- The variables `totalMass` and `centerOfMass` of the first loop. -/
structure MassSum where
  totalMass : ℚ
  c0 : ℚ
  c1 : ℚ
  c2 : ℚ

/-- The body of the first loop (lines 1328-1332). -/
def massStep (posq velm : List (Real4 ℚ)) (acc : MassSum) (i : Nat) : MassSum :=
  let mass : ℚ := if (at4 velm i).w > 0 then 1 / (at4 velm i).w else 0
  { totalMass := acc.totalMass + mass
    c0 := acc.c0 + mass * (at4 posq i).x
    c1 := acc.c1 + mass * (at4 posq i).y
    c2 := acc.c2 + mass * (at4 posq i).z }

/-- Lines 1325-1338: the centre of mass, divided by the total mass only when
that is positive. -/
def centerOfMass (numAtoms : Nat) (posq velm : List (Real4 ℚ)) : ℚ × ℚ × ℚ :=
  let acc := (List.range numAtoms).foldl (massStep posq velm) ⟨0, 0, 0, 0⟩
  if acc.totalMass > 0 then
    (acc.c0 / acc.totalMass, acc.c1 / acc.totalMass, acc.c2 / acc.totalMass)
  else
    (acc.c0, acc.c1, acc.c2)

/-- Lines 1339-1345: the vector `posqLocal`. -/
def posqLocal (numAtoms : Nat) (posq velm : List (Real4 ℚ)) : List (Real4 ℚ) :=
  let c := centerOfMass numAtoms posq velm
  (List.range numAtoms).map fun i =>
    { x := (at4 posq i).x - c.1
      y := (at4 posq i).y - c.2.1
      z := (at4 posq i).z - c.2.2
      w := (at4 posq i).w }

/-- The thirteen accumulators declared at lines 1349-1361. -/
structure Moments where
  totalCharge : ℚ
  xdpl : ℚ
  ydpl : ℚ
  zdpl : ℚ
  xxqdp : ℚ
  xyqdp : ℚ
  xzqdp : ℚ
  yxqdp : ℚ
  yyqdp : ℚ
  yzqdp : ℚ
  zxqdp : ℚ
  zyqdp : ℚ
  zzqdp : ℚ

/-- The body of the second loop (lines 1367-1382). -/
def momentStep (local4 : List (Real4 ℚ)) (labDipoleVec inducedDipoleVec : List ℚ)
    (m : Moments) (i : Nat) : Moments :=
  let p := at4 local4 i
  let netDipoleX := at1 labDipoleVec (3 * i) + at1 inducedDipoleVec (3 * i)
  let netDipoleY := at1 labDipoleVec (3 * i + 1) + at1 inducedDipoleVec (3 * i + 1)
  let netDipoleZ := at1 labDipoleVec (3 * i + 2) + at1 inducedDipoleVec (3 * i + 2)
  { totalCharge := m.totalCharge + p.w
    xdpl := m.xdpl + (p.x * p.w + netDipoleX)
    ydpl := m.ydpl + (p.y * p.w + netDipoleY)
    zdpl := m.zdpl + (p.z * p.w + netDipoleZ)
    xxqdp := m.xxqdp + (p.x * p.x * p.w + 2 * p.x * netDipoleX)
    xyqdp := m.xyqdp + (p.x * p.y * p.w + p.x * netDipoleY + p.y * netDipoleX)
    xzqdp := m.xzqdp + (p.x * p.z * p.w + p.x * netDipoleZ + p.z * netDipoleX)
    yxqdp := m.yxqdp + (p.y * p.x * p.w + p.y * netDipoleX + p.x * netDipoleY)
    yyqdp := m.yyqdp + (p.y * p.y * p.w + 2 * p.y * netDipoleY)
    yzqdp := m.yzqdp + (p.y * p.z * p.w + p.y * netDipoleZ + p.z * netDipoleY)
    zxqdp := m.zxqdp + (p.z * p.x * p.w + p.z * netDipoleX + p.x * netDipoleZ)
    zyqdp := m.zyqdp + (p.z * p.y * p.w + p.z * netDipoleY + p.y * netDipoleZ)
    zzqdp := m.zzqdp + (p.z * p.z * p.w + 2 * p.z * netDipoleZ) }

/-- Lines 1387-1396: "Convert the quadrupole from traced to traceless form." -/
def toTraceless (m : Moments) : Moments :=
  let qave := (m.xxqdp + m.yyqdp + m.zzqdp) / 3
  { m with
    xxqdp := 3 / 2 * (m.xxqdp - qave)
    xyqdp := 3 / 2 * m.xyqdp
    xzqdp := 3 / 2 * m.xzqdp
    yxqdp := 3 / 2 * m.yxqdp
    yyqdp := 3 / 2 * (m.yyqdp - qave)
    yzqdp := 3 / 2 * m.yzqdp
    zxqdp := 3 / 2 * m.zxqdp
    zyqdp := 3 / 2 * m.zyqdp
    zzqdp := 3 / 2 * (m.zzqdp - qave) }

/-- The body of the third loop (lines 1401-1409). -/
def quadrupoleStep (quadrupoleVec : List ℚ) (m : Moments) (i : Nat) : Moments :=
  { m with
    xxqdp := m.xxqdp + 3 * at1 quadrupoleVec (5 * i)
    xyqdp := m.xyqdp + 3 * at1 quadrupoleVec (5 * i + 1)
    xzqdp := m.xzqdp + 3 * at1 quadrupoleVec (5 * i + 2)
    yxqdp := m.yxqdp + 3 * at1 quadrupoleVec (5 * i + 1)
    yyqdp := m.yyqdp + 3 * at1 quadrupoleVec (5 * i + 3)
    yzqdp := m.yzqdp + 3 * at1 quadrupoleVec (5 * i + 4)
    zxqdp := m.zxqdp + 3 * at1 quadrupoleVec (5 * i + 2)
    zyqdp := m.zyqdp + 3 * at1 quadrupoleVec (5 * i + 4)
    zzqdp := m.zzqdp + -3 * (at1 quadrupoleVec (5 * i) + at1 quadrupoleVec (5 * i + 3)) }

/-- The constant `double debye = 4.80321;`. -/
def debye : ℚ := 480321 / 100000

/-- The accumulators after the three loops (lines 1349-1410). -/
def systemMoments (numAtoms : Nat) (posq velm : List (Real4 ℚ))
    (labDipoleVec inducedDipoleVec quadrupoleVec : List ℚ) : Moments :=
  let local4 := posqLocal numAtoms posq velm
  let m := (List.range numAtoms).foldl (momentStep local4 labDipoleVec inducedDipoleVec)
    ⟨0, 0, 0, 0, 0, 0, 0, 0, 0, 0, 0, 0, 0⟩
  (List.range numAtoms).foldl (quadrupoleStep quadrupoleVec) (toTraceless m)

/-- The function `computeSystemMultipoleMoments`: the contents of
`outputMultipoleMoments` when it returns, given the five downloaded arrays. -/
def computeSystemMultipoleMoments (numAtoms : Nat) (posq velm : List (Real4 ℚ))
    (labDipoleVec inducedDipoleVec quadrupoleVec : List ℚ) : List ℚ :=
  let m := systemMoments numAtoms posq velm labDipoleVec inducedDipoleVec quadrupoleVec
  [m.totalCharge,
   10 * m.xdpl * debye, 10 * m.ydpl * debye, 10 * m.zdpl * debye,
   100 * m.xxqdp * debye, 100 * m.xyqdp * debye, 100 * m.xzqdp * debye,
   100 * m.yxqdp * debye, 100 * m.yyqdp * debye, 100 * m.yzqdp * debye,
   100 * m.zxqdp * debye, 100 * m.zyqdp * debye, 100 * m.zzqdp * debye]

/-! ## Predicates used by the statements -/

/-- The five single-precision quadrupole components that the particle loops
store for a particle: components 0, 1, 2, 4 and 5, cast to `float`. -/
def storedQuadrupole {D F R : Type} (fm : FloatModel D F R) (p : MultipoleInfo D) : List F :=
  [fm.toFloat (p.quadrupole 0), fm.toFloat (p.quadrupole 1), fm.toFloat (p.quadrupole 2),
   fm.toFloat (p.quadrupole 4), fm.toFloat (p.quadrupole 5)]

/-- The five device tables of the kernel hold exactly the host vectors `v`. -/
def Uploaded {F R : Type} (k : ElectrostaticsKernel F R) (v : HostVectors F) : Prop :=
  k.dampingAndThole = some v.dampingAndTholeVec ∧
  k.polarizability = some v.polarizabilityVec ∧
  k.multipoleParticles = some v.multipoleParticlesVec ∧
  k.molecularDipoles = some v.molecularDipolesVec ∧
  k.molecularQuadrupoles = some v.molecularQuadrupolesVec

/-- The host vectors have the padded sizes, and every entry of a particle
index from `numMultipoles` up to `paddedNumAtoms` is zero. -/
structure PaddedTables {D F R : Type} (fm : FloatModel D F R) (numMultipoles paddedNumAtoms : Nat)
    (v : HostVectors F) : Prop where
  dampingAndThole_length : v.dampingAndTholeVec.length = paddedNumAtoms
  polarizability_length : v.polarizabilityVec.length = paddedNumAtoms
  multipoleParticles_length : v.multipoleParticlesVec.length = paddedNumAtoms
  molecularDipoles_length : v.molecularDipolesVec.length = 3 * paddedNumAtoms
  molecularQuadrupoles_length : v.molecularQuadrupolesVec.length = 5 * paddedNumAtoms
  dampingAndThole_zero : ∀ i, numMultipoles ≤ i → i < paddedNumAtoms →
    v.dampingAndTholeVec[i]? = some ⟨fm.zeroF, fm.zeroF⟩
  polarizability_zero : ∀ i, numMultipoles ≤ i → i < paddedNumAtoms →
    v.polarizabilityVec[i]? = some fm.zeroF
  multipoleParticles_zero : ∀ i, numMultipoles ≤ i → i < paddedNumAtoms →
    v.multipoleParticlesVec[i]? = some ⟨0, 0, 0, 0⟩
  molecularDipoles_zero : ∀ i j, numMultipoles ≤ i → i < paddedNumAtoms → j < 3 →
    v.molecularDipolesVec[3 * i + j]? = some fm.zeroF
  molecularQuadrupoles_zero : ∀ i j, numMultipoles ≤ i → i < paddedNumAtoms → j < 5 →
    v.molecularQuadrupolesVec[5 * i + j]? = some fm.zeroF

/-- A small floating-point model for evaluating the definitions: the three
real types are the integers, a `double` of magnitude below 4 underflows to the
`float` zero, everything else converts unchanged. -/
def toyModel : FloatModel Int Int Int where
  zeroD := 0
  zeroF := 0
  zeroR := 0
  toFloat := fun x => if x.natAbs < 4 then 0 else x
  toDevice := fun x => x
  toDouble := fun x => x
  eqZeroD := fun x => decide (x = 0)
  neZeroF := fun x => decide (x ≠ 0)
  neR := fun x y => decide (x ≠ y)

/-- A particle with charge `charge` whose nine quadrupole components are all `q`. -/
def toyParticle (charge q : Int) : MultipoleInfo Int where
  charge := charge
  dipole := fun _ => 10
  quadrupole := fun _ => q
  axisType := 1
  atomZ := 2
  atomX := 3
  atomY := 4
  thole := 20
  damping := 30
  polarity := 40

/-- A force over the given particles with the given PME settings. -/
def toyForce (particles : List (MultipoleInfo Int)) (method : NonbondedMethod)
    (grid : Int × Int × Int) (alpha : Int) : AmoebaMultipoleForce Int where
  multipoles := particles
  nonbondedMethod := method
  polarizationType := .Mutual
  mutualInducedMaxIterations := 3
  mutualInducedTargetEpsilon := 1
  pmeGridDimension := grid
  aEwald := alpha

/-- A context of two atoms padded to four, with positions already set. -/
def toyContext : CudaContext Int where
  numAtoms := 2
  paddedNumAtoms := 4
  useDoublePrecision := true
  contextIndex := 0
  numContexts := 1
  posq := [⟨1, 2, 3, 0⟩, ⟨4, 5, 6, 0⟩, ⟨0, 0, 0, 0⟩, ⟨0, 0, 0, 0⟩]
  pinnedBuffer := []
  moleculesInvalidated := false
  log := []

/-- An environment in which the library proposes a 11 x 13 x 17 grid. -/
def toyEnv : InitEnv Int Int where
  calcPMEParameters := ⟨7, 11, 13, 17⟩
  cufftPlanOk := true
  freshLastPositions := []

/-- A freshly constructed kernel object. -/
def toyKernel : ElectrostaticsKernel Int Int :=
  ElectrostaticsKernel.construct 0 false 0

/-- Two particles without quadrupoles, no cutoff. -/
def toyForce2 : AmoebaMultipoleForce Int :=
  toyForce [toyParticle 5 0, toyParticle (-5) 0] .NoCutoff (0, 0, 0) 0

/-- The same two particles, the second one with quadrupole components 8. -/
def toyForceQ : AmoebaMultipoleForce Int :=
  toyForce [toyParticle 5 0, toyParticle (-5) 8] .NoCutoff (0, 0, 0) 0

/-- The state after `initialize` with `toyForce2` on the fresh kernel. -/
def toyInitialized : ElectrostaticsKernel Int Int × CudaContext Int :=
  (( ElectrostaticsKernel.initialize toyModel 0 toyEnv toyForce2 (toyKernel, toyContext)).map
    Result.state).getD (toyKernel, toyContext)

/-- What one `execute` call issues after the check of
`hasInitializedScaleFactors` (lines 920-1138): the frame transform, one of the
two branches (`pme` says that `pmeGrid != NULL`), the torque mapping and the
copy of the positions. -/
def executeOperations (pme useDoublePrecision : Bool) (maxInducedIterations : Int)
    (converged : Nat → Bool) : List Event :=
  [.launch .computeLabFrameMoments] ++
  (if pme then executePme useDoublePrecision maxInducedIterations converged
   else executeNoPme maxInducedIterations converged) ++
  [.launch .mapTorqueToForce, .copyPosqToLastPositions]

/-- The statements of the loop body of `execute` that come before the call of
`iterateDipolesByDIIS(i)`: lines 946-952 without PME, lines 1078-1103 with PME. -/
def inducedFieldBody (pme useDoublePrecision : Bool) : List Event :=
  if pme then
    [.clearBuffer .inducedField, .clearBuffer .inducedFieldPolar, .launch .computeInducedField,
      .clearBuffer .pmeGrid, .launch .gridSpreadInducedDipoles] ++
     pmeConvolve useDoublePrecision ++
     [.launch .computeInducedPotentialFromGrid, .launch .recordInducedFieldDipoles]
  else
    [.clearBuffer .inducedField, .clearBuffer .inducedFieldPolar, .launch .computeInducedField]

/-- Whether the argument array of a launch in `execute` holds
`&torque->getDevicePointer()`: `electrostaticsArgs` (lines 961 and 1111),
`pmeFixedForceArgs` (line 1031), `pmeInducedForceArgs` (line 1122) and
`mapTorqueArgs` (line 1132) do, no other array does. -/
def receivesTorque : KernelName → Bool
  | .computeElectrostatics => true
  | .computeFixedMultipoleForceAndEnergy => true
  | .computeInducedDipoleForceAndEnergy => true
  | .mapTorqueToForce => true
  | _ => false

/-- Whether the argument array of a launch in `execute` holds
`&cu.getForce().getDevicePointer()`: the same four arrays as for the torque. -/
def receivesForce : KernelName → Bool
  | .computeElectrostatics => true
  | .computeFixedMultipoleForceAndEnergy => true
  | .computeInducedDipoleForceAndEnergy => true
  | .mapTorqueToForce => true
  | _ => false

/-- Every occurrence of the operation `a` in `l` comes before every occurrence
of the operation `b`. -/
def Precedes (l : List Event) (a b : Event) : Prop :=
  ∀ i j : Nat, l[i]? = some a → l[j]? = some b → i < j

/-- The kernels of one self-consistency iteration: the induced-field kernel
of the loop body and the three kernels of `iterateDipolesByDIIS`. -/
def diisKernels : List KernelName :=
  [.computeInducedField, .recordInducedDipolesForDIIS, .computeDIISMatrix,
   .updateInducedFieldByDIIS]

/-- The operations of `execute` up to the start of the self-consistency loop. -/
def operationsBeforeLoop (pme useDoublePrecision : Bool) : List Event :=
  [.launch .computeLabFrameMoments] ++
  (if pme then
    [.launch .findAtomGridIndex, .sortAtomGridIndex,
     .launch .transformMultipolesToFractionalCoordinates,
     .launch .gridSpreadFixedMultipoles] ++
    pmeConvolve useDoublePrecision ++
    [.launch .computeFixedPotentialFromGrid, .launch .transformPotentialToCartesianCoordinates,
     .launch .computeFixedMultipoleForceAndEnergy,
     .launch .computeFixedField, .launch .recordInducedDipoles,
     .clearBuffer .pmeGrid, .launch .gridSpreadInducedDipoles] ++
    pmeConvolve useDoublePrecision ++
    [.launch .computeInducedPotentialFromGrid]
  else
    [.launch .computeFixedField, .launch .recordInducedDipoles])

/-- The operations of `execute` from the end of the self-consistency loop on. -/
def operationsAfterLoop (pme : Bool) : List Event :=
  (if pme then
    [.launch .computeElectrostatics, .launch .transformPotentialToCartesianCoordinates,
     .launch .computeInducedDipoleForceAndEnergy]
  else
    [.launch .computeElectrostatics]) ++
  [.launch .mapTorqueToForce, .copyPosqToLastPositions]

/-! ## `iterateDipolesByDIIS` (lines 1143-1227): the convergence test -/

/-- The `double` arithmetic used by the convergence test.  `D` is `double` and
`F` is `float`, as in `FloatModel`. -/
structure DoubleOps (D F : Type) where
  /-- The literal `0.0`. -/
  zero : D
  /-- The literal `48.033324`. -/
  rmsScale : D
  add : D → D → D
  mul : D → D → D
  div : D → D → D
  sqrt : D → D
  /-- The comparison `x < y`. -/
  lt : D → D → Bool
  /-- The promotion of a `float` to `double`. -/
  ofFloat : F → D
  /-- The conversion of an `int` to `double`. -/
  ofInt : Int → D

/-- The library function `std::max(a, b)` on `double`: `(a < b) ? b : a`. -/
def stdMax {D F : Type} (ops : DoubleOps D F) (a b : D) : D :=
  if ops.lt a b = true then b else a

/-- The loop of lines 1173-1177: `total1 += errors[j].x; total2 += errors[j].y;`
over the downloaded `inducedDipoleErrors`, one entry per thread block. -/
def errorTotals {D F : Type} (ops : DoubleOps D F) (errors : List (Float2 F)) : D × D :=
  errors.foldl (fun total e => (ops.add total.1 (ops.ofFloat e.x),
    ops.add total.2 (ops.ofFloat e.y))) (ops.zero, ops.zero)

/-- The condition of line 1178:
`48.033324*sqrt(max(total1, total2)/cu.getNumAtoms()) < inducedEpsilon`. -/
def diisConverged {D F : Type} (ops : DoubleOps D F) (errors : List (Float2 F))
    (numAtoms : Int) (inducedEpsilon : D) : Bool :=
  let total := errorTotals ops errors
  ops.lt (ops.mul ops.rmsScale
    (ops.sqrt (ops.div (stdMax ops total.1 total.2) (ops.ofInt numAtoms)))) inducedEpsilon

/-- One call `iterateDipolesByDIIS(iteration)`: its result and what it issues,
given the errors that line 1156 downloads. -/
def iterateDipolesByDIISCall {D F : Type} (ops : DoubleOps D F) (errors : List (Float2 F))
    (numAtoms : Int) (inducedEpsilon : D) : Bool × List Event :=
  (diisConverged ops errors numAtoms inducedEpsilon,
   iterateDipolesByDIIS (diisConverged ops errors numAtoms inducedEpsilon))

/-- Modelled from the spec: which kernels write the induced dipoles
(`inducedDipole`, `inducedDipolePolar`); the kernel sources are not part of
the host file.  By section 4.5 the seeding step ("induced dipole =
polarizability x fixed field") and step d ("form the new induced dipoles as
the coefficient-weighted combination of the stored history") do; step b
(append dipoles and residual to the history) and step c (build the matrix)
do not. -/
def writesInducedDipoles : KernelName → Bool
  | .recordInducedDipoles => true
  | .updateInducedFieldByDIIS => true
  | _ => false

/-- The integer square root, by search from below. -/
def toySqrt (a : Int) : Int :=
  ((List.range (a.toNat + 1)).foldl (fun r k => if k * k ≤ a.toNat then k else r) 0 : Nat)

/-- A small `double` arithmetic over the integers for evaluating the test. -/
def toyOps : DoubleOps Int Int where
  zero := 0
  rmsScale := 48
  add := fun a b => a + b
  mul := fun a b => a * b
  div := fun a b => a.tdiv b
  sqrt := toySqrt
  lt := fun a b => decide (a < b)
  ofFloat := fun a => a
  ofInt := fun a => a

/-! ## `iterateDipolesByDIIS`: the coefficients, in exact arithmetic

The `double` values are elements of a field `K`, so that every operation of
the source is exact. -/

/-- `int numPrev = (iteration+1 < MaxPrevDIISDipoles ? iteration+1 : MaxPrevDIISDipoles);`
The constant `MaxPrevDIISDipoles` of the class is an argument. -/
def numPrev (maxPrevDIISDipoles iteration : Nat) : Nat :=
  if iteration + 1 < maxPrevDIISDipoles then iteration + 1 else maxPrevDIISDipoles

/-- A two-dimensional array `Array2D<double>`, read by row and column. -/
abbrev Array2D (K : Type) := Nat → Nat → K

/-- The assignment `b[i][j] = x`. -/
def Array2D.set {K : Type} (b : Array2D K) (i j : Nat) (x : K) : Array2D K :=
  fun r c => if r = i ∧ c = j then x else b r c

/-- The array `b` built at lines 1187-1201 from the downloaded `diisMatrix`;
`fresh` is the content of the newly constructed `Array2D<double> b(rank, rank)`. -/
def borderedMatrix {K : Type} [Field K] (maxPrevDIISDipoles iteration : Nat) (matrix : List K)
    (fresh : Array2D K) : Array2D K :=
  let numPrev := numPrev maxPrevDIISDipoles iteration
  let rank := numPrev + 1
  let b1 := fresh.set 0 0 0
  let b2 := (List.range' 1 (rank - 1)).foldl (fun b i => (b.set 0 i (-1)).set i 0 (-1)) b1
  (List.range numPrev).foldl (fun b i =>
    (List.range numPrev).foldl (fun b j =>
      b.set (i + 1) (j + 1) (matrix.getD (i * maxPrevDIISDipoles + j) 0)) b) b2

/-- What the library class `JAMA::SVD<double>` hands back: `getU`, `getV`,
`getSingularValues` and `rank()`. -/
structure SVD (K : Type) where
  u : Array2D K
  v : Array2D K
  s : Nat → K
  rank : Nat

/-- The loop of lines 1212-1217: `coefficients[i-1]` for `i = 1, ..., rank-1` is
`d` after `d -= u[0][j]*v[i][j]/s[j]` for `j = 0, ..., effectiveRank-1`. -/
def svdCoefficients {K : Type} [Field K] (rank : Nat) (svd : SVD K) : List K :=
  (List.range' 1 (rank - 1)).map fun i =>
    (List.range svd.rank).foldl (fun d j => d - svd.u 0 j * svd.v i j / svd.s j) 0

/-- The first `numPrev` entries of `coefficients` when line 1219 uploads them
(lines 1183-1218); `jama b rank` is the decomposition that the library
computes for the `rank x rank` array `b`. -/
def diisCoefficients {K : Type} [Field K] (maxPrevDIISDipoles iteration : Nat)
    (matrix : List K) (fresh : Array2D K) (jama : Array2D K → Nat → SVD K) : List K :=
  if iteration = 0 then [1]
  else
    let rank := numPrev maxPrevDIISDipoles iteration + 1
    let b := borderedMatrix maxPrevDIISDipoles iteration matrix fresh
    svdCoefficients rank (jama b rank)

/-- The upper left `n x n` block of an array as a matrix. -/
def Array2D.toMatrix {K : Type} (a : Array2D K) (n : Nat) : Matrix (Fin n) (Fin n) K :=
  Matrix.of fun i j => a i j

/-- The triple `(u, s, v)` is an exact singular value decomposition of the
`n x n` array `b`: `b = u * diag(s) * vᵀ` with `uᵀ * u = 1` and `vᵀ * v = 1`,
and the effective rank that `rank()` reports is `n` when no singular value
vanishes. -/
structure ExactSVD {K : Type} [Field K] (n : Nat) (b : Array2D K) (svd : SVD K) : Prop where
  decomposition : b.toMatrix n =
    svd.u.toMatrix n * Matrix.diagonal (fun j : Fin n => svd.s j) * (svd.v.toMatrix n).transpose
  u_orthogonal : (svd.u.toMatrix n).transpose * svd.u.toMatrix n = 1
  v_orthogonal : (svd.v.toMatrix n).transpose * svd.v.toMatrix n = 1
  rank_eq : (∀ j, j < n → svd.s j ≠ 0) → svd.rank = n

/-- An exact decomposition of the array with rows `0, -1` and `-1, 0`, which is
the bordered matrix for `MaxPrevDIISDipoles = 1` and a vanishing residual:
`u` is the array itself, `v` the identity, both singular values are `1`. -/
def toySVD : SVD ℚ where
  u := fun i j => if i + j = 1 then -1 else 0
  v := fun i j => if i = j then 1 else 0
  s := fun _ => 1
  rank := 2

/-! ## The repair of the B-spline moduli (lines 772-781), in exact arithmetic -/

/-- The statement `if (moduli[i] < eps) moduli[i] = 0.9*(moduli[i-1]+moduli[i+1]);`
of the loop at lines 777-779, with `eps = 1.0e-7`. -/
def repairInterior (moduli : List ℚ) (i : Nat) : List ℚ :=
  if moduli.getD i 0 < 1 / 10000000 then
    moduli.set i (9 / 10 * (moduli.getD (i - 1) 0 + moduli.getD (i + 1) 0))
  else moduli

/-- Lines 772-781, "Fix for exponential Euler spline interpolation failure":
the first entry, the interior entries from left to right, the last entry. -/
def repairModuli (moduli : List ℚ) : List ℚ :=
  let ndata := moduli.length
  let m1 := if moduli.getD 0 0 < 1 / 10000000 then moduli.set 0 (9 / 10 * moduli.getD 1 0)
    else moduli
  let m2 := (List.range' 1 (ndata - 2)).foldl repairInterior m1
  if m2.getD (ndata - 1) 0 < 1 / 10000000 then
    m2.set (ndata - 1) (9 / 10 * m2.getD (ndata - 2) 0)
  else m2

/-! ## `initialize`: the covalent and polarization flags (lines 519-562) -/

/-- The CUDA vector type `int3`. -/
structure Int3 where
  x : Int
  y : Int
  z : Int
deriving DecidableEq, Repr

/-- The CUDA vector type `int2`. -/
structure Int2 where
  x : Int
  y : Int
deriving DecidableEq, Repr

/-- The values of `AmoebaMultipoleForce::CovalentType` that `initialize` asks for. -/
inductive CovalentType
  | Covalent12
  | Covalent13
  | Covalent14
  | Covalent15
  | PolarizationCovalent11
  | PolarizationCovalent12
deriving DecidableEq, Repr

/-- What `force.getCovalentMap(i, type, atoms)` writes into `atoms` (the call
replaces the previous content of the vector). -/
abbrev CovalentMap := Nat → CovalentType → List Int

/-- `allAtoms.insert(a)` on a `std::set<int>`, which is kept as the ascending
list of its elements. -/
def setInsert (allAtoms : List Int) (a : Int) : List Int :=
  if a ∈ allAtoms then allAtoms else allAtoms.orderedInsert (fun u v => u ≤ v) a

/-- `allAtoms.insert(atoms.begin(), atoms.end())`. -/
def setInsertRange (allAtoms atoms : List Int) : List Int :=
  atoms.foldl setInsert allAtoms

/-- The two member vectors `covalentFlagValues`, `polarizationFlagValues` and the
local `exclusions`. -/
structure FlagValues where
  covalentFlagValues : List Int3
  polarizationFlagValues : List Int2
  exclusions : List (List Int)

/-- The body of the loop `for (int i = 0; i < numMultipoles; i++)` of lines
523-553. -/
def flagStep (covalentMap : CovalentMap) (st : FlagValues) (i : Nat) : FlagValues :=
  let allAtoms := setInsert [] (i : Int)
  let atoms := covalentMap i .Covalent12
  let allAtoms := setInsertRange allAtoms atoms
  let atoms := covalentMap i .Covalent13
  let allAtoms := setInsertRange allAtoms atoms
  let covalentFlagValues := st.covalentFlagValues ++ allAtoms.map fun a => ⟨(i : Int), a, 0⟩
  let atoms := covalentMap i .Covalent14
  let allAtoms := setInsertRange allAtoms atoms
  let covalentFlagValues := covalentFlagValues ++ atoms.map fun a => ⟨(i : Int), a, 1⟩
  let atoms := covalentMap i .Covalent15
  let covalentFlagValues := covalentFlagValues ++ atoms.map fun a => ⟨(i : Int), a, 2⟩
  let allAtoms := setInsertRange allAtoms atoms
  let atoms := covalentMap i .PolarizationCovalent11
  let allAtoms := setInsertRange allAtoms atoms
  let exclusions := st.exclusions.set i (st.exclusions.getD i [] ++ allAtoms)
  let atoms12 := covalentMap i .PolarizationCovalent12
  let polarizationFlagValues := st.polarizationFlagValues ++
    (atoms.filter fun a => decide (a ∉ atoms12)).map fun a => ⟨(i : Int), a⟩
  ⟨covalentFlagValues, polarizationFlagValues, exclusions⟩

/-- Lines 522-553: the two member vectors (empty since the construction of the
kernel object) and `exclusions` (`numMultipoles` empty vectors) after the loop. -/
def buildFlagValues (numMultipoles : Nat) (covalentMap : CovalentMap) : FlagValues :=
  (List.range numMultipoles).foldl (flagStep covalentMap)
    ⟨[], [], List.replicate numMultipoles []⟩

/-- The set `allAtoms` of particle `i` at line 531, when the records with value
`0` are pushed. -/
def excludedAtoms (covalentMap : CovalentMap) (i : Nat) : List Int :=
  setInsertRange (setInsertRange (setInsert [] (i : Int)) (covalentMap i .Covalent12))
    (covalentMap i .Covalent13)

/-- The set `allAtoms` of particle `i` at line 543, when it is appended to
`exclusions[i]`. -/
def allExcludedAtoms (covalentMap : CovalentMap) (i : Nat) : List Int :=
  setInsertRange (setInsertRange (setInsertRange (excludedAtoms covalentMap i)
    (covalentMap i .Covalent14)) (covalentMap i .Covalent15))
    (covalentMap i .PolarizationCovalent11)

/-- The records that iteration `i` of the loop appends to `covalentFlagValues`. -/
def covalentRecords (covalentMap : CovalentMap) (i : Nat) : List Int3 :=
  (excludedAtoms covalentMap i).map (fun a => ⟨(i : Int), a, 0⟩) ++
  ((covalentMap i .Covalent14).map (fun a => ⟨(i : Int), a, 1⟩) ++
   (covalentMap i .Covalent15).map (fun a => ⟨(i : Int), a, 2⟩))

/-- The records that iteration `i` of the loop appends to `polarizationFlagValues`. -/
def polarizationRecords (covalentMap : CovalentMap) (i : Nat) : List Int2 :=
  ((covalentMap i .PolarizationCovalent11).filter
    fun a => decide (a ∉ covalentMap i .PolarizationCovalent12)).map fun a => ⟨(i : Int), a⟩

/-- `tilesWithExclusions.insert(p)` on a `std::set<pair<int, int> >`; the code
uses only the membership and the size of this set, the list keeps the order of
insertion. -/
def pairInsert (tiles : List (Int × Int)) (p : Int × Int) : List (Int × Int) :=
  if p ∈ tiles then tiles else tiles ++ [p]

/-- The set `tilesWithExclusions` after the loops of lines 554-562;
`tileSize` is the constant `CudaContext::TileSize`. -/
def tilesWithExclusions (tileSize : Int) (exclusions : List (List Int)) : List (Int × Int) :=
  (List.range exclusions.length).foldl (fun tiles atom1 =>
    (exclusions.getD atom1 []).foldl (fun tiles atom2 =>
      pairInsert tiles
        (max ((atom1 : Int).tdiv tileSize) (atom2.tdiv tileSize),
         min ((atom1 : Int).tdiv tileSize) (atom2.tdiv tileSize))) tiles) []

/-- The kernels that `initialize` has looked up with `cu.getKernel` when it
reaches the creation of the PME arrays: lines 626-631, the four kernels of the
block `if (maxInducedIterations > 0)` (639-647), `computeElectrostatics` (677)
and, with PME, the twelve kernels of lines 697-708. -/
def createdKernels (maxInducedIterations : Int) (usePME : Bool) : List KernelName :=
  [.computeLabFrameMoments, .recordInducedDipoles, .mapTorqueToForce,
   .computePotentialAtPoints, .computeFixedField] ++
  (if maxInducedIterations > 0 then
    [.computeInducedField, .updateInducedFieldByDIIS, .recordInducedDipolesForDIIS,
     .computeDIISMatrix]
   else []) ++
  [.computeElectrostatics] ++
  (if usePME then
    [.findAtomGridIndex, .transformMultipolesToFractionalCoordinates,
     .transformPotentialToCartesianCoordinates, .gridSpreadFixedMultipoles,
     .gridSpreadInducedDipoles, .finishSpreadCharge, .reciprocalConvolution,
     .computeFixedPotentialFromGrid, .computeInducedPotentialFromGrid,
     .computeFixedMultipoleForceAndEnergy, .computeInducedDipoleForceAndEnergy,
     .recordInducedFieldDipoles]
   else [])

/-- Whether an operation of `execute` dereferences `inducedField` or
`inducedFieldPolar`: the two `cu.clearBuffer` calls, and the launches whose
argument array is built from `inducedField->getDevicePointer()`, which are
`computeInducedFieldArgs` (lines 949 and 1081), `pmeRecordInducedFieldDipolesArgs`
(line 1099) and `recordDIISDipolesArgs` (line 1150).  Each of these arrays is
declared right before its launch. -/
def usesInducedField : Event → Bool
  | .clearBuffer .inducedField => true
  | .clearBuffer .inducedFieldPolar => true
  | .launch .computeInducedField => true
  | .launch .recordInducedFieldDipoles => true
  | .launch .recordInducedDipolesForDIIS => true
  | _ => false

/-! ## `initializeScaleFactors` (lines 841-912): the flag words -/

/-- The map `exclusionTileMap`; a key that is absent is `none`. -/
abbrev TileMap := Int × Int → Option Int

/-- The loop of lines 851-854: `exclusionTileMap[make_pair(tile.x, tile.y)] = i`
for the downloaded tiles in order. -/
def buildExclusionTileMap (exclusionTiles : List (Int × Int)) : TileMap :=
  (List.range exclusionTiles.length).foldl
    (fun map i => fun key => if exclusionTiles.getD i (0, 0) = key then some (i : Int) else map key)
    (fun _ => none)

/-- The expression `exclusionTileMap[key]` of `std::map`: an absent key reads as
the value-initialised `0` (and is inserted with it, which later reads do not
see as a change). -/
def TileMap.get (map : TileMap) (key : Int × Int) : Int :=
  (map key).getD 0

/-- The CUDA vector type `uint2`. -/
structure UInt2 where
  x : Nat
  y : Nat
deriving DecidableEq, Repr

/-- The `int` expression `f<<offset` stored into an `unsigned int`. -/
def shiftLeft (f offset : Int) : Nat :=
  (f.toNat <<< offset.toNat) % 2 ^ 32

/-- The two statements `vec[index].x |= fx; vec[index].y |= fy;`. -/
def orBits (vec : List UInt2) (index : Int) (fx fy : Nat) : List UInt2 :=
  if index < 0 then vec
  else vec.set index.toNat
    ⟨(vec.getD index.toNat ⟨0, 0⟩).x ||| fx, (vec.getD index.toNat ⟨0, 0⟩).y ||| fy⟩

/-- The body of the loop over `covalentFlagValues` (lines 857-883) for one
record; `tileSize` is `CudaContext::TileSize`. -/
def covalentRecord (tileSize : Int) (map : TileMap) (covalentFlagsVec : List UInt2)
    (record : Int3) : List UInt2 :=
  let atom1 := record.x
  let atom2 := record.y
  let value := record.z
  let x := atom1.tdiv tileSize
  let offset1 := atom1 - x * tileSize
  let y := atom2.tdiv tileSize
  let offset2 := atom2 - y * tileSize
  let f1 : Int := if value = 0 ∨ value = 1 then 1 else 0
  let f2 : Int := if value = 0 ∨ value = 2 then 1 else 0
  if x = y then
    let index := map.get (x, y) * tileSize
    orBits (orBits covalentFlagsVec (index + offset1) (shiftLeft f1 offset2) (shiftLeft f2 offset2))
      (index + offset2) (shiftLeft f1 offset1) (shiftLeft f2 offset1)
  else if x > y then
    let index := map.get (x, y) * tileSize
    orBits covalentFlagsVec (index + offset1) (shiftLeft f1 offset2) (shiftLeft f2 offset2)
  else
    let index := map.get (y, x) * tileSize
    orBits covalentFlagsVec (index + offset2) (shiftLeft f1 offset1) (shiftLeft f2 offset1)

/-- The statement `vec[index] |= f;` on a vector of `unsigned int`. -/
def orBit (vec : List Nat) (index : Int) (f : Nat) : List Nat :=
  if index < 0 then vec else vec.set index.toNat (vec.getD index.toNat 0 ||| f)

/-- The body of the loop over `polarizationFlagValues` (lines 891-908) for one
record. -/
def polarizationRecord (tileSize : Int) (map : TileMap) (polarizationGroupFlagsVec : List Nat)
    (record : Int2) : List Nat :=
  let atom1 := record.x
  let atom2 := record.y
  let x := atom1.tdiv tileSize
  let offset1 := atom1 - x * tileSize
  let y := atom2.tdiv tileSize
  let offset2 := atom2 - y * tileSize
  if x = y then
    let index := map.get (x, y) * tileSize
    orBit (orBit polarizationGroupFlagsVec (index + offset1) (shiftLeft 1 offset2))
      (index + offset2) (shiftLeft 1 offset1)
  else if x > y then
    let index := map.get (x, y) * tileSize
    orBit polarizationGroupFlagsVec (index + offset1) (shiftLeft 1 offset2)
  else
    let index := map.get (y, x) * tileSize
    orBit polarizationGroupFlagsVec (index + offset2) (shiftLeft 1 offset1)

/-- The vectors `covalentFlagsVec` and `polarizationGroupFlagsVec` that
`initializeScaleFactors` uploads; `size` is `nb.getExclusions().getSize()` and
`exclusionTiles` the downloaded `nb.getExclusionTiles()`. -/
def scaleFactorVectors (tileSize : Int) (size : Nat) (exclusionTiles : List (Int × Int))
    (flags : FlagValues) : List UInt2 × List Nat :=
  let map := buildExclusionTileMap exclusionTiles
  (flags.covalentFlagValues.foldl (covalentRecord tileSize map) (List.replicate size ⟨0, 0⟩),
   flags.polarizationFlagValues.foldl (polarizationRecord tileSize map) (List.replicate size 0))

/-- The key of the one `exclusionTileMap[...]` expression that the branch taken
for the atoms `atom1`, `atom2` evaluates: `make_pair(x, y)` in the branches
`x == y` and `x > y`, `make_pair(y, x)` in the last one. -/
def lookedUpKey (tileSize atom1 atom2 : Int) : Int × Int :=
  if atom1.tdiv tileSize = atom2.tdiv tileSize then
    (atom1.tdiv tileSize, atom2.tdiv tileSize)
  else if atom1.tdiv tileSize > atom2.tdiv tileSize then
    (atom1.tdiv tileSize, atom2.tdiv tileSize)
  else (atom2.tdiv tileSize, atom1.tdiv tileSize)

/-! ## `execute`: the reciprocal box vectors (lines 969-978), in exact arithmetic -/

/-- The array `recipBoxVectors` computed from `boxVectors`; `boxVectors i j` is
`boxVectors[i][j]`, and the components `0, 1, 2` of a result are `x, y, z`. -/
def recipBoxVectors {K : Type} [Field K] (boxVectors : Fin 3 → Fin 3 → K) : Fin 3 → Fin 3 → K :=
  let determinant := boxVectors 0 0 * boxVectors 1 1 * boxVectors 2 2
  let scale := 1 / determinant
  ![![boxVectors 1 1 * boxVectors 2 2 * scale, 0, 0],
    ![-boxVectors 1 0 * boxVectors 2 2 * scale, boxVectors 0 0 * boxVectors 2 2 * scale, 0],
    ![(boxVectors 1 0 * boxVectors 2 1 - boxVectors 1 1 * boxVectors 2 0) * scale,
      -boxVectors 0 0 * boxVectors 2 1 * scale, boxVectors 0 0 * boxVectors 1 1 * scale]]

/-- A triclinic box in reduced form, over the rationals. -/
def toyBox : Fin 3 → Fin 3 → ℚ :=
  ![![2, 0, 0], ![1, 3, 0], ![1, 1, 5]]

/-! ## `initialize`: the zeta correction of the B-spline moduli (lines 783-810),
in exact arithmetic

The `double` values are elements of a field `K`; the macro `M_PI` and the
constant `PmeOrder` are arguments. -/

/-- The variable `k` of lines 787-789: `int k = i - 1; if (i > ndata/2) k = k - ndata;`. -/
def signedFrequency (ndata i : Int) : Int :=
  if i > ndata.tdiv 2 then i - 1 - ndata else i - 1

/-- The variables `sum1`, `sum2` after the two loops over `j = 1, ..., jcut`
(lines 796-806). -/
def zetaSums {K : Type} [Field K] (pi : K) (pmeOrder : Nat) (factor : K) (jcut : Nat) : K × K :=
  let sums := (List.range' 1 jcut).foldl (fun (sums : K × K) j =>
    (sums.1 + (factor / (factor + pi * (j : K))) ^ pmeOrder,
     sums.2 + (factor / (factor + pi * (j : K))) ^ (2 * pmeOrder))) (1, 1)
  (List.range' 1 jcut).foldl (fun (sums : K × K) j =>
    (sums.1 + (factor / (factor - pi * (j : K))) ^ pmeOrder,
     sums.2 + (factor / (factor - pi * (j : K))) ^ (2 * pmeOrder))) sums

/-- The variable `zeta` for the index `i` (lines 790-808), with `jcut = 50`. -/
def zeta {K : Type} [Field K] (pi : K) (pmeOrder : Nat) (ndata i : Int) : K :=
  let k := signedFrequency ndata i
  if k = 0 then 1
  else
    let factor := pi * (k : K) / (ndata : K)
    let sums := zetaSums pi pmeOrder factor 50
    sums.2 / sums.1

/-- The loop `for (int i = 1; i <= ndata; i++)` of lines 786-810:
`moduli[i-1] = moduli[i-1]*zeta*zeta`; `ndata` is the size of `moduli`. -/
def applyZeta {K : Type} [Field K] (pi : K) (pmeOrder : Nat) (moduli : List K) : List K :=
  let ndata := moduli.length
  (List.range' 1 ndata).foldl (fun moduli i =>
    moduli.set (i - 1)
      (moduli.getD (i - 1) 0 * zeta pi pmeOrder (ndata : Int) (i : Int) *
        zeta pi pmeOrder (ndata : Int) (i : Int))) moduli

/-! ## Further predicates and inputs -/

/-- The positions of `posq` moved by the vector `d`, the charges kept. -/
def translate (d : ℚ × ℚ × ℚ) (posq : List (Real4 ℚ)) : List (Real4 ℚ) :=
  posq.map fun p => { x := p.x + d.1, y := p.y + d.2.1, z := p.z + d.2.2, w := p.w }

/-- The variable `totalMass` after the first loop of `computeSystemMultipoleMoments`. -/
def totalMass (numAtoms : Nat) (posq velm : List (Real4 ℚ)) : ℚ :=
  ((List.range numAtoms).foldl (massStep posq velm) ⟨0, 0, 0, 0⟩).totalMass

/-- The covalent maps of a chain of four atoms `0 - 1 - 2 - 3`; atom `1` is in
the polarization group of atom `0`, and is also on its explicit list. -/
def toyCovalentMap : CovalentMap := fun i type =>
  match i, type with
  | 0, .Covalent12 => [1]
  | 0, .Covalent13 => [2]
  | 0, .Covalent14 => [3]
  | 0, .PolarizationCovalent11 => [0, 1]
  | 0, .PolarizationCovalent12 => [1]
  | 1, .Covalent12 => [0, 2]
  | 1, .Covalent13 => [3]
  | 1, .PolarizationCovalent11 => [0, 1]
  | 2, .Covalent12 => [1, 3]
  | 2, .Covalent13 => [0]
  | 3, .Covalent12 => [2]
  | 3, .Covalent13 => [1]
  | 3, .Covalent14 => [0]
  | _, _ => []

/-- The force `toyForce2` with direct instead of mutual polarization. -/
def toyForceDirect : AmoebaMultipoleForce Int :=
  { toyForce2 with polarizationType := .Direct }

/-- How `initialize` with `toyForceDirect` on the fresh kernel ends. -/
def toyDirectResult : Result (ElectrostaticsKernel Int Int × CudaContext Int) :=
  ( ElectrostaticsKernel.initialize toyModel 0 toyEnv toyForceDirect (toyKernel, toyContext)).getD
    (.returned (toyKernel, toyContext))

/-! # Theorems -/

/-! ### Facts about `Smooth7` -/

theorem smooth7_one : Smooth7 1 := by
  refine ⟨le_refl _, fun p hp hd => ?_⟩
  have h1 : p ∣ 1 := by exact_mod_cast hd
  exact absurd (Nat.dvd_one.1 h1) hp.one_lt.ne'

theorem smooth7_mul {a b : Int} (ha : Smooth7 a) (hb : Smooth7 b) : Smooth7 (a * b) := by
  refine ⟨by nlinarith [ha.1, hb.1], fun p hp hd => ?_⟩
  rcases (Nat.prime_iff_prime_int.1 hp).dvd_or_dvd hd with h | h
  · exact ha.2 p hp h
  · exact hb.2 p hp h

theorem smooth7_pow {a : Int} (ha : Smooth7 a) (k : Nat) : Smooth7 (a ^ k) := by
  induction k with
  | zero => simpa using smooth7_one
  | succ k ih => rw [pow_succ]; exact smooth7_mul ih ha

theorem smooth7_of_dvd {a b : Int} (hb : Smooth7 b) (ha : 1 ≤ a) (hab : a ∣ b) : Smooth7 a :=
  ⟨ha, fun p hp hd => hb.2 p hp (dvd_trans hd hab)⟩

theorem smooth7_natCast_of_le {f : Nat} (h1 : 1 ≤ f) (h7 : f ≤ 7) : Smooth7 (f : Int) := by
  refine ⟨by exact_mod_cast h1, fun p hp hd => ?_⟩
  have hpf : p ∣ f := by exact_mod_cast hd
  have hple : p ≤ 7 := le_trans (Nat.le_of_dvd (by omega) hpf) h7
  have hp2 := hp.two_le
  interval_cases p
  · exact Or.inl rfl
  · exact Or.inr (Or.inl rfl)
  · exact absurd hp (by decide)
  · exact Or.inr (Or.inr (Or.inl rfl))
  · exact absurd hp (by decide)
  · exact Or.inr (Or.inr (Or.inr rfl))

theorem eq_one_of_smooth7 {r : Int} (hs : Smooth7 r)
    (h2 : r = 1 ∨ ¬ (2 : Int) ∣ r) (h3 : r = 1 ∨ ¬ (3 : Int) ∣ r)
    (h5 : r = 1 ∨ ¬ (5 : Int) ∣ r) (h7 : r = 1 ∨ ¬ (7 : Int) ∣ r) : r = 1 := by
  by_contra hne
  have hr1 := hs.1
  have hnat : r.natAbs ≠ 1 := by omega
  obtain ⟨p, hp, hpd⟩ := Nat.exists_prime_and_dvd hnat
  have hd : (p : Int) ∣ r := Int.natCast_dvd.2 hpd
  rcases hs.2 p hp hd with rfl | rfl | rfl | rfl
  · exact (h2.resolve_left hne) (by exact_mod_cast hd)
  · exact (h3.resolve_left hne) (by exact_mod_cast hd)
  · exact (h5.resolve_left hne) (by exact_mod_cast hd)
  · exact (h7.resolve_left hne) (by exact_mod_cast hd)

/-! ### The inner loops -/

theorem divideOut_stripped {factor : Int} (hf : 2 ≤ factor) :
    ∀ (fuel : Nat) (u r : Int), 1 ≤ u → divideOut factor fuel u = some r →
      Stripped factor u r := by
  intro fuel
  induction fuel with
  | zero => intro u r _ h; simp [divideOut] at h
  | succ n ih =>
    intro u r hu h
    rw [divideOut] at h
    split_ifs at h with hc
    · obtain ⟨hu1, hmod⟩ := hc
      have hmod2 : u % factor = 0 := by
        rw [← Int.tmod_eq_emod (by omega) (by omega)]; exact hmod
      have hdiv : u.tdiv factor = u / factor := Int.tdiv_eq_ediv (by omega) (by omega)
      rw [hdiv] at h
      have hfd : factor ∣ u := Int.dvd_of_emod_eq_zero hmod2
      obtain ⟨q, hq⟩ := hfd
      have hqe : u / factor = q := by
        rw [hq]; exact Int.mul_ediv_cancel_left q (by omega)
      rw [hqe] at h
      have hq1 : 1 ≤ q := by
        by_contra hlt
        have : q ≤ 0 := by omega
        nlinarith
      have hs := ih q r hq1 h
      obtain ⟨k, hk⟩ := hs.pow
      refine ⟨hs.one_le, ?_, ?_, ⟨k + 1, ?_⟩, hs.done⟩
      · have := hs.le; nlinarith
      · exact dvd_trans hs.dvd ⟨factor, by rw [hq]; ring⟩
      · rw [hq, hk]; ring
    · simp only [Option.some.injEq] at h
      subst h
      refine ⟨hu, le_refl _, dvd_refl _, ⟨0, by simp⟩, ?_⟩
      by_cases h1 : u = 1
      · exact Or.inl h1
      · right
        intro hd
        apply hc
        refine ⟨by omega, ?_⟩
        rw [Int.tmod_eq_emod (by omega) (by omega)]
        exact Int.emod_eq_zero_of_dvd hd

theorem divideOut_isSome (factor : Int) (hf : 2 ≤ factor) :
    ∀ (fuel : Nat) (u : Int), 0 < fuel → u ≤ fuel →
      ∃ r, divideOut factor fuel u = some r := by
  intro fuel
  induction fuel with
  | zero => intro u h0 _; exact absurd h0 (lt_irrefl 0)
  | succ n ih =>
    intro u _ hu
    rw [divideOut]
    split_ifs with hc
    · obtain ⟨hu1, _⟩ := hc
      have hlt : u / factor < u := Int.ediv_lt_of_lt_mul (by omega) (by nlinarith)
      push_cast at hu
      apply ih
      · omega
      · rw [Int.tdiv_eq_ediv (by omega) (by omega)]
        omega
    · exact ⟨u, rfl⟩

theorem factorOut_eq (fuel : Nat) (u : Int) :
    factorOut fuel u =
      (divideOut 2 fuel u).bind fun u2 => (divideOut 3 fuel u2).bind fun u3 =>
      (divideOut 4 fuel u3).bind fun u4 => (divideOut 5 fuel u4).bind fun u5 =>
      (divideOut 6 fuel u5).bind fun u6 => divideOut 7 fuel u6 := by
  simp only [factorOut, List.foldlM, Option.bind_eq_bind, bind_pure]

/-- The value left in `unfactored` by the `for` loop is 1 exactly when the
value it started from factors completely into 2, 3, 5, 7. -/
theorem factorOut_eq_one_iff {fuel : Nat} {u r : Int} (hu : 1 ≤ u)
    (h : factorOut fuel u = some r) : r = 1 ↔ Smooth7 u := by
  rw [factorOut_eq] at h
  simp only [Option.bind_eq_some] at h
  obtain ⟨u2, h2, u3, h3, u4, h4, u5, h5, u6, h6, h7⟩ := h
  have s2 := divideOut_stripped (by norm_num) fuel u u2 hu h2
  have s3 := divideOut_stripped (by norm_num) fuel u2 u3 s2.one_le h3
  have s4 := divideOut_stripped (by norm_num) fuel u3 u4 s3.one_le h4
  have s5 := divideOut_stripped (by norm_num) fuel u4 u5 s4.one_le h5
  have s6 := divideOut_stripped (by norm_num) fuel u5 u6 s5.one_le h6
  have s7 := divideOut_stripped (by norm_num) fuel u6 r s6.one_le h7
  have keep : ∀ {f a b : Int}, (a = 1 ∨ ¬ f ∣ a) → 1 ≤ b → b ∣ a → (b = 1 ∨ ¬ f ∣ b) := by
    intro f a b ha hb hba
    rcases ha with rfl | ha
    · left
      have := Int.le_of_dvd one_pos hba
      omega
    · exact Or.inr fun hfb => ha (dvd_trans hfb hba)
  have d7 : r ∣ u6 := s7.dvd
  have d6 : r ∣ u5 := dvd_trans d7 s6.dvd
  have d5 : r ∣ u4 := dvd_trans d6 s5.dvd
  have d4 : r ∣ u3 := dvd_trans d5 s4.dvd
  have d3 : r ∣ u2 := dvd_trans d4 s3.dvd
  have d2 : r ∣ u := dvd_trans d3 s2.dvd
  constructor
  · intro hr
    subst hr
    have up : ∀ {f : Nat} {a b : Int}, 1 ≤ f → f ≤ 7 → Stripped (f : Int) a b →
        Smooth7 b → Smooth7 a := by
      intro f a b h1 h7 hs hb
      obtain ⟨k, hk⟩ := hs.pow
      rw [hk]
      exact smooth7_mul hb (smooth7_pow (smooth7_natCast_of_le h1 h7) k)
    have t7 : Smooth7 u6 := up (f := 7) (by norm_num) (by norm_num) (by exact_mod_cast s7) smooth7_one
    have t6 : Smooth7 u5 := up (f := 6) (by norm_num) (by norm_num) (by exact_mod_cast s6) t7
    have t5 : Smooth7 u4 := up (f := 5) (by norm_num) (by norm_num) (by exact_mod_cast s5) t6
    have t4 : Smooth7 u3 := up (f := 4) (by norm_num) (by norm_num) (by exact_mod_cast s4) t5
    have t3 : Smooth7 u2 := up (f := 3) (by norm_num) (by norm_num) (by exact_mod_cast s3) t4
    exact up (f := 2) (by norm_num) (by norm_num) (by exact_mod_cast s2) t3
  · intro hs
    exact eq_one_of_smooth7 (smooth7_of_dvd hs s7.one_le d2)
      (keep s2.done s7.one_le d3) (keep s3.done s7.one_le d4)
      (keep s5.done s7.one_le d6) s7.done

theorem factorOut_isSome {fuel : Nat} {u : Int} (hu : 1 ≤ u) (hfuel : u ≤ fuel) :
    ∃ r, factorOut fuel u = some r := by
  have hpos : 0 < fuel := by
    have : (0 : Int) < fuel := by omega
    exact_mod_cast this
  rw [factorOut_eq]
  obtain ⟨u2, h2⟩ := divideOut_isSome 2 (by norm_num) fuel u hpos hfuel
  have s2 := divideOut_stripped (by norm_num) fuel u u2 hu h2
  obtain ⟨u3, h3⟩ := divideOut_isSome 3 (by norm_num) fuel u2 hpos
    (le_trans s2.le hfuel)
  have s3 := divideOut_stripped (by norm_num) fuel u2 u3 s2.one_le h3
  have l3 : u3 ≤ fuel := le_trans s3.le (le_trans s2.le hfuel)
  obtain ⟨u4, h4⟩ := divideOut_isSome 4 (by norm_num) fuel u3 hpos l3
  have s4 := divideOut_stripped (by norm_num) fuel u3 u4 s3.one_le h4
  have l4 : u4 ≤ fuel := le_trans s4.le l3
  obtain ⟨u5, h5⟩ := divideOut_isSome 5 (by norm_num) fuel u4 hpos l4
  have s5 := divideOut_stripped (by norm_num) fuel u4 u5 s4.one_le h5
  have l5 : u5 ≤ fuel := le_trans s5.le l4
  obtain ⟨u6, h6⟩ := divideOut_isSome 6 (by norm_num) fuel u5 hpos l5
  have s6 := divideOut_stripped (by norm_num) fuel u5 u6 s5.one_le h6
  have l6 : u6 ≤ fuel := le_trans s6.le l5
  obtain ⟨r, h7⟩ := divideOut_isSome 7 (by norm_num) fuel u6 hpos l6
  exact ⟨r, by simp [h2, h3, h4, h5, h6, h7]⟩

/-- The powers collected by the six inner loops: the start value is the
left-over value times a product of powers of 2, 3, 4, 5, 6 and 7. -/
theorem factorOut_pow {fuel : Nat} {u r : Int} (hu : 1 ≤ u)
    (h : factorOut fuel u = some r) :
    ∃ k2 k3 k4 k5 k6 k7 : Nat,
      u = r * 7 ^ k7 * 6 ^ k6 * 5 ^ k5 * 4 ^ k4 * 3 ^ k3 * 2 ^ k2 := by
  rw [factorOut_eq] at h
  simp only [Option.bind_eq_some] at h
  obtain ⟨u2, h2, u3, h3, u4, h4, u5, h5, u6, h6, h7⟩ := h
  have s2 := divideOut_stripped (by norm_num) fuel u u2 hu h2
  have s3 := divideOut_stripped (by norm_num) fuel u2 u3 s2.one_le h3
  have s4 := divideOut_stripped (by norm_num) fuel u3 u4 s3.one_le h4
  have s5 := divideOut_stripped (by norm_num) fuel u4 u5 s4.one_le h5
  have s6 := divideOut_stripped (by norm_num) fuel u5 u6 s5.one_le h6
  have s7 := divideOut_stripped (by norm_num) fuel u6 r s6.one_le h7
  obtain ⟨k2, e2⟩ := s2.pow
  obtain ⟨k3, e3⟩ := s3.pow
  obtain ⟨k4, e4⟩ := s4.pow
  obtain ⟨k5, e5⟩ := s5.pow
  obtain ⟨k6, e6⟩ := s6.pow
  obtain ⟨k7, e7⟩ := s7.pow
  exact ⟨k2, k3, k4, k5, k6, k7, by rw [e2, e3, e4, e5, e6, e7]⟩

/-- The two readings of "factors completely into 2, 3, 5, 7" agree. -/
theorem smooth7_iff_prod (n : Int) :
    Smooth7 n ↔ ∃ a b c d : Nat, n = 2 ^ a * 3 ^ b * 5 ^ c * 7 ^ d := by
  constructor
  · intro hs
    have hn := hs.1
    have hfuel : n ≤ (n.toNat : Int) := by omega
    obtain ⟨r, hr⟩ := factorOut_isSome hn hfuel
    have hr1 : r = 1 := (factorOut_eq_one_iff hn hr).2 hs
    obtain ⟨k2, k3, k4, k5, k6, k7, hk⟩ := factorOut_pow hn hr
    refine ⟨k2 + 2 * k4 + k6, k3 + k6, k5, k7, ?_⟩
    rw [hk, hr1]
    have e4 : (4 : Int) ^ k4 = 2 ^ (2 * k4) := by rw [pow_mul]; norm_num
    have e6 : (6 : Int) ^ k6 = 2 ^ k6 * 3 ^ k6 := by rw [← mul_pow]; norm_num
    rw [e4, e6]
    ring
  · rintro ⟨a, b, c, d, rfl⟩
    have f2 : Smooth7 2 := by exact_mod_cast smooth7_natCast_of_le (f := 2) (by norm_num) (by norm_num)
    have f3 : Smooth7 3 := by exact_mod_cast smooth7_natCast_of_le (f := 3) (by norm_num) (by norm_num)
    have f5 : Smooth7 5 := by exact_mod_cast smooth7_natCast_of_le (f := 5) (by norm_num) (by norm_num)
    have f7 : Smooth7 7 := by exact_mod_cast smooth7_natCast_of_le (f := 7) (by norm_num) (by norm_num)
    exact smooth7_mul (smooth7_mul (smooth7_mul (smooth7_pow f2 a) (smooth7_pow f3 b))
      (smooth7_pow f5 c)) (smooth7_pow f7 d)

/-! ### The outer loop -/

theorem findFFTDimensionLoop_sound (fuel : Nat) :
    ∀ (rounds : Nat) (m r : Int), 1 ≤ m → findFFTDimensionLoop fuel rounds m = some r →
      m ≤ r ∧ Smooth7 r ∧ ∀ s, m ≤ s → Smooth7 s → r ≤ s := by
  intro rounds
  induction rounds with
  | zero => intro m r _ h; simp [findFFTDimensionLoop] at h
  | succ n ih =>
    intro m r hm h
    rw [findFFTDimensionLoop] at h
    cases hf : factorOut fuel m with
    | none => rw [hf] at h; simp at h
    | some u =>
      rw [hf] at h
      simp only at h
      split_ifs at h with hu
      · simp only [Option.some.injEq] at h
        subst h
        exact ⟨le_refl _, (factorOut_eq_one_iff hm hf).1 hu, fun s hs _ => hs⟩
      · obtain ⟨h1, h2, h3⟩ := ih (m + 1) r (by omega) h
        refine ⟨by omega, h2, fun s hs hsm => ?_⟩
        apply h3 s _ hsm
        have hne : s ≠ m := by
          rintro rfl
          exact hu ((factorOut_eq_one_iff hm hf).2 hsm)
        omega

theorem findFFTDimensionLoop_isSome (fuel : Nat) :
    ∀ (rounds : Nat) (m s : Int), 1 ≤ m → m ≤ s → Smooth7 s → s ≤ fuel →
      s - m < rounds → ∃ r, findFFTDimensionLoop fuel rounds m = some r := by
  intro rounds
  induction rounds with
  | zero => intro m s _ hms _ _ hr; simp at hr; omega
  | succ n ih =>
    intro m s hm hms hs hfuel hr
    rw [findFFTDimensionLoop]
    obtain ⟨u, hf⟩ := factorOut_isSome hm (le_trans hms hfuel)
    rw [hf]
    simp only
    split_ifs with hu
    · exact ⟨m, rfl⟩
    · have hne : s ≠ m := by
        rintro rfl
        exact hu ((factorOut_eq_one_iff hm hf).2 hs)
      push_cast at hr
      exact ih (m + 1) s (by omega) (by omega) hs hfuel (by omega)

/-- Between `m` and `2*m` there is a power of two. -/
theorem exists_pow_two_between (m : Nat) (hm : 1 ≤ m) :
    ∃ k : Nat, m ≤ 2 ^ k ∧ 2 ^ k < 2 * m := by
  induction m with
  | zero => omega
  | succ n ih =>
    rcases Nat.eq_zero_or_pos n with rfl | hn
    · exact ⟨0, by norm_num⟩
    · obtain ⟨k, h1, h2⟩ := ih hn
      by_cases hk : n + 1 ≤ 2 ^ k
      · exact ⟨k, hk, by omega⟩
      · exact ⟨k + 1, by rw [pow_succ]; omega, by rw [pow_succ]; omega⟩

theorem smooth7_two_pow (k : Nat) : Smooth7 (2 ^ k) :=
  (smooth7_iff_prod _).2 ⟨k, 0, 0, 0, by simp⟩

/-- From `minimum ≥ 1` on there is a 7-smooth integer below `2 * minimum`: a
power of two. -/
theorem exists_smooth7_between (minimum : Int) (hm : 1 ≤ minimum) :
    ∃ s : Int, Smooth7 s ∧ minimum ≤ s ∧ s < 2 * minimum := by
  obtain ⟨k, h1, h2⟩ := exists_pow_two_between minimum.toNat (by omega)
  have e : ((2 ^ k : Nat) : Int) = 2 ^ k := by push_cast; rfl
  refine ⟨2 ^ k, smooth7_two_pow k, ?_, ?_⟩
  · have : (minimum.toNat : Int) ≤ ((2 ^ k : Nat) : Int) := by exact_mod_cast h1
    rw [e] at this; omega
  · have : ((2 ^ k : Nat) : Int) < ((2 * minimum.toNat : Nat) : Int) := by exact_mod_cast h2
    rw [e] at this; push_cast at this; omega

/-- With at least `2 * minimum` units of fuel the function returns. -/
theorem findFFTDimension_isSome (minimum : Int) (fuel : Nat) (hfuel : 2 * minimum.toNat ≤ fuel) :
    ∃ r, findFFTDimension fuel minimum = some r := by
  unfold findFFTDimension
  split_ifs with h
  · exact ⟨1, rfl⟩
  · have hm : 1 ≤ minimum := by omega
    obtain ⟨s, hs, hle, hlt⟩ := exists_smooth7_between minimum hm
    have hf : (2 : Int) * minimum.toNat ≤ fuel := by exact_mod_cast hfuel
    apply findFFTDimensionLoop_isSome _ _ minimum s hm hle hs
    · omega
    · omega

/-- Whatever the fuel, a value returned for `minimum ≥ 1` is the least one
from `minimum` on that factors completely into 2, 3, 5, 7. -/
theorem findFFTDimension_sound {fuel : Nat} {minimum r : Int} (hm : 1 ≤ minimum)
    (h : findFFTDimension fuel minimum = some r) :
    minimum ≤ r ∧ Smooth7 r ∧ ∀ s, minimum ≤ s → Smooth7 s → r ≤ s := by
  unfold findFFTDimension at h
  rw [if_neg (by omega)] at h
  exact findFFTDimensionLoop_sound fuel fuel minimum r hm h

/-- A value below `2^31` that the search over the integers returns is returned
on 32-bit `int` as well. -/
theorem findFFTDimensionLoop32_of_loop (fuel : Nat) :
    ∀ (rounds : Nat) (m r : Int), 1 ≤ m → r ≤ 2147483647 →
      findFFTDimensionLoop fuel rounds m = some r →
      findFFTDimensionLoop32 fuel rounds m = some (.returned r) := by
  intro rounds
  induction rounds with
  | zero => intro m r _ _ h; simp [findFFTDimensionLoop] at h
  | succ n ih =>
    intro m r hm hr h
    rw [findFFTDimensionLoop] at h
    rw [findFFTDimensionLoop32]
    cases hf : factorOut fuel m with
    | none => rw [hf] at h; simp at h
    | some u =>
      rw [hf] at h
      simp only at h ⊢
      split_ifs at h with hu
      · simp only [Option.some.injEq] at h
        subst h
        rw [if_pos hu]
      · have hle := (findFFTDimensionLoop_sound fuel n (m + 1) r (by omega) h).1
        rw [if_neg hu, if_neg (by omega)]
        exact ih (m + 1) r (by omega) hr h

/-- A value returned on 32-bit `int` is the one that the search over the
integers returns, and it is in the range of `int`. -/
theorem findFFTDimensionLoop32_returned (fuel : Nat) :
    ∀ (rounds : Nat) (m r : Int), m ≤ 2147483647 →
      findFFTDimensionLoop32 fuel rounds m = some (.returned r) →
      findFFTDimensionLoop fuel rounds m = some r ∧ r ≤ 2147483647 := by
  intro rounds
  induction rounds with
  | zero => intro m r _ h; simp [findFFTDimensionLoop32] at h
  | succ n ih =>
    intro m r hm h
    rw [findFFTDimensionLoop32] at h
    rw [findFFTDimensionLoop]
    cases hf : factorOut fuel m with
    | none => rw [hf] at h; simp at h
    | some u =>
      rw [hf] at h
      simp only at h ⊢
      split_ifs at h with hu hmax
      · simp only [Option.some.injEq, IntOutcome.returned.injEq] at h
        subst h
        rw [if_pos hu]
        exact ⟨rfl, hm⟩
      · simp at h
      · rw [if_neg hu]
        exact ih (m + 1) r (by omega) h

/-- When the run on 32-bit `int` reaches the overflow, no value from `minimum`
up to `2147483647` factors completely into 2, 3, 5, 7. -/
theorem findFFTDimensionLoop32_overflow (fuel : Nat) :
    ∀ (rounds : Nat) (m : Int), 1 ≤ m →
      findFFTDimensionLoop32 fuel rounds m = some .overflow →
      ∀ s : Int, m ≤ s → s ≤ 2147483647 → ¬ Smooth7 s := by
  intro rounds
  induction rounds with
  | zero => intro m _ h; simp [findFFTDimensionLoop32] at h
  | succ n ih =>
    intro m hm h s hms hs hsmooth
    rw [findFFTDimensionLoop32] at h
    cases hf : factorOut fuel m with
    | none => rw [hf] at h; simp at h
    | some u =>
      rw [hf] at h
      simp only at h
      split_ifs at h with hu hmax
      · simp at h
      · have : s = m := by omega
        subst this
        exact hu ((factorOut_eq_one_iff hm hf).2 hsmooth)
      · by_cases e : s = m
        · subst e
          exact hu ((factorOut_eq_one_iff hm hf).2 hsmooth)
        · exact ih (m + 1) (by omega) h s (by omega) hs hsmooth

theorem smooth7_largest_int : Smooth7 2144153025 :=
  (smooth7_iff_prod _).2 ⟨0, 6, 2, 6, by norm_num⟩

/-- On 32-bit `int`, a value that is returned is the smallest integer from
`minimum` on that factors completely, and it is in the range of `int`. -/
theorem findFFTDimension32_sound (minimum : Int) (fuel : Nat) (r : Int) (hm : 1 ≤ minimum)
    (hmax : minimum ≤ 2147483647)
    (h : findFFTDimension32 fuel minimum = some (.returned r)) :
    minimum ≤ r ∧ r ≤ 2147483647 ∧ Smooth7 r ∧
      ∀ s : Int, minimum ≤ s → Smooth7 s → r ≤ s := by
  unfold findFFTDimension32 at h
  rw [if_neg (by omega)] at h
  obtain ⟨h1, h2⟩ := findFFTDimensionLoop32_returned fuel fuel minimum r hmax h
  obtain ⟨g1, g2, g3⟩ := findFFTDimensionLoop_sound fuel fuel minimum r hm h1
  exact ⟨g1, h2, g2, g3⟩

/-- On 32-bit `int`, the function returns with `2 * minimum` units of fuel when
some integer from `minimum` up to `2147483647` factors completely. -/
theorem findFFTDimension32_returns (minimum s : Int) (hm : 1 ≤ minimum) (hms : minimum ≤ s)
    (hs : s ≤ 2147483647) (hsmooth : Smooth7 s) :
    ∃ r : Int, findFFTDimension32 (2 * minimum.toNat) minimum = some (.returned r) ∧
      r ≤ s := by
  obtain ⟨r, hr⟩ := findFFTDimension_isSome minimum (2 * minimum.toNat) (le_refl _)
  obtain ⟨g1, g2, g3⟩ := findFFTDimension_sound hm hr
  have hrs : r ≤ s := g3 s hms hsmooth
  refine ⟨r, ?_, hrs⟩
  unfold findFFTDimension at hr
  rw [if_neg (by omega)] at hr
  unfold findFFTDimension32
  rw [if_neg (by omega)]
  exact findFFTDimensionLoop32_of_loop _ _ minimum r hm (by omega) hr

/-- On 32-bit `int` the run ends when there is fuel for the whole range. -/
theorem findFFTDimensionLoop32_isSome (fuel : Nat) (hfuel : (2147483647 : Int) ≤ fuel) :
    ∀ (rounds : Nat) (m : Int), 1 ≤ m → m ≤ 2147483647 → 2147483647 - m < rounds →
      ∃ outcome, findFFTDimensionLoop32 fuel rounds m = some outcome := by
  intro rounds
  induction rounds with
  | zero => intro m _ hm hr; simp at hr; omega
  | succ n ih =>
    intro m hm hmax hr
    rw [findFFTDimensionLoop32]
    obtain ⟨u, hf⟩ := factorOut_isSome hm (le_trans hmax hfuel)
    rw [hf]
    simp only
    split_ifs with hu hlast
    · exact ⟨_, rfl⟩
    · exact ⟨_, rfl⟩
    · push_cast at hr
      exact ih (m + 1) (by omega) (by omega) (by omega)

/-- On 32-bit `int`, with fuel for the whole range the run ends, and it ends in
the overflow exactly when no integer from `minimum` up to `2147483647` factors
completely. -/
theorem findFFTDimension32_total (minimum : Int) (fuel : Nat) (hm : 1 ≤ minimum)
    (hmax : minimum ≤ 2147483647) (hfuel : (2147483647 : Int) ≤ fuel) :
    ∃ outcome, findFFTDimension32 fuel minimum = some outcome ∧
      (outcome = .overflow ↔ ¬ ∃ s : Int, minimum ≤ s ∧ s ≤ 2147483647 ∧ Smooth7 s) := by
  have hex : ∃ outcome, findFFTDimension32 fuel minimum = some outcome := by
    unfold findFFTDimension32
    rw [if_neg (by omega)]
    exact findFFTDimensionLoop32_isSome fuel hfuel fuel minimum hm hmax (by omega)
  obtain ⟨outcome, ho⟩ := hex
  refine ⟨outcome, ho, ?_⟩
  cases outcome with
  | returned r =>
    obtain ⟨g1, g2, g3, _⟩ := findFFTDimension32_sound minimum fuel r hm hmax ho
    constructor
    · intro h
      exact absurd h (by simp)
    · intro h
      exact absurd ⟨r, g1, g2, g3⟩ h
  | overflow =>
    constructor
    · rintro _ ⟨s, h1, h2, h3⟩
      unfold findFFTDimension32 at ho
      rw [if_neg (by omega)] at ho
      exact findFFTDimensionLoop32_overflow fuel fuel minimum hm ho s h1 h2 h3
    · intro _
      rfl

/-- C1, with the bound that 32-bit `int` imposes: for every `minimum` with
`1 <= minimum <= 2144153025` (`= 3^6 * 5^2 * 7^6`, a value below `2^31` that
factors completely), `findFFTDimension(minimum)` returns (with `2 * minimum`
units of fuel, and with the same outcome whenever the run ends) the smallest
integer `r >= minimum` whose only prime factors are 2, 3, 5 and 7; `r` is of the
form `2^a * 3^b * 5^c * 7^d`, lies below `2 * minimum` and is at most
`2144153025`.  For every `int` argument `>= 1`, a value that is returned is this
smallest integer and is in the range of `int`; a value is returned exactly
when such an integer exists up to `2147483647`, and otherwise the run (with
fuel for the whole range) ends in the overflow of `minimum++`.  The function
maps 10 to 10, 11 to 12, 13 to 14, 14 to 14 and 17 to 18. -/
theorem findFFTDimension32_smallest_smooth :
    (∀ minimum : Int, 1 ≤ minimum → minimum ≤ 2144153025 →
      ∃ r : Int, findFFTDimension32 (2 * minimum.toNat) minimum = some (.returned r) ∧
        (∀ (fuel : Nat) (outcome : IntOutcome),
          findFFTDimension32 fuel minimum = some outcome → outcome = .returned r) ∧
        minimum ≤ r ∧ r ≤ 2144153025 ∧ r < 2 * minimum ∧ Smooth7 r ∧
        (∃ a b c d : Nat, r = 2 ^ a * 3 ^ b * 5 ^ c * 7 ^ d) ∧
        ∀ s : Int, minimum ≤ s → Smooth7 s → r ≤ s) ∧
    (∀ (minimum : Int) (fuel : Nat) (r : Int), 1 ≤ minimum → minimum ≤ 2147483647 →
      findFFTDimension32 fuel minimum = some (.returned r) →
      minimum ≤ r ∧ r ≤ 2147483647 ∧ Smooth7 r ∧ ∀ s : Int, minimum ≤ s → Smooth7 s → r ≤ s) ∧
    (∀ minimum : Int, 1 ≤ minimum → minimum ≤ 2147483647 →
      ((∃ (fuel : Nat) (r : Int), findFFTDimension32 fuel minimum = some (.returned r)) ↔
        ∃ s : Int, minimum ≤ s ∧ s ≤ 2147483647 ∧ Smooth7 s)) ∧
    (∀ (minimum : Int) (fuel : Nat), 1 ≤ minimum → minimum ≤ 2147483647 →
      (2147483647 : Int) ≤ fuel →
      ∃ outcome, findFFTDimension32 fuel minimum = some outcome ∧
        (outcome = .overflow ↔ ¬ ∃ s : Int, minimum ≤ s ∧ s ≤ 2147483647 ∧ Smooth7 s)) ∧
    findFFTDimension32 10 10 = some (.returned 10) ∧
    findFFTDimension32 12 11 = some (.returned 12) ∧
    findFFTDimension32 14 13 = some (.returned 14) ∧
    findFFTDimension32 14 14 = some (.returned 14) ∧
    findFFTDimension32 18 17 = some (.returned 18) := by
  have hsound := findFFTDimension32_sound
  have hreturns := findFFTDimension32_returns
  refine ⟨?_, hsound, ?_, findFFTDimension32_total, by decide, by decide, by decide, by decide,
    by decide⟩
  · intro minimum hm hbound
    obtain ⟨r, hr, hrs⟩ := hreturns minimum 2144153025 hm hbound (by norm_num)
      smooth7_largest_int
    obtain ⟨g1, g2, g3, g4⟩ := hsound minimum _ r hm (by omega) hr
    obtain ⟨s, hs, hle, hlt⟩ := exists_smooth7_between minimum hm
    refine ⟨r, hr, ?_, g1, hrs, lt_of_le_of_lt (g4 s hle hs) hlt, g3,
      (smooth7_iff_prod r).1 g3, g4⟩
    intro fuel outcome ho
    cases outcome with
    | returned r' =>
      obtain ⟨k1, k2, k3, k4⟩ := hsound minimum fuel r' hm (by omega) ho
      have : r' = r := le_antisymm (k4 r g1 g3) (g4 r' k1 k3)
      rw [this]
    | overflow =>
      unfold findFFTDimension32 at ho
      rw [if_neg (by omega)] at ho
      exact absurd g3 (findFFTDimensionLoop32_overflow fuel fuel minimum hm ho r g1 g2)
  · intro minimum hm hmax
    constructor
    · rintro ⟨fuel, r, h⟩
      obtain ⟨g1, g2, g3, _⟩ := hsound minimum fuel r hm hmax h
      exact ⟨r, g1, g2, g3⟩
    · rintro ⟨s, h1, h2, h3⟩
      obtain ⟨r, hr, _⟩ := hreturns minimum s hm h1 h2 h3
      exact ⟨_, r, hr⟩

/-- C1 at `minimum = 11`: the function returns with 22 units of fuel, and what
it returns is the least integer from 11 on that factors completely. -/
theorem findFFTDimension32_smallest_smooth_witness :
    (1 : Int) ≤ 11 ∧ (11 : Int) ≤ 2144153025 ∧
    ∃ r : Int, findFFTDimension32 (2 * (11 : Int).toNat) 11 = some (.returned r) ∧
      (∀ (fuel : Nat) (outcome : IntOutcome),
        findFFTDimension32 fuel 11 = some outcome → outcome = .returned r) ∧
      11 ≤ r ∧ r ≤ 2144153025 ∧ r < 2 * 11 ∧ Smooth7 r ∧
      (∃ a b c d : Nat, r = 2 ^ a * 3 ^ b * 5 ^ c * 7 ^ d) ∧
      ∀ s : Int, 11 ≤ s → Smooth7 s → r ≤ s :=
  ⟨by decide, by decide, findFFTDimension32_smallest_smooth.1 11 (by decide) (by decide)⟩

/-- Counterexample for C1 as stated: `2147483647` is an `int >= 1`; it does not
factor completely (nothing is divided out of it), so the function evaluates
`minimum++` on the largest `int` and returns nothing, whatever the fuel.  The
smallest integer from `2147483647` on that factors completely is `2^31`, which
the search over the unbounded integers finds and which is not an `int`. -/
theorem findFFTDimension32_overflow_counterexample :
    (1 : Int) ≤ 2147483647 ∧
    findFFTDimension32 1 2147483647 = some .overflow ∧
    (∀ (fuel : Nat) (r : Int), findFFTDimension32 fuel 2147483647 ≠ some (.returned r)) ∧
    findFFTDimension 64 2147483647 = some (2 ^ 31) ∧
    (2147483647 : Int) < 2 ^ 31 := by
  have hover : findFFTDimension32 1 2147483647 = some .overflow := by decide
  have hunb : findFFTDimension 64 2147483647 = some (2 ^ 31) := by decide
  refine ⟨by decide, hover, ?_, hunb, by norm_num⟩
  intro fuel r h
  obtain ⟨g1, g2, g3, g4⟩ :=
    findFFTDimension32_sound 2147483647 fuel r (by decide) (le_refl _) h
  have hr : r = 2147483647 := le_antisymm g2 g1
  subst hr
  have h31 := (findFFTDimension_sound (by decide) hunb).2.2 2147483647 (le_refl _) g3
  norm_num at h31

/-! ## C2 -/

/-- With enough fuel `pmeGridSize` has a value. -/
theorem pmeGridSize_isSome {D F R : Type} (fm : FloatModel D F R)
    (force : AmoebaMultipoleForce D) (computed : PMEParameters D) :
    ∃ fuel v, pmeGridSize fm fuel force computed = some v := by
  let fuel := 2 * computed.gridSizeX.toNat + 2 * computed.gridSizeY.toNat +
    2 * computed.gridSizeZ.toNat
  obtain ⟨x, hx⟩ := findFFTDimension_isSome computed.gridSizeX fuel (by omega)
  obtain ⟨y, hy⟩ := findFFTDimension_isSome computed.gridSizeY fuel (by omega)
  obtain ⟨z, hz⟩ := findFFTDimension_isSome computed.gridSizeZ fuel (by omega)
  refine ⟨fuel, ?_⟩
  by_cases hc : force.pmeGridDimension.1 = 0 ∨ fm.eqZeroD force.aEwald = true
  · exact ⟨(computed.alpha, x, y, z), by simp only [pmeGridSize, if_pos hc, hx, hy, hz]⟩
  · exact ⟨(force.aEwald, force.pmeGridDimension.1, force.pmeGridDimension.2.1,
      force.pmeGridDimension.2.2), by simp only [pmeGridSize, if_neg hc]⟩

/-- The particle loops of `initialize` and of `copyParametersToContext` push
the same entries. -/
theorem copyParticle_vectors {D F R : Type} (fm : FloatModel D F R) (i : Nat)
    (p : MultipoleInfo D) (st st' : HostVectors F × List (Real4 R)) (h : st.1 = st'.1) :
    (copyParticle fm i p st).1 = (initializeParticle fm i p st').1 := by
  simp only [copyParticle, initializeParticle, h]

theorem copyParticles_vectors {D F R : Type} (fm : FloatModel D F R) :
    ∀ (ps : List (MultipoleInfo D)) (i : Nat) (st st' : HostVectors F × List (Real4 R)),
      st.1 = st'.1 → (copyParticles fm ps i st).1 = (initializeParticles fm ps i st').1 := by
  intro ps
  induction ps with
  | nil => intro i st st' h; simpa [copyParticles, initializeParticles, forEachParticle] using h
  | cons p rest ih =>
    intro i st st' h
    simp only [copyParticles, initializeParticles, forEachParticle] at ih ⊢
    exact ih (i + 1) _ _ (copyParticle_vectors fm i p st st' h)

/-- The sizes of the host vectors after the particle loop. -/
theorem initializeParticles_length {D F R : Type} (fm : FloatModel D F R) :
    ∀ (ps : List (MultipoleInfo D)) (i : Nat) (st : HostVectors F × List (Real4 R)),
      (initializeParticles fm ps i st).1.dampingAndTholeVec.length =
        st.1.dampingAndTholeVec.length + ps.length ∧
      (initializeParticles fm ps i st).1.polarizabilityVec.length =
        st.1.polarizabilityVec.length + ps.length ∧
      (initializeParticles fm ps i st).1.multipoleParticlesVec.length =
        st.1.multipoleParticlesVec.length + ps.length ∧
      (initializeParticles fm ps i st).1.molecularDipolesVec.length =
        st.1.molecularDipolesVec.length + 3 * ps.length ∧
      (initializeParticles fm ps i st).1.molecularQuadrupolesVec.length =
        st.1.molecularQuadrupolesVec.length + 5 * ps.length := by
  intro ps
  induction ps with
  | nil => intro i st; simp [initializeParticles, forEachParticle]
  | cons p rest ih =>
    intro i st
    simp only [initializeParticles, forEachParticle] at ih ⊢
    obtain ⟨h1, h2, h3, h4, h5⟩ := ih (i + 1) (initializeParticle fm i p st)
    rw [h1, h2, h3, h4, h5]
    simp only [initializeParticle, List.length_append, List.length_cons, List.length_nil]
    refine ⟨?_, ?_, ?_, ?_, ?_⟩ <;> omega

/-- The padding loop appends zeros: 1, 1, 1, 3 and 5 per trip. -/
theorem padVectors_eq {D F R : Type} (fm : FloatModel D F R) :
    ∀ (count : Nat) (v : HostVectors F),
      (padVectors fm count v).dampingAndTholeVec =
        v.dampingAndTholeVec ++ List.replicate count ⟨fm.zeroF, fm.zeroF⟩ ∧
      (padVectors fm count v).polarizabilityVec =
        v.polarizabilityVec ++ List.replicate count fm.zeroF ∧
      (padVectors fm count v).multipoleParticlesVec =
        v.multipoleParticlesVec ++ List.replicate count ⟨0, 0, 0, 0⟩ ∧
      (padVectors fm count v).molecularDipolesVec =
        v.molecularDipolesVec ++ List.replicate (3 * count) fm.zeroF ∧
      (padVectors fm count v).molecularQuadrupolesVec =
        v.molecularQuadrupolesVec ++ List.replicate (5 * count) fm.zeroF := by
  intro count
  induction count with
  | zero => intro v; simp [padVectors]
  | succ n ih =>
    intro v
    simp only [padVectors]
    obtain ⟨h1, h2, h3, h4, h5⟩ := ih (pushPadding fm v)
    rw [h1, h2, h3, h4, h5]
    simp only [pushPadding, List.append_assoc]
    refine ⟨?_, ?_, ?_, ?_, ?_⟩ <;> rfl

/-- An entry in the appended zeros. -/
theorem getElem?_append_replicate {α : Type} (l : List α) (count : Nat) (z : α) (i : Nat)
    (h1 : l.length ≤ i) (h2 : i < l.length + count) :
    (l ++ List.replicate count z)[i]? = some z := by
  rw [List.getElem?_append_right h1, List.getElem?_replicate, if_pos (by omega)]

/-- Padding vectors that hold `n` particles up to `padded ≥ n` particles gives
the padded sizes and zero entries from `n` on. -/
theorem padVectors_padded {D F R : Type} (fm : FloatModel D F R) (n padded : Nat)
    (v : HostVectors F) (hn : n ≤ padded)
    (l1 : v.dampingAndTholeVec.length = n) (l2 : v.polarizabilityVec.length = n)
    (l3 : v.multipoleParticlesVec.length = n) (l4 : v.molecularDipolesVec.length = 3 * n)
    (l5 : v.molecularQuadrupolesVec.length = 5 * n) :
    PaddedTables fm n padded (padVectors fm (padded - n) v) := by
  obtain ⟨h1, h2, h3, h4, h5⟩ := padVectors_eq fm (padded - n) v
  constructor
  · rw [h1, List.length_append, List.length_replicate, l1]; omega
  · rw [h2, List.length_append, List.length_replicate, l2]; omega
  · rw [h3, List.length_append, List.length_replicate, l3]; omega
  · rw [h4, List.length_append, List.length_replicate, l4]; omega
  · rw [h5, List.length_append, List.length_replicate, l5]; omega
  · intro i hi hp
    rw [h1]; exact getElem?_append_replicate _ _ _ _ (by omega) (by omega)
  · intro i hi hp
    rw [h2]; exact getElem?_append_replicate _ _ _ _ (by omega) (by omega)
  · intro i hi hp
    rw [h3]; exact getElem?_append_replicate _ _ _ _ (by omega) (by omega)
  · intro i j hi hp hj
    rw [h4]; exact getElem?_append_replicate _ _ _ _ (by omega) (by omega)
  · intro i j hi hp hj
    rw [h5]; exact getElem?_append_replicate _ _ _ _ (by omega) (by omega)

/-- The host vectors of `initialize` are padded. -/
theorem initializeHost_padded {D F R : Type} (fm : FloatModel D F R)
    (force : AmoebaMultipoleForce D) (cu : CudaContext R)
    (hn : force.getNumMultipoles ≤ cu.paddedNumAtoms) :
    PaddedTables fm force.getNumMultipoles cu.paddedNumAtoms (initializeHost fm force cu).1 := by
  obtain ⟨h1, h2, h3, h4, h5⟩ := initializeParticles_length fm force.multipoles 0
    ((HostVectors.empty : HostVectors F),
      List.replicate cu.posq.length (⟨fm.zeroR, fm.zeroR, fm.zeroR, fm.zeroR⟩ : Real4 R))
  simp only [HostVectors.empty, List.length_nil, Nat.zero_add] at h1 h2 h3 h4 h5
  exact padVectors_padded fm _ _ _ hn h1 h2 h3 h4 h5

/-- The host vectors of `copyParametersToContext` are padded. -/
theorem copyHost_padded {D F R : Type} (fm : FloatModel D F R)
    (force : AmoebaMultipoleForce D) (padded : Nat) (pinned : List (Real4 R))
    (hn : force.getNumMultipoles ≤ padded) :
    PaddedTables fm force.getNumMultipoles padded
      (padVectors fm (padded - force.getNumMultipoles)
        (copyParticles fm force.multipoles 0 (HostVectors.empty, pinned)).1) := by
  rw [copyParticles_vectors fm force.multipoles 0 _ (HostVectors.empty, pinned) rfl]
  obtain ⟨h1, h2, h3, h4, h5⟩ := initializeParticles_length fm force.multipoles 0
    ((HostVectors.empty : HostVectors F), pinned)
  simp only [HostVectors.empty, List.length_nil, Nat.zero_add] at h1 h2 h3 h4 h5
  exact padVectors_padded fm _ _ _ hn h1 h2 h3 h4 h5

/-- What `initialize` leaves in the five tables, however it ends. -/
theorem initialize_uploaded {D F R : Type} (fm : FloatModel D F R) (fuel : Nat)
    (env : InitEnv D R) (force : AmoebaMultipoleForce D)
    (st : ElectrostaticsKernel F R × CudaContext R)
    (res : Result (ElectrostaticsKernel F R × CudaContext R))
    (h : ElectrostaticsKernel.initialize fm fuel env force st = some res) :
    Uploaded res.state.1 (initializeHost fm force st.2).1 ∧
    res.state.1.hasQuadrupoles = (initializeHost fm force st.2).2.2 ∧
    res.state.1.hasInitializedScaleFactors = st.1.hasInitializedScaleFactors ∧
    res.state.1.multipolesAreValid = st.1.multipolesAreValid ∧
    res.state.2.posq = (initializeHost fm force st.2).2.1 ∧
    res.state.2.numAtoms = st.2.numAtoms ∧
    res.state.2.paddedNumAtoms = st.2.paddedNumAtoms ∧
    res.state.2.log = st.2.log := by
  unfold ElectrostaticsKernel.initialize at h
  by_cases hm : force.nonbondedMethod = NonbondedMethod.PME
  · simp only [hm, decide_True, if_true] at h
    cases hv : pmeGridSize fm fuel force env.calcPMEParameters with
    | none => simp [hv] at h
    | some v =>
      obtain ⟨a, gx, gy, gz⟩ := v
      simp only [hv] at h
      by_cases hok : env.cufftPlanOk = true
      · rw [if_pos hok] at h
        simp only [Option.some.injEq] at h
        subst h
        by_cases hp : force.polarizationType = PolarizationType.Mutual <;>
          simp [Result.state, Uploaded, hp]
      · rw [if_neg hok] at h
        simp only [Option.some.injEq] at h
        subst h
        by_cases hp : force.polarizationType = PolarizationType.Mutual <;>
          simp [Result.state, Uploaded, hp]
  · simp only [hm, decide_False, Bool.false_eq_true, if_false, Option.some.injEq] at h
    subst h
    by_cases hp : force.polarizationType = PolarizationType.Mutual <;>
      simp [Result.state, Uploaded, hp]

/-- With enough fuel `initialize` ends. -/
theorem initialize_isSome {D F R : Type} (fm : FloatModel D F R)
    (env : InitEnv D R) (force : AmoebaMultipoleForce D)
    (st : ElectrostaticsKernel F R × CudaContext R) :
    ∃ fuel res, ElectrostaticsKernel.initialize fm fuel env force st = some res := by
  obtain ⟨fuel, ⟨a, gx, gy, gz⟩, hv⟩ := pmeGridSize_isSome fm force env.calcPMEParameters
  refine ⟨fuel, ?_⟩
  unfold ElectrostaticsKernel.initialize
  by_cases hm : force.nonbondedMethod = NonbondedMethod.PME
  · simp only [hm, decide_True, if_true, hv]
    by_cases hok : env.cufftPlanOk = true
    · exact ⟨_, by rw [if_pos hok]⟩
    · exact ⟨_, by rw [if_neg hok]⟩
  · simp only [hm, decide_False, Bool.false_eq_true, if_false]
    exact ⟨_, rfl⟩

/-- A particle loop whose body writes only entry `i` of the `posq` image
leaves the entries below the first index alone. -/
theorem forEachParticle_frame {D F R : Type}
    (body : Nat → MultipoleInfo D → HostVectors F × List (Real4 R) →
      HostVectors F × List (Real4 R))
    (hne : ∀ i p st idx, idx ≠ i → (body i p st).2[idx]? = st.2[idx]?) :
    ∀ (ps : List (MultipoleInfo D)) (i : Nat) (st : HostVectors F × List (Real4 R)) (idx : Nat),
      idx < i → (forEachParticle body ps i st).2[idx]? = st.2[idx]? := by
  intro ps
  induction ps with
  | nil => intro i st idx _; rfl
  | cons p rest ih =>
    intro i st idx h
    simp only [forEachParticle]
    rw [ih (i + 1) _ idx (by omega), hne i p st idx (by omega)]

/-- A particle loop whose body stores the charge of particle `i` into the `w`
component of entry `i` of the `posq` image leaves there, for every particle,
its charge at the context's precision. -/
theorem forEachParticle_charge {D F R : Type} (fm : FloatModel D F R)
    (body : Nat → MultipoleInfo D → HostVectors F × List (Real4 R) →
      HostVectors F × List (Real4 R))
    (hne : ∀ i p st idx, idx ≠ i → (body i p st).2[idx]? = st.2[idx]?)
    (heq : ∀ i p st, ((body i p st).2[i]?).map (fun e => e.w) =
      (st.2[i]?).map (fun _ => fm.toDevice p.charge)) :
    ∀ (ps : List (MultipoleInfo D)) (i : Nat) (st : HostVectors F × List (Real4 R)) (j : Nat)
      (hj : j < ps.length),
      ((forEachParticle body ps i st).2[i + j]?).map (fun e => e.w) =
        (st.2[i + j]?).map (fun _ => fm.toDevice ps[j].charge) := by
  intro ps
  induction ps with
  | nil => intro i st j hj; simp at hj
  | cons p rest ih =>
    intro i st j hj
    simp only [forEachParticle]
    cases j with
    | zero =>
      have hfr := forEachParticle_frame body hne rest (i + 1) (body i p st) i (by omega)
      simp only [Nat.add_zero, hfr, List.getElem_cons_zero]
      exact heq i p st
    | succ j =>
      have hj2 : j < rest.length := by simpa using hj
      have e : i + (j + 1) = (i + 1) + j := by omega
      rw [e, ih (i + 1) _ j hj2, hne i p st (i + 1 + j) (by omega)]
      simp

theorem initializeParticle_ne {D F R : Type} (fm : FloatModel D F R) (i : Nat)
    (p : MultipoleInfo D) (st : HostVectors F × List (Real4 R)) (idx : Nat) (h : idx ≠ i) :
    (initializeParticle fm i p st).2[idx]? = st.2[idx]? := by
  simp only [initializeParticle]
  exact List.getElem?_set_ne (Ne.symm h)

theorem initializeParticle_eq {D F R : Type} (fm : FloatModel D F R) (i : Nat)
    (p : MultipoleInfo D) (st : HostVectors F × List (Real4 R)) :
    ((initializeParticle fm i p st).2[i]?).map (fun e => e.w) =
      (st.2[i]?).map (fun _ => fm.toDevice p.charge) := by
  simp only [initializeParticle]
  by_cases h : i < st.2.length
  · simp [List.getElem?_set_self, h]
  · have h2 : st.2.length ≤ i := by omega
    rw [List.getElem?_eq_none (by rw [List.length_set]; exact h2), List.getElem?_eq_none h2]
    rfl

theorem copyParticle_ne {D F R : Type} (fm : FloatModel D F R) (i : Nat)
    (p : MultipoleInfo D) (st : HostVectors F × List (Real4 R)) (idx : Nat) (h : idx ≠ i) :
    (copyParticle fm i p st).2[idx]? = st.2[idx]? := by
  simp only [copyParticle]
  cases st.2[i]? with
  | none => rfl
  | some e => exact List.getElem?_set_ne (Ne.symm h)

theorem copyParticle_eq {D F R : Type} (fm : FloatModel D F R) (i : Nat)
    (p : MultipoleInfo D) (st : HostVectors F × List (Real4 R)) :
    ((copyParticle fm i p st).2[i]?).map (fun e => e.w) =
      (st.2[i]?).map (fun _ => fm.toDevice p.charge) := by
  simp only [copyParticle]
  cases hg : st.2[i]? with
  | none => simp [hg]
  | some e =>
    have h : i < st.2.length := by
      by_contra hc
      rw [List.getElem?_eq_none (by omega)] at hg
      exact absurd hg (by simp)
    simp [List.getElem?_set_self, h]

/-- The quadrupole entries pushed by the particle loop are the stored
components of the particles. -/
theorem initializeParticles_quadrupoles {D F R : Type} (fm : FloatModel D F R) :
    ∀ (ps : List (MultipoleInfo D)) (i : Nat) (st : HostVectors F × List (Real4 R)) (q : F),
      q ∈ (initializeParticles fm ps i st).1.molecularQuadrupolesVec ↔
        q ∈ st.1.molecularQuadrupolesVec ∨ ∃ p ∈ ps, q ∈ storedQuadrupole fm p := by
  intro ps
  induction ps with
  | nil => intro i st q; simp [initializeParticles, forEachParticle]
  | cons p rest ih =>
    intro i st q
    simp only [initializeParticles, forEachParticle] at ih ⊢
    rw [ih (i + 1) (initializeParticle fm i p st) q]
    have e : (initializeParticle fm i p st).1.molecularQuadrupolesVec =
        st.1.molecularQuadrupolesVec ++ storedQuadrupole fm p := rfl
    rw [e, List.mem_append]
    constructor
    · rintro ((h | h) | ⟨p', hp', h⟩)
      · exact Or.inl h
      · exact Or.inr ⟨p, List.mem_cons_self _ _, h⟩
      · exact Or.inr ⟨p', List.mem_cons_of_mem _ hp', h⟩
    · rintro (h | ⟨p', hp', h⟩)
      · exact Or.inl (Or.inl h)
      · rcases List.mem_cons.1 hp' with rfl | hr
        · exact Or.inl (Or.inr h)
        · exact Or.inr ⟨p', hr, h⟩

/-! ### The three ways `copyParametersToContext` ends -/

theorem copy_raised_count {D F R : Type} (fm : FloatModel D F R)
    (force : AmoebaMultipoleForce D) (st : ElectrostaticsKernel F R × CudaContext R)
    (h : force.getNumMultipoles ≠ st.2.numAtoms) :
    ElectrostaticsKernel.copyParametersToContext fm force st =
      .raised .numMultipolesChanged st := by
  unfold ElectrostaticsKernel.copyParametersToContext
  simp only [if_pos h]

theorem copy_raised_quadrupole {D F R : Type} (fm : FloatModel D F R)
    (force : AmoebaMultipoleForce D) (st : ElectrostaticsKernel F R × CudaContext R)
    (h : force.getNumMultipoles = st.2.numAtoms)
    (hq : st.1.hasQuadrupoles = false ∧
      (copyParticles fm force.multipoles 0 (HostVectors.empty, st.2.posq)).1.molecularQuadrupolesVec.any
        fm.neZeroF = true) :
    ElectrostaticsKernel.copyParametersToContext fm force st =
      .raised .nonZeroQuadrupole (st.1, { st.2 with
        pinnedBuffer := (copyParticles fm force.multipoles 0 (HostVectors.empty, st.2.posq)).2 }) := by
  unfold ElectrostaticsKernel.copyParametersToContext
  simp only [ne_eq, h, not_true_eq_false, if_false, if_pos hq]

theorem copy_returned {D F R : Type} (fm : FloatModel D F R)
    (force : AmoebaMultipoleForce D) (st : ElectrostaticsKernel F R × CudaContext R)
    (h : force.getNumMultipoles = st.2.numAtoms)
    (hq : ¬ (st.1.hasQuadrupoles = false ∧
      (copyParticles fm force.multipoles 0 (HostVectors.empty, st.2.posq)).1.molecularQuadrupolesVec.any
        fm.neZeroF = true)) :
    ( ElectrostaticsKernel.copyParametersToContext fm force st).isRaised = false ∧
    ElectrostaticsKernel.copyParametersToContext fm force st =
      .returned ( ElectrostaticsKernel.copyParametersToContext fm force st).state ∧
    Uploaded ( ElectrostaticsKernel.copyParametersToContext fm force st).state.1
      (padVectors fm (st.2.paddedNumAtoms - force.getNumMultipoles)
        (copyParticles fm force.multipoles 0 (HostVectors.empty, st.2.posq)).1) ∧
    ( ElectrostaticsKernel.copyParametersToContext fm force st).state.1.multipolesAreValid
      = false ∧
    ( ElectrostaticsKernel.copyParametersToContext fm force st).state.2.posq =
      (copyParticles fm force.multipoles 0 (HostVectors.empty, st.2.posq)).2 := by
  unfold ElectrostaticsKernel.copyParametersToContext
  simp only [ne_eq, h, not_true_eq_false, if_false, if_neg hq]
  exact ⟨rfl, rfl, ⟨rfl, rfl, rfl, rfl, rfl⟩, rfl, rfl⟩

/-- The exception for a quadrupole is thrown exactly for a stored component
that compares unequal to zero. -/
theorem copy_any_quadrupole {D F R : Type} (fm : FloatModel D F R)
    (force : AmoebaMultipoleForce D) (pinned : List (Real4 R)) :
    (copyParticles fm force.multipoles 0 (HostVectors.empty, pinned)).1.molecularQuadrupolesVec.any
        fm.neZeroF = true ↔
      ∃ p ∈ force.multipoles, ∃ q ∈ storedQuadrupole fm p, fm.neZeroF q = true := by
  rw [copyParticles_vectors fm force.multipoles 0 _ (HostVectors.empty, pinned) rfl,
    List.any_eq_true]
  constructor
  · rintro ⟨q, hq, hne⟩
    rcases (initializeParticles_quadrupoles fm force.multipoles 0 _ q).1 hq with h | ⟨p, hp, h⟩
    · simp [HostVectors.empty] at h
    · exact ⟨p, hp, q, h, hne⟩
  · rintro ⟨p, hp, q, hq, hne⟩
    exact ⟨q, (initializeParticles_quadrupoles fm force.multipoles 0 _ q).2
      (Or.inr ⟨p, hp, hq⟩), hne⟩

/-! ## C3 -/

/-- C3: whenever `paddedNumAtoms ≥ numMultipoles`, the host vectors that
`initialize` uploads (it ends with enough fuel, and however it ends) and the
ones that `copyParametersToContext` uploads when it returns have
`paddedNumAtoms` entries for `dampingAndThole`, `polarizability` and
`multipoleParticles`, `3 * paddedNumAtoms` for `molecularDipoles` and
`5 * paddedNumAtoms` for `molecularQuadrupoles`, and every entry of a particle
index `i` with `numMultipoles ≤ i < paddedNumAtoms` is zero. -/
theorem host_tables_padded {D F R : Type} (fm : FloatModel D F R)
    (force : AmoebaMultipoleForce D) (st : ElectrostaticsKernel F R × CudaContext R)
    (hn : force.getNumMultipoles ≤ st.2.paddedNumAtoms) :
    (∀ env : InitEnv D R,
      (∃ fuel res, ElectrostaticsKernel.initialize fm fuel env force st = some res) ∧
      ∀ fuel res, ElectrostaticsKernel.initialize fm fuel env force st = some res →
        ∃ v, Uploaded res.state.1 v ∧
          PaddedTables fm force.getNumMultipoles st.2.paddedNumAtoms v) ∧
    ∀ st', ElectrostaticsKernel.copyParametersToContext fm force st = .returned st' →
      ∃ v, Uploaded st'.1 v ∧ PaddedTables fm force.getNumMultipoles st.2.paddedNumAtoms v := by
  refine ⟨fun env => ⟨initialize_isSome fm env force st, fun fuel res h => ?_⟩, fun st' h => ?_⟩
  · exact ⟨_, (initialize_uploaded fm fuel env force st res h).1,
      initializeHost_padded fm force st.2 hn⟩
  · by_cases hc : force.getNumMultipoles = st.2.numAtoms
    · by_cases hq : st.1.hasQuadrupoles = false ∧
          (copyParticles fm force.multipoles 0
            (HostVectors.empty, st.2.posq)).1.molecularQuadrupolesVec.any fm.neZeroF = true
      · rw [copy_raised_quadrupole fm force st hc hq] at h
        exact absurd h (by simp)
      · obtain ⟨-, h2, hu, -, -⟩ := copy_returned fm force st hc hq
        have e : ( ElectrostaticsKernel.copyParametersToContext fm force st).state = st' := by
          rw [h]; rfl
        rw [e] at hu
        exact ⟨_, hu, copyHost_padded fm force st.2.paddedNumAtoms st.2.posq hn⟩
    · rw [copy_raised_count fm force st hc] at h
      exact absurd h (by simp)

/-- C3 at a concrete input: two particles in a context padded to four atoms. -/
theorem host_tables_padded_witness :
    toyForce2.getNumMultipoles ≤ (toyInitialized).2.paddedNumAtoms ∧
    ∃ v, Uploaded (( ElectrostaticsKernel.copyParametersToContext toyModel toyForce2
        toyInitialized).state).1 v ∧ PaddedTables toyModel 2 4 v :=
  ⟨by decide, (host_tables_padded toyModel toyForce2 toyInitialized (by decide)).2 _ rfl⟩

/-! ## C4 -/

/-- C4: `copyParametersToContext` raises if and only if the force's multipole
count differs from the context's atom count, or the kernel has
`hasQuadrupoles = false` and one of the five stored single-precision
quadrupole components of some particle compares unequal to zero.  When it
raises, the kernel object (the five tables and `multipolesAreValid` among its
members), `posq`, the reordering flag and the log are as before the call; when
it does not raise, `multipolesAreValid` is `false` afterwards; and with
`hasQuadrupoles = true` and an unchanged count it never raises. -/
theorem copyParametersToContext_raises_iff {D F R : Type} (fm : FloatModel D F R)
    (force : AmoebaMultipoleForce D) (st : ElectrostaticsKernel F R × CudaContext R) :
    (( ElectrostaticsKernel.copyParametersToContext fm force st).isRaised = true ↔
      (force.getNumMultipoles ≠ st.2.numAtoms ∨
        (st.1.hasQuadrupoles = false ∧
          ∃ p ∈ force.multipoles, ∃ q ∈ storedQuadrupole fm p, fm.neZeroF q = true))) ∧
    (( ElectrostaticsKernel.copyParametersToContext fm force st).isRaised = true →
      ( ElectrostaticsKernel.copyParametersToContext fm force st).state.1 = st.1 ∧
      ( ElectrostaticsKernel.copyParametersToContext fm force st).state.2.posq = st.2.posq ∧
      ( ElectrostaticsKernel.copyParametersToContext fm force st).state.2.moleculesInvalidated =
        st.2.moleculesInvalidated ∧
      ( ElectrostaticsKernel.copyParametersToContext fm force st).state.2.log = st.2.log) ∧
    (( ElectrostaticsKernel.copyParametersToContext fm force st).isRaised = false →
      ( ElectrostaticsKernel.copyParametersToContext fm force st).state.1.multipolesAreValid
        = false) ∧
    (st.1.hasQuadrupoles = true → force.getNumMultipoles = st.2.numAtoms →
      ( ElectrostaticsKernel.copyParametersToContext fm force st).isRaised = false) := by
  by_cases hc : force.getNumMultipoles = st.2.numAtoms
  · by_cases hq : st.1.hasQuadrupoles = false ∧
        (copyParticles fm force.multipoles 0
          (HostVectors.empty, st.2.posq)).1.molecularQuadrupolesVec.any fm.neZeroF = true
    · rw [copy_raised_quadrupole fm force st hc hq]
      refine ⟨⟨fun _ => Or.inr ⟨hq.1, (copy_any_quadrupole fm force st.2.posq).1 hq.2⟩,
        fun _ => rfl⟩, fun _ => ⟨rfl, rfl, rfl, rfl⟩, fun h => ?_, fun h _ => ?_⟩
      · simp [Result.isRaised] at h
      · rw [hq.1] at h
        exact absurd h (by simp)
    · obtain ⟨hr, -, -, hv, -⟩ := copy_returned fm force st hc hq
      refine ⟨⟨fun h => ?_, fun h => ?_⟩, fun h => ?_, fun _ => hv, fun _ _ => hr⟩
      · rw [hr] at h
        exact absurd h (by simp)
      · rcases h with h | ⟨h1, h3⟩
        · exact absurd hc h
        · exact absurd ⟨h1, (copy_any_quadrupole fm force st.2.posq).2 h3⟩ hq
      · rw [hr] at h
        exact absurd h (by simp)
  · rw [copy_raised_count fm force st hc]
    refine ⟨⟨fun _ => Or.inl hc, fun _ => rfl⟩, fun _ => ⟨rfl, rfl, rfl, rfl⟩, fun h => ?_,
      fun _ h => absurd h hc⟩
    simp [Result.isRaised] at h

/-- C4 at a concrete input: a kernel built without quadrupoles is handed a
force whose second particle has quadrupole components 8; the call raises and
leaves the kernel object and `posq` as they were. -/
theorem copyParametersToContext_raises_iff_witness :
    ( ElectrostaticsKernel.copyParametersToContext toyModel toyForceQ toyInitialized).isRaised
      = true ∧
    ( ElectrostaticsKernel.copyParametersToContext toyModel toyForceQ toyInitialized).state.1 =
      (toyInitialized).1 ∧
    ( ElectrostaticsKernel.copyParametersToContext toyModel toyForceQ toyInitialized).state.2.posq =
      (toyInitialized).2.posq :=
  ⟨by decide,
   ((copyParametersToContext_raises_iff toyModel toyForceQ toyInitialized).2.1 (by decide)).1,
   ((copyParametersToContext_raises_iff toyModel toyForceQ toyInitialized).2.1 (by decide)).2.1⟩

/-! ## C5 -/

theorem getElem?_map_const {α β : Type} (l : List α) (i : Nat) (c : β) :
    (l[i]?).map (fun _ => c) = if i < l.length then some c else none := by
  by_cases h : i < l.length
  · simp [h]
  · simp [h, List.getElem?_eq_none (Nat.le_of_not_lt h)]

/-- C5: let `initialize` have been called with `force`, and let
`copyParametersToContext` be called with the same `force` in any later state
that still has the `hasQuadrupoles` flag computed by `initialize` and the same
padded size and `posq` length.  Then the call raises only if the multipole
count differs from the atom count, in which case the kernel object and `posq`
are untouched; otherwise it returns, and the five tables it uploads are equal
to the ones `initialize` uploaded and the charge of every particle in the
uploaded `posq` is the one `initialize` uploaded. -/
theorem copyParametersToContext_roundtrip {D F R : Type} (fm : FloatModel D F R) (fuel : Nat)
    (env : InitEnv D R) (force : AmoebaMultipoleForce D)
    (st0 : ElectrostaticsKernel F R × CudaContext R)
    (res : Result (ElectrostaticsKernel F R × CudaContext R))
    (hinit : ElectrostaticsKernel.initialize fm fuel env force st0 = some res)
    (st : ElectrostaticsKernel F R × CudaContext R)
    (hq : st.1.hasQuadrupoles = res.state.1.hasQuadrupoles)
    (hpad : st.2.paddedNumAtoms = st0.2.paddedNumAtoms)
    (hlen : st.2.posq.length = st0.2.posq.length) :
    (( ElectrostaticsKernel.copyParametersToContext fm force st).isRaised = true ↔
      force.getNumMultipoles ≠ st.2.numAtoms) ∧
    (( ElectrostaticsKernel.copyParametersToContext fm force st).isRaised = true →
      ( ElectrostaticsKernel.copyParametersToContext fm force st).state.1 = st.1 ∧
      ( ElectrostaticsKernel.copyParametersToContext fm force st).state.2.posq = st.2.posq) ∧
    (( ElectrostaticsKernel.copyParametersToContext fm force st).isRaised = false →
      ( ElectrostaticsKernel.copyParametersToContext fm force st).state.1.dampingAndThole =
        res.state.1.dampingAndThole ∧
      ( ElectrostaticsKernel.copyParametersToContext fm force st).state.1.polarizability =
        res.state.1.polarizability ∧
      ( ElectrostaticsKernel.copyParametersToContext fm force st).state.1.multipoleParticles =
        res.state.1.multipoleParticles ∧
      ( ElectrostaticsKernel.copyParametersToContext fm force st).state.1.molecularDipoles =
        res.state.1.molecularDipoles ∧
      ( ElectrostaticsKernel.copyParametersToContext fm force st).state.1.molecularQuadrupoles =
        res.state.1.molecularQuadrupoles ∧
      ∀ i, i < force.getNumMultipoles →
        ((( ElectrostaticsKernel.copyParametersToContext fm force st).state.2.posq)[i]?).map
            (fun e => e.w) =
          ((res.state.2.posq)[i]?).map (fun e => e.w)) := by
  obtain ⟨hu0, hq0, -, -, hp0, -, -, -⟩ := initialize_uploaded fm fuel env force st0 res hinit
  have hvec := copyParticles_vectors fm force.multipoles 0
    ((HostVectors.empty : HostVectors F), st.2.posq)
    ((HostVectors.empty : HostVectors F),
      List.replicate st0.2.posq.length (⟨fm.zeroR, fm.zeroR, fm.zeroR, fm.zeroR⟩ : Real4 R)) rfl
  by_cases hc : force.getNumMultipoles = st.2.numAtoms
  · have hnq : ¬ (st.1.hasQuadrupoles = false ∧
        (copyParticles fm force.multipoles 0
          (HostVectors.empty, st.2.posq)).1.molecularQuadrupolesVec.any fm.neZeroF = true) := by
      rintro ⟨h1, h2⟩
      rw [hq, hq0] at h1
      rw [hvec] at h2
      simp only [initializeHost] at h1
      rw [h1] at h2
      exact absurd h2 (by simp)
    obtain ⟨hr, -, hu, -, hp⟩ := copy_returned fm force st hc hnq
    refine ⟨⟨fun h => ?_, fun h => absurd hc h⟩, fun h => ?_, fun _ => ?_⟩
    · rw [hr] at h
      exact absurd h (by simp)
    · rw [hr] at h
      exact absurd h (by simp)
    · obtain ⟨a1, a2, a3, a4, a5⟩ := hu
      obtain ⟨b1, b2, b3, b4, b5⟩ := hu0
      have hv : padVectors fm (st.2.paddedNumAtoms - force.getNumMultipoles)
          (copyParticles fm force.multipoles 0 (HostVectors.empty, st.2.posq)).1 =
          (initializeHost fm force st0.2).1 := by
        rw [hvec, hpad]
        rfl
      rw [hv] at a1 a2 a3 a4 a5
      refine ⟨a1.trans b1.symm, a2.trans b2.symm, a3.trans b3.symm, a4.trans b4.symm,
        a5.trans b5.symm, fun i hi => ?_⟩
      rw [hp, hp0]
      have c1 := forEachParticle_charge fm (copyParticle fm) (copyParticle_ne fm)
        (copyParticle_eq fm) force.multipoles 0 (HostVectors.empty, st.2.posq) i hi
      have c2 := forEachParticle_charge fm (initializeParticle fm) (initializeParticle_ne fm)
        (initializeParticle_eq fm) force.multipoles 0
        ((HostVectors.empty : HostVectors F),
          List.replicate st0.2.posq.length (⟨fm.zeroR, fm.zeroR, fm.zeroR, fm.zeroR⟩ : Real4 R))
        i hi
      rw [Nat.zero_add] at c1 c2
      have e1 : (copyParticles fm force.multipoles 0 (HostVectors.empty, st.2.posq)).2 =
          (forEachParticle (copyParticle fm) force.multipoles 0
            ((HostVectors.empty : HostVectors F), st.2.posq)).2 := rfl
      have e2 : (initializeHost fm force st0.2).2.1 =
          (forEachParticle (initializeParticle fm) force.multipoles 0
            ((HostVectors.empty : HostVectors F),
              List.replicate st0.2.posq.length
                (⟨fm.zeroR, fm.zeroR, fm.zeroR, fm.zeroR⟩ : Real4 R))).2 := rfl
      rw [e1, e2, c1, c2, getElem?_map_const, getElem?_map_const, List.length_replicate, hlen]
  · rw [copy_raised_count fm force st hc]
    exact ⟨⟨fun _ => hc, fun _ => rfl⟩, fun _ => ⟨rfl, rfl⟩,
      fun h => by simp [Result.isRaised] at h⟩

/-- C5 at a concrete input: `initialize` and then `copyParametersToContext`
with the same two-particle force; the call returns. -/
theorem copyParametersToContext_roundtrip_witness :
    ElectrostaticsKernel.initialize toyModel 0 toyEnv toyForce2 (toyKernel, toyContext) =
      some (.returned toyInitialized) ∧
    ( ElectrostaticsKernel.copyParametersToContext toyModel toyForce2 toyInitialized).isRaised
      = false ∧
    ( ElectrostaticsKernel.copyParametersToContext toyModel toyForce2
        toyInitialized).state.1.molecularQuadrupoles = (toyInitialized).1.molecularQuadrupoles ∧
    ∀ i, i < toyForce2.getNumMultipoles →
      ((( ElectrostaticsKernel.copyParametersToContext toyModel toyForce2
          toyInitialized).state.2.posq)[i]?).map (fun e => e.w) =
        (((toyInitialized).2.posq)[i]?).map (fun e => e.w) :=
  ⟨rfl, by decide,
   ((copyParametersToContext_roundtrip toyModel 0 toyEnv toyForce2 (toyKernel, toyContext)
      (.returned toyInitialized) rfl toyInitialized rfl rfl rfl).2.2 (by decide)).2.2.2.2.1,
   ((copyParametersToContext_roundtrip toyModel 0 toyEnv toyForce2 (toyKernel, toyContext)
      (.returned toyInitialized) rfl toyInitialized rfl rfl rfl).2.2 (by decide)).2.2.2.2.2⟩

/-! ## C6 -/

/-- C6: the one-body `copyParametersToContext` raises if and only if the number
of one-body terms that the new force assigns to this context,
`endIndex - startIndex`, differs from the kernel's `numBonds`, which
`initialize` recorded as the same difference for its own force; with an
unchanged count it returns, also when the count is 0. -/
theorem oneBody_copyParametersToContext_raises_iff (force0 force : MBPolOneBodyForce)
    (k0 k : OneBodyKernel) :
    (( OneBodyKernel.copyParametersToContext force k).isRaised = true ↔
      k.endIndex force - k.startIndex force ≠ k.numBonds) ∧
    (k.endIndex force - k.startIndex force = k.numBonds →
      ( OneBodyKernel.copyParametersToContext force k).isRaised = false) ∧
    ( OneBodyKernel.initialize force0 k0).numBonds =
      k0.endIndex force0 - k0.startIndex force0 ∧
    (( OneBodyKernel.copyParametersToContext force
        ( OneBodyKernel.initialize force0 k0)).isRaised = true ↔
      k0.endIndex force - k0.startIndex force ≠ k0.endIndex force0 - k0.startIndex force0) := by
  have key : ∀ k1 : OneBodyKernel,
      (( OneBodyKernel.copyParametersToContext force k1).isRaised = true ↔
        k1.endIndex force - k1.startIndex force ≠ k1.numBonds) := by
    intro k1
    unfold OneBodyKernel.copyParametersToContext
    by_cases h : k1.numBonds = k1.endIndex force - k1.startIndex force
    · have hn : ¬ (k1.numBonds ≠ k1.endIndex force - k1.startIndex force) := fun c => c h
      have hf : (false = true) ↔ k1.endIndex force - k1.startIndex force ≠ k1.numBonds :=
        ⟨fun c => absurd c (by simp), fun c => absurd h.symm c⟩
      by_cases h0 : k1.numBonds = 0
      · simp only [if_neg hn, if_pos h0, Result.isRaised]
        exact hf
      · simp only [if_neg hn, if_neg h0, Result.isRaised]
        exact hf
    · have hn : k1.numBonds ≠ k1.endIndex force - k1.startIndex force := h
      simp only [if_pos hn, Result.isRaised, true_iff]
      exact fun e => h e.symm
  have hinit : ( OneBodyKernel.initialize force0 k0).numBonds =
      k0.endIndex force0 - k0.startIndex force0 ∧
      ( OneBodyKernel.initialize force0 k0).contextIndex = k0.contextIndex ∧
      ( OneBodyKernel.initialize force0 k0).numContexts = k0.numContexts := by
    unfold OneBodyKernel.initialize
    by_cases h0 : k0.endIndex force0 - k0.startIndex force0 = 0
    · simp [h0]
    · simp [h0]
  refine ⟨key k, fun h => ?_, hinit.1, ?_⟩
  · cases hr : ( OneBodyKernel.copyParametersToContext force k).isRaised with
    | false => rfl
    | true => exact absurd h ((key k).1 hr)
  · rw [key, hinit.1]
    simp only [OneBodyKernel.endIndex, OneBodyKernel.startIndex, hinit.2.1, hinit.2.2]

/-- C6 at a concrete input: a context that owns all five terms of a force is
handed a force of five terms and does not raise. -/
theorem oneBody_copyParametersToContext_raises_iff_witness :
    ( OneBodyKernel.copyParametersToContext [[0, 1, 2], [3, 4, 5], [6], [7], [8]]
      ⟨5, 0, 1, [], false⟩).isRaised = false :=
  (oneBody_copyParametersToContext_raises_iff [] [[0, 1, 2], [3, 4, 5], [6], [7], [8]]
    ⟨0, 0, 1, [], false⟩ ⟨5, 0, 1, [], false⟩).2.1 (by decide)

/-! ## C7 -/

theorem storeDipoles_length {D F R : Type} (fm : FloatModel D F R) (order : List Nat)
    (d : List R) : ∀ (count : Nat) (dipoles : List (Vec3 D)),
      (storeDipoles fm order d count dipoles).length = dipoles.length := by
  intro count
  induction count with
  | zero => intro dipoles; rfl
  | succ n ih => intro dipoles; simp only [storeDipoles, List.length_set, ih]

theorem resize_length {α : Type} (v : List α) (n : Nat) (fill : α) :
    (resize v n fill).length = n := by
  simp only [resize, List.length_append, List.length_take, List.length_replicate]
  omega

/-- After `count` trips of the loop, slot `order[i]` holds the dipole read
from position `i`, for every `i < count`, when `order` has no repetition. -/
theorem storeDipoles_getElem? {D F R : Type} (fm : FloatModel D F R) (order : List Nat)
    (d : List R) (hnd : order.Nodup) (dipoles : List (Vec3 D))
    (hlt : ∀ x ∈ order, x < dipoles.length) :
    ∀ (count : Nat), count ≤ order.length → ∀ i, i < count →
      (storeDipoles fm order d count dipoles)[order.getD i 0]? =
        some ⟨fm.toDouble (d.getD (3 * i) fm.zeroR), fm.toDouble (d.getD (3 * i + 1) fm.zeroR),
          fm.toDouble (d.getD (3 * i + 2) fm.zeroR)⟩ := by
  intro count
  induction count with
  | zero => intro _ i hi; omega
  | succ n ih =>
    intro hn i hi
    simp only [storeDipoles]
    have hnlt : n < order.length := by omega
    by_cases hin : i = n
    · subst hin
      rw [List.getElem?_set_self]
      rw [storeDipoles_length, List.getD_eq_getElem _ _ hnlt]
      exact hlt _ (List.getElem_mem _)
    · have hil : i < order.length := by omega
      have hne : order.getD n 0 ≠ order.getD i 0 := by
        rw [List.getD_eq_getElem _ _ hnlt, List.getD_eq_getElem _ _ hil]
        intro h
        exact hin ((hnd.getElem_inj_iff).1 h).symm
      rw [List.getElem?_set_ne hne]
      exact ih (by omega) i (by omega)

/-- C7: for every atom-index permutation `order` of `0..n-1` and every
downloaded array `d` of length at least `3n`, the vector that
`getInducedDipoles` hands back has exactly `n` entries, its entry `order[i]` is
`(d[3i], d[3i+1], d[3i+2])` (converted to `double`) for every `i < n`, and
every slot `j < n` is `order[i]` for exactly one `i < n`. -/
theorem getInducedDipoles_original_order {D F R : Type} (fm : FloatModel D F R) (n : Nat)
    (order : List Nat) (d : List R) (dipoles : List (Vec3 D))
    (hperm : order.Perm (List.range n)) (hd : 3 * n ≤ d.length) :
    (getInducedDipoles fm n order d dipoles).length = n ∧
    (∀ i, i < n → ∃ (oi : Nat) (a b c : R),
      order[i]? = some oi ∧ d[3 * i]? = some a ∧ d[3 * i + 1]? = some b ∧
      d[3 * i + 2]? = some c ∧
      (getInducedDipoles fm n order d dipoles)[oi]? =
        some ⟨fm.toDouble a, fm.toDouble b, fm.toDouble c⟩) ∧
    (∀ j, j < n → ∃! i, i < n ∧ order[i]? = some j) := by
  have hlen : order.length = n := by rw [hperm.length_eq, List.length_range]
  have hnd : order.Nodup := hperm.nodup_iff.2 (List.nodup_range n)
  have hmem : ∀ x ∈ order, x < n := fun x hx => List.mem_range.1 (hperm.mem_iff.1 hx)
  refine ⟨?_, fun i hi => ?_, fun j hj => ?_⟩
  · simp only [getInducedDipoles, storeDipoles_length, resize_length]
  · have hi' : i < order.length := by omega
    refine ⟨order[i], d[3 * i], d[3 * i + 1], d[3 * i + 2], ?_, ?_, ?_, ?_, ?_⟩
    · exact List.getElem?_eq_getElem hi'
    · exact List.getElem?_eq_getElem (by omega)
    · exact List.getElem?_eq_getElem (by omega)
    · exact List.getElem?_eq_getElem (by omega)
    · have h := storeDipoles_getElem? fm order d hnd
        (resize dipoles n ⟨fm.zeroD, fm.zeroD, fm.zeroD⟩)
        (fun x hx => by rw [resize_length]; exact hmem x hx) n (by omega) i hi
      rw [List.getD_eq_getElem _ _ hi', List.getD_eq_getElem _ _ (by omega : 3 * i < d.length),
        List.getD_eq_getElem _ _ (by omega : 3 * i + 1 < d.length),
        List.getD_eq_getElem _ _ (by omega : 3 * i + 2 < d.length)] at h
      exact h
  · have hj' : j ∈ order := hperm.mem_iff.2 (List.mem_range.2 hj)
    obtain ⟨i, hi, hij⟩ := List.getElem_of_mem hj'
    refine ⟨i, ⟨by omega, by rw [List.getElem?_eq_getElem hi, hij]⟩, ?_⟩
    rintro i2 ⟨hi2, h2⟩
    have hi2' : i2 < order.length := by omega
    rw [List.getElem?_eq_getElem hi2', Option.some.injEq] at h2
    exact (hnd.getElem_inj_iff).1 (h2.trans hij.symm)

/-- C7 at a concrete input: three particles stored in the order 2, 0, 1. -/
theorem getInducedDipoles_original_order_witness :
    getInducedDipoles toyModel 3 [2, 0, 1] [10, 11, 12, 20, 21, 22, 30, 31, 32, 0, 0, 0] [] =
      [⟨20, 21, 22⟩, ⟨30, 31, 32⟩, ⟨10, 11, 12⟩] ∧
    (getInducedDipoles toyModel 3 [2, 0, 1] [10, 11, 12, 20, 21, 22, 30, 31, 32, 0, 0, 0]
      []).length = 3 :=
  ⟨by decide,
   (getInducedDipoles_original_order toyModel 3 [2, 0, 1]
      [10, 11, 12, 20, 21, 22, 30, 31, 32, 0, 0, 0] [] (by decide) (by decide)).1⟩

/-! ## C8 -/

theorem quadrupoleStep_foldl (quadrupoleVec : List ℚ) :
    ∀ (l : List Nat) (m : Moments),
      (l.foldl (quadrupoleStep quadrupoleVec) m).xxqdp +
        (l.foldl (quadrupoleStep quadrupoleVec) m).yyqdp +
        (l.foldl (quadrupoleStep quadrupoleVec) m).zzqdp = m.xxqdp + m.yyqdp + m.zzqdp ∧
      (l.foldl (quadrupoleStep quadrupoleVec) m).totalCharge = m.totalCharge := by
  intro l
  induction l with
  | nil => intro m; exact ⟨rfl, rfl⟩
  | cons i rest ih =>
    intro m
    simp only [List.foldl_cons]
    obtain ⟨h1, h2⟩ := ih (quadrupoleStep quadrupoleVec m i)
    rw [h1, h2]
    simp only [quadrupoleStep]
    exact ⟨by ring, trivial⟩

theorem toTraceless_trace (m : Moments) :
    (toTraceless m).xxqdp + (toTraceless m).yyqdp + (toTraceless m).zzqdp = 0 := by
  simp only [toTraceless]
  ring

theorem at4_posqLocal_w (numAtoms : Nat) (posq velm : List (Real4 ℚ)) (i : Nat)
    (hi : i < numAtoms) : (at4 (posqLocal numAtoms posq velm) i).w = (at4 posq i).w := by
  have hlen : i < (posqLocal numAtoms posq velm).length := by
    simp only [posqLocal, List.length_map, List.length_range]
    exact hi
  rw [at4, List.getD_eq_getElem _ _ hlen]
  simp only [posqLocal, List.getElem_map, List.getElem_range]

theorem momentStep_foldl_charge (numAtoms : Nat) (posq velm : List (Real4 ℚ))
    (labDipoleVec inducedDipoleVec : List ℚ) :
    ∀ (l : List Nat) (m : Moments), (∀ i ∈ l, i < numAtoms) →
      (l.foldl (momentStep (posqLocal numAtoms posq velm) labDipoleVec inducedDipoleVec)
        m).totalCharge = m.totalCharge + (l.map fun i => (at4 posq i).w).sum := by
  intro l
  induction l with
  | nil => intro m _; simp
  | cons i rest ih =>
    intro m hl
    simp only [List.foldl_cons, List.map_cons, List.sum_cons]
    rw [ih _ (fun k hk => hl k (List.mem_cons_of_mem _ hk))]
    simp only [momentStep]
    rw [at4_posqLocal_w numAtoms posq velm i (hl i (List.mem_cons_self _ _))]
    ring

/-- C8: `computeSystemMultipoleMoments` writes exactly 13 values, entry 0 is
the sum of the charges `posq[i].w` of the `numAtoms` particles, and in exact
arithmetic the quadrupole block is traceless: entries 4, 8 and 12 add up to 0. -/
theorem computeSystemMultipoleMoments_traceless (numAtoms : Nat) (posq velm : List (Real4 ℚ))
    (labDipoleVec inducedDipoleVec quadrupoleVec : List ℚ) :
    (computeSystemMultipoleMoments numAtoms posq velm labDipoleVec inducedDipoleVec
      quadrupoleVec).length = 13 ∧
    at1 (computeSystemMultipoleMoments numAtoms posq velm labDipoleVec inducedDipoleVec
      quadrupoleVec) 0 = ((List.range numAtoms).map fun i => (at4 posq i).w).sum ∧
    at1 (computeSystemMultipoleMoments numAtoms posq velm labDipoleVec inducedDipoleVec
        quadrupoleVec) 4 +
      at1 (computeSystemMultipoleMoments numAtoms posq velm labDipoleVec inducedDipoleVec
        quadrupoleVec) 8 +
      at1 (computeSystemMultipoleMoments numAtoms posq velm labDipoleVec inducedDipoleVec
        quadrupoleVec) 12 = 0 := by
  refine ⟨rfl, ?_, ?_⟩
  · simp only [computeSystemMultipoleMoments, at1, List.getD_cons_zero, systemMoments]
    rw [(quadrupoleStep_foldl quadrupoleVec _ _).2]
    have e : (toTraceless ((List.range numAtoms).foldl
        (momentStep (posqLocal numAtoms posq velm) labDipoleVec inducedDipoleVec)
        ⟨0, 0, 0, 0, 0, 0, 0, 0, 0, 0, 0, 0, 0⟩)).totalCharge =
        ((List.range numAtoms).foldl
        (momentStep (posqLocal numAtoms posq velm) labDipoleVec inducedDipoleVec)
        ⟨0, 0, 0, 0, 0, 0, 0, 0, 0, 0, 0, 0, 0⟩).totalCharge := rfl
    rw [e, momentStep_foldl_charge numAtoms posq velm labDipoleVec inducedDipoleVec _ _
      (fun i hi => List.mem_range.1 hi)]
    simp
  · have h := (quadrupoleStep_foldl quadrupoleVec (List.range numAtoms)
      (toTraceless ((List.range numAtoms).foldl
        (momentStep (posqLocal numAtoms posq velm) labDipoleVec inducedDipoleVec)
        ⟨0, 0, 0, 0, 0, 0, 0, 0, 0, 0, 0, 0, 0⟩))).1
    rw [toTraceless_trace] at h
    simp only [computeSystemMultipoleMoments, at1, List.getD_cons_succ, List.getD_cons_zero,
      systemMoments]
    linear_combination (100 * debye) * h

/-! ## C9 -/

theorem not_mem_iterateDipolesByDIIS (converged : Bool) :
    Event.initializeScaleFactors ∉ iterateDipolesByDIIS converged := by
  cases converged <;> decide

theorem not_mem_inducedDipoleLoop (body : List Event) (converged : Nat → Bool)
    (hb : Event.initializeScaleFactors ∉ body) :
    ∀ (remaining i : Nat),
      Event.initializeScaleFactors ∉ inducedDipoleLoop body converged remaining i := by
  intro remaining
  induction remaining with
  | zero => intro i; simp [inducedDipoleLoop]
  | succ n ih =>
    intro i
    simp only [inducedDipoleLoop, List.mem_append, not_or]
    refine ⟨⟨hb, not_mem_iterateDipolesByDIIS _⟩, ?_⟩
    cases converged i with
    | true => simp
    | false => simpa using ih (i + 1)

theorem not_mem_pmeConvolve (useDoublePrecision : Bool) :
    Event.initializeScaleFactors ∉ pmeConvolve useDoublePrecision := by
  cases useDoublePrecision <;> decide

theorem not_mem_executeNoPme (maxInducedIterations : Int) (converged : Nat → Bool) :
    Event.initializeScaleFactors ∉ executeNoPme maxInducedIterations converged := by
  simp only [executeNoPme, List.mem_append, not_or]
  exact ⟨⟨by decide, not_mem_inducedDipoleLoop _ _ (by decide) _ _⟩, by decide⟩

theorem not_mem_executePme (useDoublePrecision : Bool) (maxInducedIterations : Int)
    (converged : Nat → Bool) :
    Event.initializeScaleFactors ∉
      executePme useDoublePrecision maxInducedIterations converged := by
  have hc := not_mem_pmeConvolve useDoublePrecision
  simp only [executePme, List.mem_append, not_or]
  refine ⟨⟨⟨⟨⟨⟨by decide, hc⟩, by decide⟩, hc⟩, by decide⟩, ?_⟩, by decide⟩
  apply not_mem_inducedDipoleLoop
  simp only [List.mem_append, not_or]
  exact ⟨⟨by decide, hc⟩, by decide⟩

/-- One `execute`: what it appends to the log starts with
`initializeScaleFactors` exactly when the flag was `false`, holds that event
nowhere else, and the flag is `true` afterwards. -/
theorem execute_log {F R : Type} (converged : Nat → Bool)
    (st : ElectrostaticsKernel F R × CudaContext R) :
    ∃ tail : List Event, Event.initializeScaleFactors ∉ tail ∧
      ( ElectrostaticsKernel.execute converged st).2.log =
        st.2.log ++ ((if st.1.hasInitializedScaleFactors = false then
          [Event.initializeScaleFactors] else []) ++ tail) ∧
      ( ElectrostaticsKernel.execute converged st).1.hasInitializedScaleFactors = true := by
  refine ⟨[.launch .computeLabFrameMoments] ++
    (if st.1.pmeGrid = none then executeNoPme st.1.maxInducedIterations converged
     else executePme st.2.useDoublePrecision st.1.maxInducedIterations converged) ++
    [.launch .mapTorqueToForce, .copyPosqToLastPositions], ?_, ?_⟩
  · simp only [List.mem_append, not_or]
    refine ⟨⟨by decide, ?_⟩, by decide⟩
    by_cases hp : st.1.pmeGrid = none
    · rw [if_pos hp]; exact not_mem_executeNoPme _ _
    · rw [if_neg hp]; exact not_mem_executePme _ _ _
  · cases hf : st.1.hasInitializedScaleFactors with
    | false =>
      simp only [ElectrostaticsKernel.execute, ElectrostaticsKernel.initializeScaleFactors, hf,
        if_true, List.append_assoc, and_true]
    | true =>
      simp only [ElectrostaticsKernel.execute, hf, Bool.true_eq_false, if_false,
        List.nil_append, List.append_assoc, and_true]

/-- Any number of `execute` calls on a kernel whose flag is already `true`
never run `initializeScaleFactors`. -/
theorem executeMany_log_of_initialized {F R : Type} :
    ∀ (calls : List (Nat → Bool)) (st : ElectrostaticsKernel F R × CudaContext R),
      st.1.hasInitializedScaleFactors = true →
      ∃ tail : List Event, Event.initializeScaleFactors ∉ tail ∧
        ( ElectrostaticsKernel.executeMany calls st).2.log = st.2.log ++ tail ∧
        ( ElectrostaticsKernel.executeMany calls st).1.hasInitializedScaleFactors = true := by
  intro calls
  induction calls with
  | nil => intro st h; exact ⟨[], by simp, by simp [ElectrostaticsKernel.executeMany], h⟩
  | cons c rest ih =>
    intro st h
    obtain ⟨t1, h1, h2, h3⟩ := execute_log c st
    obtain ⟨t2, g1, g2, g3⟩ := ih ( ElectrostaticsKernel.execute c st) h3
    refine ⟨t1 ++ t2, ?_, ?_, ?_⟩
    · simp only [List.mem_append, not_or]; exact ⟨h1, g1⟩
    · simp only [ElectrostaticsKernel.executeMany]
      rw [g2, h2, h]
      simp
    · simpa only [ElectrostaticsKernel.executeMany] using g3

/-- C10: the constructor leaves `hasInitializedScaleFactors` at `false`, and
`initialize` neither changes the flag nor issues anything; and for a kernel
whose flag is `false`, over any non-empty sequence of `execute` calls
`initializeScaleFactors` runs exactly once: it is the first thing the first
call does, before any kernel launch, neither the rest of that call nor any
later call holds it, and the flag is `true` after the first call and after the
whole sequence. -/
theorem initializeScaleFactors_exactly_once {D F R : Type} (fm : FloatModel D F R) :
    (∀ (numMultipoles : Nat) (hasQuadrupoles : Bool) (maxInducedIterations : Int),
      ( ElectrostaticsKernel.construct numMultipoles hasQuadrupoles maxInducedIterations :
        ElectrostaticsKernel F R).hasInitializedScaleFactors = false) ∧
    (∀ (fuel : Nat) (env : InitEnv D R) (force : AmoebaMultipoleForce D)
        (st : ElectrostaticsKernel F R × CudaContext R)
        (res : Result (ElectrostaticsKernel F R × CudaContext R)),
      ElectrostaticsKernel.initialize fm fuel env force st = some res →
        res.state.1.hasInitializedScaleFactors = st.1.hasInitializedScaleFactors ∧
        res.state.2.log = st.2.log) ∧
    (∀ (st : ElectrostaticsKernel F R × CudaContext R),
      st.1.hasInitializedScaleFactors = false →
      ∀ (first : Nat → Bool) (rest : List (Nat → Bool)),
        ∃ tail1 tail2 : List Event,
          ( ElectrostaticsKernel.execute first st).2.log =
            st.2.log ++ Event.initializeScaleFactors :: tail1 ∧
          ( ElectrostaticsKernel.executeMany (first :: rest) st).2.log =
            st.2.log ++ Event.initializeScaleFactors :: (tail1 ++ tail2) ∧
          Event.initializeScaleFactors ∉ tail1 ++ tail2 ∧
          ( ElectrostaticsKernel.execute first st).1.hasInitializedScaleFactors = true ∧
          ( ElectrostaticsKernel.executeMany (first :: rest) st).1.hasInitializedScaleFactors
            = true) := by
  refine ⟨fun _ _ _ => rfl, fun fuel env force st res h => ?_, fun st hf first rest => ?_⟩
  · obtain ⟨-, -, h3, -, -, -, -, h8⟩ := initialize_uploaded fm fuel env force st res h
    exact ⟨h3, h8⟩
  · obtain ⟨t1, h1, h2, h3⟩ := execute_log first st
    obtain ⟨t2, g1, g2, g3⟩ := executeMany_log_of_initialized rest
      ( ElectrostaticsKernel.execute first st) h3
    rw [hf] at h2
    simp only [if_true, List.singleton_append] at h2
    refine ⟨t1, t2, h2, ?_, ?_, h3, ?_⟩
    · simp only [ElectrostaticsKernel.executeMany]
      rw [g2, h2]
      simp
    · simp only [List.mem_append, not_or]; exact ⟨h1, g1⟩
    · simpa only [ElectrostaticsKernel.executeMany] using g3

/-- C10 at a concrete input: two `execute` calls after `initialize`; the log
holds `initializeScaleFactors` once, in front. -/
theorem initializeScaleFactors_exactly_once_witness :
    (toyInitialized).1.hasInitializedScaleFactors = false ∧
    ((( ElectrostaticsKernel.executeMany [fun _ => false, fun _ => true]
        toyInitialized).2.log.head?) = some Event.initializeScaleFactors ∧
      (( ElectrostaticsKernel.executeMany [fun _ => false, fun _ => true]
        toyInitialized).2.log.count Event.initializeScaleFactors) = 1) ∧
    ∃ tail1 tail2 : List Event,
      ( ElectrostaticsKernel.execute (fun _ => false) toyInitialized).2.log =
        (toyInitialized).2.log ++ Event.initializeScaleFactors :: tail1 ∧
      ( ElectrostaticsKernel.executeMany [fun _ => false, fun _ => true] toyInitialized).2.log =
        (toyInitialized).2.log ++ Event.initializeScaleFactors :: (tail1 ++ tail2) ∧
      Event.initializeScaleFactors ∉ tail1 ++ tail2 ∧
      ( ElectrostaticsKernel.execute (fun _ => false)
        toyInitialized).1.hasInitializedScaleFactors = true ∧
      ( ElectrostaticsKernel.executeMany [fun _ => false, fun _ => true]
        toyInitialized).1.hasInitializedScaleFactors = true :=
  ⟨by decide, by decide,
   (initializeScaleFactors_exactly_once toyModel).2.2 toyInitialized (by decide)
     (fun _ => false) [fun _ => true]⟩

/-! ## The order of the operations of `execute` -/

theorem precedes_append_left {l1 l2 : List Event} {a b : Event}
    (h : Precedes l1 a b) (ha : a ∉ l2) : Precedes (l1 ++ l2) a b := by
  intro i j hi hj
  have hi1 : i < l1.length := by
    by_contra hc
    rw [List.getElem?_append_right (by omega)] at hi
    exact ha (List.getElem?_mem hi)
  rw [List.getElem?_append_left hi1] at hi
  by_cases hj1 : j < l1.length
  · rw [List.getElem?_append_left hj1] at hj
    exact h i j hi hj
  · omega

theorem precedes_append_right {l1 l2 : List Event} {a b : Event}
    (hb : b ∉ l1) (h : Precedes l2 a b) : Precedes (l1 ++ l2) a b := by
  intro i j hi hj
  have hj1 : l1.length ≤ j := by
    by_contra hc
    rw [List.getElem?_append_left (by omega)] at hj
    exact hb (List.getElem?_mem hj)
  rw [List.getElem?_append_right hj1] at hj
  by_cases hi1 : i < l1.length
  · omega
  · rw [List.getElem?_append_right (by omega)] at hi
    have := h _ _ hi hj
    omega

theorem precedes_iff_bounded (l : List Event) (a b : Event) :
    Precedes l a b ↔
      ∀ i, i < l.length → ∀ j, j < l.length → l[i]? = some a → l[j]? = some b → i < j := by
  constructor
  · intro h i _ j _ hi hj
    exact h i j hi hj
  · intro h i j hi hj
    have h1 : i < l.length := by
      by_contra hc
      rw [List.getElem?_eq_none (by omega)] at hi
      exact absurd hi (by simp)
    have h2 : j < l.length := by
      by_contra hc
      rw [List.getElem?_eq_none (by omega)] at hj
      exact absurd hj (by simp)
    exact h i h1 j h2 hi hj

theorem mem_inducedDipoleLoop (body : List Event) (converged : Nat → Bool) (x : Event) :
    ∀ (remaining i : Nat), x ∈ inducedDipoleLoop body converged remaining i →
      x ∈ body ++ iterateDipolesByDIIS false := by
  intro remaining
  induction remaining with
  | zero => intro i h; simp [inducedDipoleLoop] at h
  | succ n ih =>
    intro i h
    simp only [inducedDipoleLoop, List.mem_append] at h
    rcases h with (h | h) | h
    · exact List.mem_append_left _ h
    · apply List.mem_append_right
      cases hc : converged i with
      | true =>
        rw [hc] at h
        simp only [iterateDipolesByDIIS, if_true, List.append_nil] at h
        simp only [iterateDipolesByDIIS, List.mem_append]
        exact Or.inl h
      | false => rw [hc] at h; exact h
    · cases hc : converged i with
      | true => rw [hc] at h; simp at h
      | false => rw [hc] at h; simp only [Bool.false_eq_true, if_false] at h; exact ih (i + 1) h

theorem executeOperations_eq (pme useDoublePrecision : Bool) (maxInducedIterations : Int)
    (converged : Nat → Bool) :
    executeOperations pme useDoublePrecision maxInducedIterations converged =
      operationsBeforeLoop pme useDoublePrecision ++
        (inducedDipoleLoop (inducedFieldBody pme useDoublePrecision) converged
          maxInducedIterations.toNat 0 ++ operationsAfterLoop pme) := by
  cases pme <;>
    simp [executeOperations, executePme, executeNoPme, operationsBeforeLoop, operationsAfterLoop,
      inducedFieldBody, List.append_assoc]

/-- What one `execute` call appends to the log. -/
theorem execute_log_operations {F R : Type} (converged : Nat → Bool)
    (st : ElectrostaticsKernel F R × CudaContext R) :
    ( ElectrostaticsKernel.execute converged st).2.log =
      st.2.log ++ ((if st.1.hasInitializedScaleFactors = false then
        [Event.initializeScaleFactors] else []) ++
        executeOperations st.1.pmeGrid.isSome st.2.useDoublePrecision st.1.maxInducedIterations
          converged) := by
  cases hf : st.1.hasInitializedScaleFactors <;> cases hp : st.1.pmeGrid <;>
    simp [ElectrostaticsKernel.execute, ElectrostaticsKernel.initializeScaleFactors, hf, hp,
      executeOperations, List.append_assoc]

theorem not_mem_loop_of_not_mem_body (pme useDoublePrecision : Bool) (converged : Nat → Bool)
    (remaining i : Nat) (x : Event)
    (hx : x ∉ inducedFieldBody pme useDoublePrecision ++ iterateDipolesByDIIS false) :
    x ∉ inducedDipoleLoop (inducedFieldBody pme useDoublePrecision) converged remaining i :=
  fun h => hx (mem_inducedDipoleLoop _ converged x remaining i h)

/-- An operation that occurs neither in the loop nor after it keeps, in the
whole call, the order it has before the loop. -/
theorem precedes_of_before (pme useDoublePrecision : Bool) (maxInducedIterations : Int)
    (converged : Nat → Bool) (a b : Event)
    (h : Precedes (operationsBeforeLoop pme useDoublePrecision) a b)
    (h1 : a ∉ inducedFieldBody pme useDoublePrecision ++ iterateDipolesByDIIS false)
    (h2 : a ∉ operationsAfterLoop pme) :
    Precedes (executeOperations pme useDoublePrecision maxInducedIterations converged) a b := by
  rw [executeOperations_eq]
  apply precedes_append_left h
  simp only [List.mem_append, not_or]
  exact ⟨not_mem_loop_of_not_mem_body pme useDoublePrecision converged _ _ a h1, h2⟩

/-- An operation that occurs only after the loop comes after everything that
precedes it there. -/
theorem precedes_of_after (pme useDoublePrecision : Bool) (maxInducedIterations : Int)
    (converged : Nat → Bool) (a b : Event)
    (h : Precedes (operationsAfterLoop pme) a b)
    (h1 : b ∉ inducedFieldBody pme useDoublePrecision ++ iterateDipolesByDIIS false)
    (h2 : b ∉ operationsBeforeLoop pme useDoublePrecision) :
    Precedes (executeOperations pme useDoublePrecision maxInducedIterations converged) a b := by
  rw [executeOperations_eq]
  apply precedes_append_right h2
  apply precedes_append_right
    (not_mem_loop_of_not_mem_body pme useDoublePrecision converged _ _ b h1) h

/-- An operation that the loop does not issue occurs as often as before and
after the loop together. -/
theorem count_executeOperations (pme useDoublePrecision : Bool) (maxInducedIterations : Int)
    (converged : Nat → Bool) (a : Event)
    (h1 : a ∉ inducedFieldBody pme useDoublePrecision ++ iterateDipolesByDIIS false) :
    (executeOperations pme useDoublePrecision maxInducedIterations converged).count a =
      (operationsBeforeLoop pme useDoublePrecision).count a +
        (operationsAfterLoop pme).count a := by
  rw [executeOperations_eq, List.count_append, List.count_append,
    List.count_eq_zero_of_not_mem
      (not_mem_loop_of_not_mem_body pme useDoublePrecision converged _ _ a h1)]
  omega

/-- The first operation of a list, when it does not recur, precedes every other one. -/
theorem precedes_head {l rest : List Event} {a : Event} (h : l = a :: rest) (ha : a ∉ rest)
    (e : Event) (he : e ≠ a) : Precedes l a e := by
  subst h
  intro i j hi hj
  cases i with
  | zero =>
    cases j with
    | zero =>
      simp only [List.getElem?_cons_zero, Option.some.injEq] at hj
      exact absurd hj.symm he
    | succ j => omega
  | succ i =>
    simp only [List.getElem?_cons_succ] at hi
    exact absurd (List.getElem?_mem hi) ha

/-! ## C11 -/

/-- C11: in every `execute` call, with or without PME and whatever the
convergence tests answer, the operations `ops` issued after the scale-factor
check are such that: `computeLabFrameMoments` is the first one, is launched
once and precedes every other operation, the field kernels among them;
`computeFixedField` and `recordInducedDipoles` are launched once each, in this
order; `computeElectrostatics` is launched once, after every launch of
`computeInducedField` and of the three kernels of `iterateDipolesByDIIS`;
and `mapTorqueToForce` is launched once, after `computeElectrostatics`. -/
theorem execute_launch_order {F R : Type} (converged : Nat → Bool)
    (st : ElectrostaticsKernel F R × CudaContext R) :
    ∃ ops : List Event,
      ( ElectrostaticsKernel.execute converged st).2.log =
        st.2.log ++ ((if st.1.hasInitializedScaleFactors = false then
          [Event.initializeScaleFactors] else []) ++ ops) ∧
      ops.head? = some (.launch .computeLabFrameMoments) ∧
      ops.count (.launch .computeLabFrameMoments) = 1 ∧
      (∀ e : Event, e ≠ .launch .computeLabFrameMoments →
        Precedes ops (.launch .computeLabFrameMoments) e) ∧
      ops.count (.launch .computeFixedField) = 1 ∧
      ops.count (.launch .recordInducedDipoles) = 1 ∧
      Precedes ops (.launch .computeFixedField) (.launch .recordInducedDipoles) ∧
      ops.count (.launch .computeElectrostatics) = 1 ∧
      (∀ k ∈ diisKernels, Precedes ops (.launch k) (.launch .computeElectrostatics)) ∧
      ops.count (.launch .mapTorqueToForce) = 1 ∧
      Precedes ops (.launch .computeElectrostatics) (.launch .mapTorqueToForce) := by
  refine ⟨_, execute_log_operations converged st, ?_⟩
  generalize st.1.pmeGrid.isSome = pme
  generalize st.2.useDoublePrecision = ud
  generalize st.1.maxInducedIterations = m
  have hcount : ∀ a : Event,
      a ∉ inducedFieldBody pme ud ++ iterateDipolesByDIIS false →
      (operationsBeforeLoop pme ud).count a + (operationsAfterLoop pme).count a = 1 →
      (executeOperations pme ud m converged).count a = 1 := by
    intro a h1 h2
    rw [count_executeOperations pme ud m converged a h1, h2]
  refine ⟨?_, ?_, ?_, ?_, ?_, ?_, ?_, ?_, ?_, ?_⟩
  · rw [executeOperations_eq]
    cases pme <;> rfl
  · apply hcount
    · cases pme <;> cases ud <;> decide
    · cases pme <;> cases ud <;> decide
  · intro e he
    have hd : executeOperations pme ud m converged =
        Event.launch .computeLabFrameMoments ::
          ((executeOperations pme ud m converged).drop 1) := by
      rw [executeOperations_eq]
      cases pme <;> rfl
    refine precedes_head hd ?_ e he
    intro hmem
    have hc : (executeOperations pme ud m converged).count (.launch .computeLabFrameMoments)
        = 1 := by
      apply hcount
      · cases pme <;> cases ud <;> decide
      · cases pme <;> cases ud <;> decide
    rw [hd, List.count_cons_self] at hc
    have hz := List.count_pos_iff.2 hmem
    omega
  · apply hcount
    · cases pme <;> cases ud <;> decide
    · cases pme <;> cases ud <;> decide
  · apply hcount
    · cases pme <;> cases ud <;> decide
    · cases pme <;> cases ud <;> decide
  · apply precedes_of_before
    · rw [precedes_iff_bounded]
      cases pme <;> cases ud <;> decide
    · cases pme <;> cases ud <;> decide
    · cases pme <;> decide
  · apply hcount
    · cases pme <;> cases ud <;> decide
    · cases pme <;> cases ud <;> decide
  · intro k hk
    apply precedes_of_after
    · rw [precedes_iff_bounded]
      simp only [diisKernels, List.mem_cons, List.mem_singleton, List.not_mem_nil,
        or_false] at hk
      rcases hk with rfl | rfl | rfl | rfl <;> cases pme <;> decide
    · cases pme <;> cases ud <;> decide
    · cases pme <;> cases ud <;> decide
  · apply hcount
    · cases pme <;> cases ud <;> decide
    · cases pme <;> cases ud <;> decide
  · apply precedes_of_after
    · rw [precedes_iff_bounded]
      cases pme <;> decide
    · cases pme <;> cases ud <;> decide
    · cases pme <;> cases ud <;> decide

/-- C11 at a concrete input: the first `execute` after `initialize` without
PME, whose convergence test succeeds at once, issues these operations. -/
theorem execute_launch_order_witness :
    ( ElectrostaticsKernel.execute (fun _ => true) toyInitialized).2.log =
      [.initializeScaleFactors, .launch .computeLabFrameMoments, .launch .computeFixedField,
       .launch .recordInducedDipoles, .clearBuffer .inducedField,
       .clearBuffer .inducedFieldPolar, .launch .computeInducedField,
       .launch .recordInducedDipolesForDIIS, .download .inducedDipoleErrors,
       .launch .computeDIISMatrix, .download .diisMatrix, .launch .computeElectrostatics,
       .launch .mapTorqueToForce, .copyPosqToLastPositions] ∧
    ∃ ops : List Event,
      ( ElectrostaticsKernel.execute (fun _ => true) toyInitialized).2.log =
        (toyInitialized).2.log ++ ((if (toyInitialized).1.hasInitializedScaleFactors = false then
          [Event.initializeScaleFactors] else []) ++ ops) ∧
      Precedes ops (.launch .computeElectrostatics) (.launch .mapTorqueToForce) :=
  ⟨by decide,
   (execute_launch_order (fun _ => true) toyInitialized).imp
     fun _ h => ⟨h.1, h.2.2.2.2.2.2.2.2.2.2⟩⟩

/-! ## C12 -/

theorem precedes_of_not_mem {l : List Event} {a : Event} (b : Event) (ha : a ∉ l) :
    Precedes l a b :=
  fun _ _ hi _ => absurd (List.getElem?_mem hi) ha

/-- C12: in every `execute` call, with or without PME and whatever the
convergence tests answer, the operations issued after the scale-factor check
are `pre ++ [mapTorqueToForce, copy of posq to lastPositions]` where `pre`
holds no launch of `mapTorqueToForce`: it is launched exactly once and no
kernel at all is launched after it.  The launches whose argument array holds
the torque (or force) buffer are those of `computeElectrostatics`,
`computeFixedMultipoleForceAndEnergy`, `computeInducedDipoleForceAndEnergy`
and `mapTorqueToForce`; `computeElectrostatics` is in `pre`, the two PME
kernels are in `pre` with PME and are not launched without, and every launch
of one of the three precedes the launch of `mapTorqueToForce`. -/
theorem mapTorqueToForce_once_after_torques {F R : Type} (converged : Nat → Bool)
    (st : ElectrostaticsKernel F R × CudaContext R) :
    ∃ pre : List Event,
      ( ElectrostaticsKernel.execute converged st).2.log =
        st.2.log ++ ((if st.1.hasInitializedScaleFactors = false then
          [Event.initializeScaleFactors] else []) ++
          (pre ++ [.launch .mapTorqueToForce, .copyPosqToLastPositions])) ∧
      Event.launch .mapTorqueToForce ∉ pre ∧
      (pre ++ [Event.launch .mapTorqueToForce, Event.copyPosqToLastPositions]).count
        (.launch .mapTorqueToForce) = 1 ∧
      (∀ k : KernelName, (receivesTorque k = true ∨ receivesForce k = true) ↔
        k = .computeElectrostatics ∨ k = .computeFixedMultipoleForceAndEnergy ∨
        k = .computeInducedDipoleForceAndEnergy ∨ k = .mapTorqueToForce) ∧
      Event.launch .computeElectrostatics ∈ pre ∧
      (st.1.pmeGrid.isSome = true →
        Event.launch .computeFixedMultipoleForceAndEnergy ∈ pre ∧
        Event.launch .computeInducedDipoleForceAndEnergy ∈ pre) ∧
      (st.1.pmeGrid.isSome = false →
        Event.launch .computeFixedMultipoleForceAndEnergy ∉ pre ∧
        Event.launch .computeInducedDipoleForceAndEnergy ∉ pre) ∧
      (∀ k : KernelName, (receivesTorque k = true ∨ receivesForce k = true) →
        k ≠ .mapTorqueToForce →
        Precedes (pre ++ [Event.launch .mapTorqueToForce, Event.copyPosqToLastPositions])
          (.launch k) (.launch .mapTorqueToForce)) := by
  have hlog := execute_log_operations converged st
  generalize st.1.pmeGrid.isSome = pme at hlog ⊢
  generalize st.2.useDoublePrecision = ud at hlog
  generalize st.1.maxInducedIterations = m at hlog
  have hsplit : executeOperations pme ud m converged =
      ([Event.launch .computeLabFrameMoments] ++
        (if pme then executePme ud m converged else executeNoPme m converged)) ++
      [.launch .mapTorqueToForce, .copyPosqToLastPositions] := rfl
  have hone : (executeOperations pme ud m converged).count (.launch .mapTorqueToForce) = 1 := by
    rw [count_executeOperations pme ud m converged _ (by cases pme <;> cases ud <;> decide)]
    cases pme <;> cases ud <;> decide
  have hnot : Event.launch .mapTorqueToForce ∉
      [Event.launch .computeLabFrameMoments] ++
        (if pme then executePme ud m converged else executeNoPme m converged) := by
    intro hmem
    have hpos := List.count_pos_iff.2 hmem
    rw [hsplit, List.count_append] at hone
    have h2 : ([Event.launch .mapTorqueToForce, Event.copyPosqToLastPositions]).count
        (.launch .mapTorqueToForce) = 1 := by decide
    omega
  have hmemloop : ∀ e : Event,
      e ∉ inducedFieldBody pme ud ++ iterateDipolesByDIIS false →
      e ∉ operationsBeforeLoop pme ud ++ operationsAfterLoop pme →
      e ∉ [Event.launch .computeLabFrameMoments] ++
        (if pme then executePme ud m converged else executeNoPme m converged) := by
    intro e h1 h2 hmem
    have : e ∈ executeOperations pme ud m converged := by
      rw [hsplit]; exact List.mem_append_left _ hmem
    rw [executeOperations_eq] at this
    simp only [List.mem_append] at this h2
    rcases this with h | h | h
    · exact h2 (Or.inl h)
    · exact not_mem_loop_of_not_mem_body pme ud converged _ _ e h1 h
    · exact h2 (Or.inr h)
  refine ⟨_, by rw [hlog, hsplit], hnot, by rw [← hsplit]; exact hone, ?_, ?_, ?_, ?_, ?_⟩
  · intro k
    cases k <;> simp [receivesTorque, receivesForce]
  · cases pme <;> simp [executePme, executeNoPme]
  · intro hp
    subst hp
    simp [executePme]
  · intro hp
    subst hp
    exact ⟨hmemloop _ (by cases ud <;> decide) (by cases ud <;> decide),
      hmemloop _ (by cases ud <;> decide) (by cases ud <;> decide)⟩
  · intro k _ hk
    apply precedes_append_right hnot
    apply precedes_of_not_mem
    simp only [List.mem_cons, List.mem_singleton, Event.launch.injEq, List.not_mem_nil,
      or_false, not_or]
    exact ⟨hk, by simp⟩

/-- C12 at a concrete input: with PME the three launches that receive the
torque buffer come before the single launch of `mapTorqueToForce`. -/
theorem mapTorqueToForce_once_after_torques_witness :
    ((executeOperations true false 2 (fun _ => false)).filter fun e =>
      match e with
      | .launch k => receivesTorque k
      | _ => false) =
      [.launch .computeFixedMultipoleForceAndEnergy, .launch .computeElectrostatics,
       .launch .computeInducedDipoleForceAndEnergy, .launch .mapTorqueToForce] ∧
    ∃ pre : List Event,
      ( ElectrostaticsKernel.execute (fun _ => true) toyInitialized).2.log =
        (toyInitialized).2.log ++ ((if (toyInitialized).1.hasInitializedScaleFactors = false then
          [Event.initializeScaleFactors] else []) ++
          (pre ++ [.launch .mapTorqueToForce, .copyPosqToLastPositions])) ∧
      Event.launch .mapTorqueToForce ∉ pre :=
  ⟨by decide,
   (mapTorqueToForce_once_after_torques (fun _ => true) toyInitialized).imp
     fun _ h => ⟨h.1, h.2.1⟩⟩

/-! ## C13 -/

/-- The loop runs the iterations `i, i+1, ..., i+n-1` for some `n` up to the
bound: every convergence test but the last one fails, and the loop stops
short of the bound only on a test that succeeds. -/
theorem inducedDipoleLoop_eq_flatMap (body : List Event) (converged : Nat → Bool) :
    ∀ (remaining i : Nat), ∃ n : Nat, n ≤ remaining ∧
      inducedDipoleLoop body converged remaining i =
        (List.range n).flatMap (fun t => body ++ iterateDipolesByDIIS (converged (i + t))) ∧
      (∀ t, t + 1 < n → converged (i + t) = false) ∧
      (n < remaining → 0 < n ∧ converged (i + (n - 1)) = true) := by
  intro remaining
  induction remaining with
  | zero => intro i; exact ⟨0, le_refl _, rfl, fun t h => by omega, fun h => by omega⟩
  | succ r ih =>
    intro i
    cases hc : converged i with
    | true =>
      refine ⟨1, by omega, ?_, fun t h => by omega, fun _ => ⟨by omega, by simpa using hc⟩⟩
      have e1 : List.range 1 = [0] := rfl
      simp [inducedDipoleLoop, hc, e1]
    | false =>
      obtain ⟨n, hn, heq, hfalse, hstop⟩ := ih (i + 1)
      refine ⟨n + 1, by omega, ?_, ?_, ?_⟩
      · simp only [inducedDipoleLoop, hc, Bool.false_eq_true, if_false, heq]
        rw [List.range_succ_eq_map, List.flatMap_cons, List.flatMap_map]
        simp only [Nat.add_zero, hc, List.append_assoc, Nat.succ_eq_add_one]
        congr 2
        apply List.flatMap_congr
        intro t _
        have e : i + 1 + t = i + (t + 1) := by omega
        rw [e]
      · intro t ht
        cases t with
        | zero => simpa using hc
        | succ t =>
          have := hfalse t (by omega)
          have e : i + 1 + t = i + (t + 1) := by omega
          rw [e] at this
          exact this
      · intro hlt
        obtain ⟨h1, h2⟩ := hstop (by omega)
        refine ⟨by omega, ?_⟩
        have e : i + 1 + (n - 1) = i + (n + 1 - 1) := by omega
        rw [e] at h2
        exact h2

/-- C13: in every `execute` call the self-consistency loop issues, between the
operations before and after it, exactly the iterations `0, 1, ..., n-1`, each
made of the loop body and of one call `iterateDipolesByDIIS(i)` (whose outcome
is `converged i`); no call of `iterateDipolesByDIIS` is issued outside them.
Here `n` is at most `maxInducedIterations`, it is `min(maxInducedIterations, j+1)`
when `j` is the first index whose call answers `true`, and it is
`maxInducedIterations` when none of the first `maxInducedIterations` calls
does (a bound below 0 counts as 0).  In every case the call ends (the embedded
`execute` has no exception) having launched `computeElectrostatics` and
`mapTorqueToForce` after the loop. -/
theorem inducedDipoleLoop_bounded {F R : Type} (converged : Nat → Bool)
    (st : ElectrostaticsKernel F R × CudaContext R) :
    ∃ (n : Nat) (before after : List Event),
      ( ElectrostaticsKernel.execute converged st).2.log =
        st.2.log ++ ((if st.1.hasInitializedScaleFactors = false then
          [Event.initializeScaleFactors] else []) ++
          (before ++
            ((List.range n).flatMap (fun i =>
              inducedFieldBody st.1.pmeGrid.isSome st.2.useDoublePrecision ++
                iterateDipolesByDIIS (converged i)) ++ after))) ∧
      (∀ c : Bool, ∀ e ∈ iterateDipolesByDIIS c, e ∉ before ∧ e ∉ after) ∧
      n ≤ st.1.maxInducedIterations.toNat ∧
      (∀ j : Nat, converged j = true → (∀ i, i < j → converged i = false) →
        n = min st.1.maxInducedIterations.toNat (j + 1)) ∧
      ((∀ i, i < st.1.maxInducedIterations.toNat → converged i = false) →
        n = st.1.maxInducedIterations.toNat) ∧
      Event.launch .computeElectrostatics ∈ after ∧
      Event.launch .mapTorqueToForce ∈ after := by
  obtain ⟨n, hn, heq, hfalse, hstop⟩ := inducedDipoleLoop_eq_flatMap
    (inducedFieldBody st.1.pmeGrid.isSome st.2.useDoublePrecision) converged
    st.1.maxInducedIterations.toNat 0
  simp only [Nat.zero_add] at heq hfalse hstop
  refine ⟨n, operationsBeforeLoop st.1.pmeGrid.isSome st.2.useDoublePrecision,
    operationsAfterLoop st.1.pmeGrid.isSome, ?_, ?_, hn, ?_, ?_, ?_, ?_⟩
  · rw [execute_log_operations, executeOperations_eq, heq]
  · intro c e he
    generalize st.1.pmeGrid.isSome = pme
    generalize st.2.useDoublePrecision = ud
    have hmem : e ∈ iterateDipolesByDIIS false := by
      cases c with
      | false => exact he
      | true =>
        simp only [iterateDipolesByDIIS, if_true, List.append_nil] at he
        simp only [iterateDipolesByDIIS, List.mem_append]
        exact Or.inl he
    simp only [iterateDipolesByDIIS, Bool.false_eq_true, if_false, List.cons_append,
      List.nil_append, List.mem_cons, List.mem_singleton, List.not_mem_nil, or_false] at hmem
    rcases hmem with rfl | rfl | rfl | rfl | rfl | rfl <;> cases pme <;> cases ud <;>
      exact ⟨by decide, by decide⟩
  · intro j hj hjfirst
    by_cases hlt : n < st.1.maxInducedIterations.toNat
    · obtain ⟨hpos, hlast⟩ := hstop hlt
      have h1 : ¬ (n - 1 < j) := fun h => by
        have := hjfirst (n - 1) h
        rw [hlast] at this
        exact absurd this (by simp)
      have h2 : ¬ (j < n - 1) := fun h => by
        have := hfalse j (by omega)
        rw [hj] at this
        exact absurd this (by simp)
      omega
    · have h3 : ¬ (j + 1 < n) := fun h => by
        have := hfalse j h
        rw [hj] at this
        exact absurd this (by simp)
      omega
  · intro hall
    by_contra hne
    obtain ⟨hpos, hlast⟩ := hstop (by omega)
    have := hall (n - 1) (by omega)
    rw [hlast] at this
    exact absurd this (by simp)
  · cases st.1.pmeGrid.isSome <;> decide
  · cases st.1.pmeGrid.isSome <;> decide

/-- C13 at concrete inputs: with the bound 3 and a test that succeeds at
iteration 1 there are two calls of `iterateDipolesByDIIS`; with a test that
never succeeds there are three; with the bound 0 there is none. -/
theorem inducedDipoleLoop_bounded_witness :
    (executeOperations false false 3 (fun i => decide (i = 1))).count
      (.launch .recordInducedDipolesForDIIS) = 2 ∧
    (executeOperations false false 3 (fun _ => false)).count
      (.launch .recordInducedDipolesForDIIS) = 3 ∧
    (executeOperations false false 0 (fun _ => false)).count
      (.launch .recordInducedDipolesForDIIS) = 0 ∧
    ∃ (n : Nat) (before after : List Event),
      ( ElectrostaticsKernel.execute (fun _ => false) toyInitialized).2.log =
        (toyInitialized).2.log ++ ((if (toyInitialized).1.hasInitializedScaleFactors = false then
          [Event.initializeScaleFactors] else []) ++
          (before ++
            ((List.range n).flatMap (fun i =>
              inducedFieldBody (toyInitialized).1.pmeGrid.isSome
                (toyInitialized).2.useDoublePrecision ++
                iterateDipolesByDIIS ((fun _ => false) i)) ++ after))) ∧
      n = 3 :=
  ⟨by decide, by decide, by decide,
   (inducedDipoleLoop_bounded (fun _ => false) toyInitialized).imp fun _ h =>
     h.imp fun _ h2 => h2.imp fun _ h3 =>
       ⟨h3.1, (h3.2.2.2.2.1 (fun _ _ => rfl)).trans (by decide)⟩⟩

/-- The interleaved accumulation of `total1` and `total2` gives the two sums
taken one after the other. -/
lemma errorTotals_eq {D F : Type} (ops : DoubleOps D F) (errors : List (Float2 F)) :
    errorTotals ops errors =
      ((errors.map fun e => ops.ofFloat e.x).foldl ops.add ops.zero,
       (errors.map fun e => ops.ofFloat e.y).foldl ops.add ops.zero) := by
  unfold errorTotals
  have key : ∀ (es : List (Float2 F)) (a b : D),
      es.foldl (fun total e => (ops.add total.1 (ops.ofFloat e.x),
        ops.add total.2 (ops.ofFloat e.y))) (a, b) =
      ((es.map fun e => ops.ofFloat e.x).foldl ops.add a,
       (es.map fun e => ops.ofFloat e.y).foldl ops.add b) := by
    intro es
    induction es with
    | nil => intro a b; rfl
    | cons e es ih => intro a b; simp only [List.foldl_cons, List.map_cons]; exact ih _ _
  exact key errors _ _

/-- Claim C14.  `iterateDipolesByDIIS` returns true exactly when
`48.033324 * sqrt(max(total1, total2) / numAtoms) < inducedEpsilon`, where
`total1` and `total2` are the sums over the downloaded per-block errors of their
two components.  When it returns true it has issued only the recording of the
history, the two downloads and the matrix kernel: no coefficients are uploaded,
the update kernel is not launched, and no kernel that writes the induced dipoles
runs.  When it returns false the coefficients are uploaded and the update kernel
is launched. -/
theorem iterateDipolesByDIIS_returns_true_iff {D F : Type} (ops : DoubleOps D F)
    (errors : List (Float2 F)) (numAtoms : Int) (inducedEpsilon : D) :
    let call := iterateDipolesByDIISCall ops errors numAtoms inducedEpsilon
    let total1 := (errors.map fun e => ops.ofFloat e.x).foldl ops.add ops.zero
    let total2 := (errors.map fun e => ops.ofFloat e.y).foldl ops.add ops.zero
    (call.1 = true ↔
      ops.lt (ops.mul ops.rmsScale
        (ops.sqrt (ops.div (stdMax ops total1 total2) (ops.ofInt numAtoms))))
        inducedEpsilon = true) ∧
    (call.1 = true →
      call.2 = [.launch .recordInducedDipolesForDIIS, .download .inducedDipoleErrors,
        .launch .computeDIISMatrix, .download .diisMatrix] ∧
      Event.upload .diisCoefficients ∉ call.2 ∧
      Event.launch .updateInducedFieldByDIIS ∉ call.2 ∧
      ∀ k, Event.launch k ∈ call.2 → writesInducedDipoles k = false) ∧
    (call.1 = false →
      Event.upload .diisCoefficients ∈ call.2 ∧
      Event.launch .updateInducedFieldByDIIS ∈ call.2 ∧
      Precedes call.2 (.upload .diisCoefficients) (.launch .updateInducedFieldByDIIS)) := by
  intro call total1 total2
  refine ⟨?_, ?_, ?_⟩
  · show diisConverged ops errors numAtoms inducedEpsilon = true ↔ _
    unfold diisConverged
    simp only [errorTotals_eq]
  · intro h
    have h2 : call.2 = iterateDipolesByDIIS true := by
      show iterateDipolesByDIIS (diisConverged ops errors numAtoms inducedEpsilon) = _
      have h1 : diisConverged ops errors numAtoms inducedEpsilon = true := h
      rw [h1]
    rw [h2]
    refine ⟨rfl, by decide, by decide, ?_⟩
    intro k hk
    simp [iterateDipolesByDIIS] at hk
    rcases hk with rfl | rfl <;> rfl
  · intro h
    have h2 : call.2 = iterateDipolesByDIIS false := by
      show iterateDipolesByDIIS (diisConverged ops errors numAtoms inducedEpsilon) = _
      have h1 : diisConverged ops errors numAtoms inducedEpsilon = false := h
      rw [h1]
    rw [h2]
    refine ⟨by decide, by decide, ?_⟩
    rw [precedes_iff_bounded]
    decide

/-- Witness for C14: with the toy arithmetic the totals of the errors
`(1, 2), (3, 4)` are `4` and `6`; for two atoms the tested value is
`48 * sqrt (6 / 2) = 48`, so the call returns true for `inducedEpsilon = 50`
and false for `inducedEpsilon = 40`. -/
theorem iterateDipolesByDIIS_returns_true_iff_witness :
    (iterateDipolesByDIISCall toyOps [⟨1, 2⟩, ⟨3, 4⟩] 2 50).1 = true ∧
    (iterateDipolesByDIISCall toyOps [⟨1, 2⟩, ⟨3, 4⟩] 2 50).2 =
      [.launch .recordInducedDipolesForDIIS, .download .inducedDipoleErrors,
        .launch .computeDIISMatrix, .download .diisMatrix] ∧
    (iterateDipolesByDIISCall toyOps [⟨1, 2⟩, ⟨3, 4⟩] 2 40).1 = false ∧
    Event.launch .updateInducedFieldByDIIS ∈
      (iterateDipolesByDIISCall toyOps [⟨1, 2⟩, ⟨3, 4⟩] 2 40).2 :=
  ⟨by decide,
   ((iterateDipolesByDIIS_returns_true_iff toyOps [⟨1, 2⟩, ⟨3, 4⟩] 2 50).2.1 (by decide)).1,
   by decide,
   ((iterateDipolesByDIIS_returns_true_iff toyOps [⟨1, 2⟩, ⟨3, 4⟩] 2 40).2.2 (by decide)).2.1⟩

lemma numPrev_eq_min (maxPrevDIISDipoles iteration : Nat) :
    numPrev maxPrevDIISDipoles iteration = min (iteration + 1) maxPrevDIISDipoles := by
  unfold numPrev
  split_ifs with h
  · exact (min_eq_left (le_of_lt h)).symm
  · exact (min_eq_right (not_lt.mp h)).symm

/-- The border loop `b[i][0] = b[0][i] = -1`, entry by entry. -/
lemma border_foldl_apply {K : Type} [Field K] (l : List Nat) (hl : ∀ i ∈ l, 1 ≤ i)
    (b : Array2D K) (r c : Nat) :
    (l.foldl (fun b i => (b.set 0 i (-1)).set i 0 (-1)) b) r c =
      if (r = 0 ∧ c ∈ l) ∨ (c = 0 ∧ r ∈ l) then -1 else b r c := by
  induction l generalizing b with
  | nil => simp
  | cons i l ih =>
    have hi : 1 ≤ i := hl i (List.mem_cons_self _ _)
    rw [List.foldl_cons, ih (fun j hj => hl j (List.mem_cons_of_mem _ hj))]
    by_cases h1 : (r = 0 ∧ c ∈ l) ∨ (c = 0 ∧ r ∈ l)
    · rw [if_pos h1, if_pos]
      rcases h1 with ⟨h, h'⟩ | ⟨h, h'⟩
      · exact Or.inl ⟨h, List.mem_cons_of_mem _ h'⟩
      · exact Or.inr ⟨h, List.mem_cons_of_mem _ h'⟩
    · rw [if_neg h1]
      by_cases h2 : (r = 0 ∧ c = i) ∨ (c = 0 ∧ r = i)
      · rw [if_pos]
        · rcases h2 with ⟨h, h'⟩ | ⟨h, h'⟩
          · subst h h'
            simp [Array2D.set]
          · subst h h'
            simp [Array2D.set]
        · rcases h2 with ⟨h, h'⟩ | ⟨h, h'⟩
          · exact Or.inl ⟨h, h' ▸ List.mem_cons_self _ _⟩
          · exact Or.inr ⟨h, h' ▸ List.mem_cons_self _ _⟩
      · rw [if_neg]
        · have a1 : ¬ (r = i ∧ c = 0) := fun h => h2 (Or.inr ⟨h.2, h.1⟩)
          have a2 : ¬ (r = 0 ∧ c = i) := fun h => h2 (Or.inl h)
          simp only [Array2D.set, if_neg a1, if_neg a2]
        · rintro (⟨h, h'⟩ | ⟨h, h'⟩)
          · rcases List.mem_cons.mp h' with e | e
            · exact h2 (Or.inl ⟨h, e⟩)
            · exact h1 (Or.inl ⟨h, e⟩)
          · rcases List.mem_cons.mp h' with e | e
            · exact h2 (Or.inr ⟨h, e⟩)
            · exact h1 (Or.inr ⟨h, e⟩)

/-- The inner loop over `j` for one row `i`, entry by entry. -/
lemma row_foldl_apply {K : Type} (g : Nat → K) (i : Nat) (l : List Nat) (b : Array2D K)
    (r c : Nat) :
    (l.foldl (fun b j => b.set (i + 1) (j + 1) (g j)) b) r c =
      if r = i + 1 ∧ ∃ j ∈ l, c = j + 1 then g (c - 1) else b r c := by
  induction l generalizing b with
  | nil => simp
  | cons j l ih =>
    rw [List.foldl_cons, ih]
    by_cases h1 : r = i + 1 ∧ ∃ j ∈ l, c = j + 1
    · rw [if_pos h1, if_pos]
      obtain ⟨h, k, hk, e⟩ := h1
      exact ⟨h, k, List.mem_cons_of_mem _ hk, e⟩
    · rw [if_neg h1]
      by_cases h2 : r = i + 1 ∧ c = j + 1
      · rw [if_pos ⟨h2.1, j, List.mem_cons_self _ _, h2.2⟩]
        simp [Array2D.set, h2.1, h2.2]
      · rw [if_neg]
        · simp only [Array2D.set, if_neg h2]
        · rintro ⟨h, k, hk, e⟩
          rcases List.mem_cons.mp hk with e' | e'
          · exact h2 ⟨h, e' ▸ e⟩
          · exact h1 ⟨h, k, e', e⟩

/-- The double loop over `i` and `j`, entry by entry. -/
lemma block_foldl_apply {K : Type} (g : Nat → Nat → K) (lj : List Nat) (li : List Nat)
    (b : Array2D K) (r c : Nat) :
    (li.foldl (fun b i => lj.foldl (fun b j => b.set (i + 1) (j + 1) (g i j)) b) b) r c =
      if (∃ i ∈ li, r = i + 1) ∧ ∃ j ∈ lj, c = j + 1 then g (r - 1) (c - 1) else b r c := by
  induction li generalizing b with
  | nil => simp
  | cons i li ih =>
    rw [List.foldl_cons, ih]
    by_cases h1 : (∃ i ∈ li, r = i + 1) ∧ ∃ j ∈ lj, c = j + 1
    · rw [if_pos h1, if_pos]
      obtain ⟨⟨k, hk, e⟩, h⟩ := h1
      exact ⟨⟨k, List.mem_cons_of_mem _ hk, e⟩, h⟩
    · rw [if_neg h1, row_foldl_apply (g i)]
      by_cases h2 : r = i + 1 ∧ ∃ j ∈ lj, c = j + 1
      · rw [if_pos h2, if_pos ⟨⟨i, List.mem_cons_self _ _, h2.1⟩, h2.2⟩]
        simp [h2.1]
      · rw [if_neg h2, if_neg]
        rintro ⟨⟨k, hk, e⟩, h⟩
        rcases List.mem_cons.mp hk with e' | e'
        · exact h2 ⟨e' ▸ e, h⟩
        · exact h1 ⟨⟨k, e', e⟩, h⟩

/-- Every entry of the array handed to the SVD. -/
lemma borderedMatrix_apply {K : Type} [Field K] (maxPrevDIISDipoles iteration : Nat)
    (matrix : List K) (fresh : Array2D K) (r c : Nat) :
    borderedMatrix maxPrevDIISDipoles iteration matrix fresh r c =
      if (1 ≤ r ∧ r ≤ numPrev maxPrevDIISDipoles iteration) ∧
          (1 ≤ c ∧ c ≤ numPrev maxPrevDIISDipoles iteration) then
        matrix.getD ((r - 1) * maxPrevDIISDipoles + (c - 1)) 0
      else if (r = 0 ∧ 1 ≤ c ∧ c ≤ numPrev maxPrevDIISDipoles iteration) ∨
          (c = 0 ∧ 1 ≤ r ∧ r ≤ numPrev maxPrevDIISDipoles iteration) then -1
      else if r = 0 ∧ c = 0 then 0
      else fresh r c := by
  unfold borderedMatrix
  rw [block_foldl_apply (fun i j => matrix.getD (i * maxPrevDIISDipoles + j) 0)]
  have e1 : ((∃ i ∈ List.range (numPrev maxPrevDIISDipoles iteration), r = i + 1) ∧
      ∃ j ∈ List.range (numPrev maxPrevDIISDipoles iteration), c = j + 1) ↔
      ((1 ≤ r ∧ r ≤ numPrev maxPrevDIISDipoles iteration) ∧
          (1 ≤ c ∧ c ≤ numPrev maxPrevDIISDipoles iteration)) := by
    simp only [List.mem_range]
    constructor
    · rintro ⟨⟨i, hi, rfl⟩, j, hj, rfl⟩
      omega
    · rintro ⟨⟨h1, h2⟩, h3, h4⟩
      exact ⟨⟨r - 1, by omega, by omega⟩, c - 1, by omega, by omega⟩
  rw [if_congr e1 rfl rfl]
  rw [border_foldl_apply _ (by intro i hi; rw [List.mem_range'_1] at hi; exact hi.1)]
  have e2 : ∀ k, k ∈ List.range' 1 (numPrev maxPrevDIISDipoles iteration + 1 - 1) ↔
      1 ≤ k ∧ k ≤ numPrev maxPrevDIISDipoles iteration := by
    intro k
    rw [List.mem_range'_1]
    omega
  simp only [e2, Array2D.set]

/-- Claim C18.  For every iteration `>= 1` the array handed to the SVD is the
bordered matrix of dimension `numPrev + 1` with
`numPrev = min (iteration + 1) MaxPrevDIISDipoles`: the corner is `0`, the
border entries `b[i][0]` and `b[0][i]` are `-1` for `1 <= i <= numPrev`, and
`b[i+1][j+1]` is entry `i * MaxPrevDIISDipoles + j` of the downloaded matrix,
an index inside its `MaxPrevDIISDipoles^2` elements.  The array is symmetric
whenever the downloaded block is. -/
theorem borderedMatrix_layout {K : Type} [Field K] (maxPrevDIISDipoles iteration : Nat)
    (hit : 1 ≤ iteration) (matrix : List K)
    (hlen : matrix.length = maxPrevDIISDipoles * maxPrevDIISDipoles) (fresh : Array2D K)
    (jama : Array2D K → Nat → SVD K) :
    let n := numPrev maxPrevDIISDipoles iteration
    let b := borderedMatrix maxPrevDIISDipoles iteration matrix fresh
    diisCoefficients maxPrevDIISDipoles iteration matrix fresh jama =
      svdCoefficients (n + 1) (jama b (n + 1)) ∧
    n = min (iteration + 1) maxPrevDIISDipoles ∧
    b 0 0 = 0 ∧
    (∀ i, 1 ≤ i → i ≤ n → b i 0 = -1 ∧ b 0 i = -1) ∧
    (∀ i j, i < n → j < n →
      i * maxPrevDIISDipoles + j < maxPrevDIISDipoles * maxPrevDIISDipoles ∧
      matrix[i * maxPrevDIISDipoles + j]? = some (b (i + 1) (j + 1))) ∧
    ((∀ i j, i < n → j < n → matrix[i * maxPrevDIISDipoles + j]? =
        matrix[j * maxPrevDIISDipoles + i]?) →
      ∀ r c, r ≤ n → c ≤ n → b r c = b c r) := by
  intro n b
  have hn : n ≤ maxPrevDIISDipoles := by
    show numPrev maxPrevDIISDipoles iteration ≤ _
    rw [numPrev_eq_min]; exact min_le_right _ _
  have hidx : ∀ i j, i < n → j < n →
      i * maxPrevDIISDipoles + j < maxPrevDIISDipoles * maxPrevDIISDipoles := by
    intro i j hi hj
    have h1 : (i + 1) * maxPrevDIISDipoles ≤ maxPrevDIISDipoles * maxPrevDIISDipoles :=
      Nat.mul_le_mul_right _ (by omega)
    have h2 : (i + 1) * maxPrevDIISDipoles = i * maxPrevDIISDipoles + maxPrevDIISDipoles := by
      ring
    omega
  have hblock : ∀ i j, i < n → j < n →
      b (i + 1) (j + 1) = matrix.getD (i * maxPrevDIISDipoles + j) 0 := by
    intro i j hi hj
    show borderedMatrix maxPrevDIISDipoles iteration matrix fresh (i + 1) (j + 1) = _
    rw [borderedMatrix_apply, if_pos]
    · simp
    · exact ⟨⟨by omega, by show i + 1 ≤ n; omega⟩, by omega, by show j + 1 ≤ n; omega⟩
  have hget : ∀ k, k < maxPrevDIISDipoles * maxPrevDIISDipoles →
      matrix[k]? = some (matrix.getD k 0) := by
    intro k hk
    rw [← hlen] at hk
    rw [List.getD_eq_getElem _ _ hk, List.getElem?_eq_getElem hk]
  have hborder : ∀ i, 1 ≤ i → i ≤ n → b i 0 = -1 ∧ b 0 i = -1 := by
    intro i h1 h2
    constructor
    · show borderedMatrix maxPrevDIISDipoles iteration matrix fresh i 0 = _
      rw [borderedMatrix_apply, if_neg (by omega), if_pos (Or.inr ⟨rfl, h1, h2⟩)]
    · show borderedMatrix maxPrevDIISDipoles iteration matrix fresh 0 i = _
      rw [borderedMatrix_apply, if_neg (by omega), if_pos (Or.inl ⟨rfl, h1, h2⟩)]
  refine ⟨?_, numPrev_eq_min _ _, ?_, hborder, ?_, ?_⟩
  · unfold diisCoefficients
    rw [if_neg (by omega)]
  · show borderedMatrix maxPrevDIISDipoles iteration matrix fresh 0 0 = _
    rw [borderedMatrix_apply, if_neg (by omega), if_neg (by omega), if_pos ⟨rfl, rfl⟩]
  · intro i j hi hj
    refine ⟨hidx i j hi hj, ?_⟩
    rw [hblock i j hi hj]
    exact hget _ (hidx i j hi hj)
  · intro hsym r c hr hc
    rcases Nat.eq_zero_or_pos r with h0 | h0
    · subst h0
      rcases Nat.eq_zero_or_pos c with h0' | h0'
      · subst h0'; rfl
      · rw [(hborder c h0' hc).1, (hborder c h0' hc).2]
    · rcases Nat.eq_zero_or_pos c with h0' | h0'
      · subst h0'
        rw [(hborder r h0 hr).1, (hborder r h0 hr).2]
      · obtain ⟨i, rfl⟩ : ∃ i, r = i + 1 := ⟨r - 1, by omega⟩
        obtain ⟨j, rfl⟩ : ∃ j, c = j + 1 := ⟨c - 1, by omega⟩
        have hi : i < n := by omega
        have hj : j < n := by omega
        have h := hsym i j hi hj
        rw [hget _ (hidx i j hi hj), hget _ (hidx j i hj hi)] at h
        rw [hblock i j hi hj, hblock j i hj hi]
        exact Option.some.inj h

/-- Witness for C18: iteration `1` with `MaxPrevDIISDipoles = 2` and the
downloaded matrix `1, 2, 2, 5` gives the `3 x 3` array with rows `0, -1, -1`,
`-1, 1, 2` and `-1, 2, 5`. -/
theorem borderedMatrix_layout_witness :
    numPrev 2 1 = min (1 + 1) 2 ∧
    borderedMatrix 2 1 [(1 : ℚ), 2, 2, 5] (fun _ _ => 7) 0 0 = 0 ∧
    [(1 : ℚ), 2, 2, 5][1 * 2 + 0]? =
      some (borderedMatrix 2 1 [(1 : ℚ), 2, 2, 5] (fun _ _ => 7) (1 + 1) (0 + 1)) :=
  have h := borderedMatrix_layout 2 1 (by decide) [(1 : ℚ), 2, 2, 5] rfl (fun _ _ => 7)
    (fun _ _ => ⟨fun _ _ => 0, fun _ _ => 0, fun _ => 0, 0⟩)
  ⟨h.2.1, h.2.2.1, (h.2.2.2.2.1 1 0 (by decide) (by decide)).2⟩

/-- From a decomposition `B = U * diag(s) * Vᵀ` with orthogonal `U`, `V` and no
vanishing `s`, the system `B x = r` has the one solution
`V * diag(1/s) * Uᵀ * r`. -/
lemma svd_solution {K : Type} [Field K] {n : Nat} (B U V : Matrix (Fin n) (Fin n) K)
    (s : Fin n → K) (hB : B = U * Matrix.diagonal s * V.transpose)
    (hU : U.transpose * U = 1) (hV : V.transpose * V = 1) (hs : ∀ j, s j ≠ 0)
    (r : Fin n → K) :
    B.mulVec ((V * Matrix.diagonal (fun j => (s j)⁻¹) * U.transpose).mulVec r) = r ∧
    ∀ y, B.mulVec y = r →
      y = (V * Matrix.diagonal (fun j => (s j)⁻¹) * U.transpose).mulVec r := by
  have hD : Matrix.diagonal s * Matrix.diagonal (fun j => (s j)⁻¹) = 1 := by
    rw [Matrix.diagonal_mul_diagonal]
    have : (fun i => s i * (s i)⁻¹) = fun _ => (1 : K) := by
      funext i; exact mul_inv_cancel₀ (hs i)
    rw [this, Matrix.diagonal_one]
  have hU' : U * U.transpose = 1 := (Matrix.mul_eq_one_comm).mp hU
  have hBA : B * (V * Matrix.diagonal (fun j => (s j)⁻¹) * U.transpose) = 1 := by
    rw [hB]
    calc U * Matrix.diagonal s * V.transpose *
          (V * Matrix.diagonal (fun j => (s j)⁻¹) * U.transpose)
        = U * (Matrix.diagonal s * ((V.transpose * V) *
            Matrix.diagonal (fun j => (s j)⁻¹))) * U.transpose := by
          simp only [Matrix.mul_assoc]
      _ = 1 := by rw [hV, Matrix.one_mul, hD, Matrix.mul_one, hU']
  have hAB : (V * Matrix.diagonal (fun j => (s j)⁻¹) * U.transpose) * B = 1 :=
    (Matrix.mul_eq_one_comm).mp hBA
  constructor
  · rw [Matrix.mulVec_mulVec, hBA, Matrix.one_mulVec]
  · intro y hy
    rw [← hy, Matrix.mulVec_mulVec, hAB, Matrix.one_mulVec]

/-- The loop `d -= f(j)` for `j = 0, ..., m-1` from `d = 0` leaves minus the sum. -/
lemma foldl_sub_eq_neg_sum {K : Type} [Field K] (f : Nat → K) (m : Nat) :
    (List.range m).foldl (fun d j => d - f j) 0 = - ∑ j in Finset.range m, f j := by
  induction m with
  | zero => simp
  | succ m ih =>
    rw [List.range_succ, List.foldl_append, ih, Finset.sum_range_succ]
    simp only [List.foldl_cons, List.foldl_nil]
    ring

/-- A non-singular matrix has no vanishing singular value. -/
lemma singular_values_ne_zero {K : Type} [Field K] {n : Nat} (B U V : Matrix (Fin n) (Fin n) K)
    (s : Fin n → K) (hB : B = U * Matrix.diagonal s * V.transpose) (hdet : B.det ≠ 0) :
    ∀ j, s j ≠ 0 := by
  intro j hj
  apply hdet
  rw [hB, Matrix.det_mul, Matrix.det_mul, Matrix.det_diagonal,
    Finset.prod_eq_zero (Finset.mem_univ j) hj]
  simp

/-- The entries of `svdCoefficients`, and the system they solve. -/
lemma svdCoefficients_solution {K : Type} [Field K] (n : Nat) (b : Array2D K) (svd : SVD K)
    (hsvd : ExactSVD (n + 1) b svd) (hdet : (b.toMatrix (n + 1)).det ≠ 0) :
    ∃ x : Fin (n + 1) → K,
      (b.toMatrix (n + 1)).mulVec x = Pi.single 0 (-1) ∧
      (∀ y, (b.toMatrix (n + 1)).mulVec y = Pi.single 0 (-1) → y = x) ∧
      (svdCoefficients (n + 1) svd).length = n ∧
      (∀ i : Fin n, (svdCoefficients (n + 1) svd)[i.val]? = some (x i.succ)) ∧
      (∀ i : Fin n, x i.succ =
        - ∑ j in Finset.range (n + 1), svd.u 0 j * svd.v (i.val + 1) j / svd.s j) := by
  have hs := singular_values_ne_zero _ _ _ _ hsvd.decomposition hdet
  have hrank : svd.rank = n + 1 := hsvd.rank_eq (fun j hj => hs ⟨j, hj⟩)
  obtain ⟨h1, h2⟩ := svd_solution _ _ _ _ hsvd.decomposition hsvd.u_orthogonal
    hsvd.v_orthogonal hs (Pi.single 0 (-1))
  have hx : ∀ i : Fin n,
      ((svd.v.toMatrix (n + 1) * Matrix.diagonal (fun j : Fin (n + 1) => (svd.s j)⁻¹) *
        (svd.u.toMatrix (n + 1)).transpose).mulVec (Pi.single 0 (-1))) i.succ =
      - ∑ j in Finset.range (n + 1), svd.u 0 j * svd.v (i.val + 1) j / svd.s j := by
    intro i
    rw [Matrix.mulVec_single, Finset.sum_range]
    show (_ * _ : Matrix _ _ K) i.succ 0 * -1 = _
    rw [Matrix.mul_apply]
    simp only [Matrix.mul_diagonal, Matrix.transpose_apply, Array2D.toMatrix,
      Matrix.of_apply, Fin.val_succ, Fin.val_zero, mul_neg, mul_one, neg_inj]
    apply Finset.sum_congr rfl
    intro j _
    rw [div_eq_mul_inv]
    ring
  refine ⟨_, h1, h2, ?_, ?_, hx⟩
  · simp [svdCoefficients]
  · intro i
    rw [hx i]
    unfold svdCoefficients
    have e : (List.range' 1 (n + 1 - 1))[i.val]? = some (i.val + 1) := by
      rw [List.getElem?_range']
      · simp [add_comm]
      · have := i.isLt
        omega
    rw [List.getElem?_map, hrank, e, Option.map_some', foldl_sub_eq_neg_sum]

/-- Row `0` and the rows `i + 1` of the bordered system `b x = (-1, 0, ..., 0)`:
the components `1, ..., numPrev` of `x` sum to `1`, and the inner block applied
to them gives `x 0` in every row. -/
lemma bordered_rows {K : Type} [Field K] (maxPrevDIISDipoles iteration : Nat)
    (matrix : List K) (fresh : Array2D K)
    (x : Fin (numPrev maxPrevDIISDipoles iteration + 1) → K)
    (hx : ((borderedMatrix maxPrevDIISDipoles iteration matrix fresh).toMatrix
      (numPrev maxPrevDIISDipoles iteration + 1)).mulVec x = Pi.single 0 (-1)) :
    ∑ i : Fin (numPrev maxPrevDIISDipoles iteration), x i.succ = 1 ∧
    ∀ i : Fin (numPrev maxPrevDIISDipoles iteration),
      ∑ j : Fin (numPrev maxPrevDIISDipoles iteration),
        borderedMatrix maxPrevDIISDipoles iteration matrix fresh (i.val + 1) (j.val + 1) *
          x j.succ = x 0 := by
  constructor
  · have h0 := congrFun hx 0
    rw [Pi.single_eq_same] at h0
    simp only [Matrix.mulVec, Matrix.dotProduct, Array2D.toMatrix, Matrix.of_apply] at h0
    rw [Fin.sum_univ_succ] at h0
    simp only [Fin.val_zero, Fin.val_succ] at h0
    have e0 : borderedMatrix maxPrevDIISDipoles iteration matrix fresh 0 0 = 0 := by
      rw [borderedMatrix_apply, if_neg (by omega), if_neg (by omega), if_pos ⟨rfl, rfl⟩]
    have e1 : ∀ i : Fin (numPrev maxPrevDIISDipoles iteration),
        borderedMatrix maxPrevDIISDipoles iteration matrix fresh 0 (i.val + 1) = -1 := by
      intro i
      have := i.isLt
      rw [borderedMatrix_apply, if_neg (by omega), if_pos (Or.inl ⟨rfl, by omega, by omega⟩)]
    simp only [e0, e1, zero_mul, zero_add, neg_mul, one_mul, Finset.sum_neg_distrib,
      neg_inj] at h0
    exact h0
  · intro i
    have hi := congrFun hx i.succ
    rw [Pi.single_eq_of_ne (Fin.succ_ne_zero i)] at hi
    simp only [Matrix.mulVec, Matrix.dotProduct, Array2D.toMatrix, Matrix.of_apply] at hi
    rw [Fin.sum_univ_succ] at hi
    simp only [Fin.val_zero, Fin.val_succ] at hi
    have e1 : borderedMatrix maxPrevDIISDipoles iteration matrix fresh (i.val + 1) 0 = -1 := by
      have := i.isLt
      rw [borderedMatrix_apply, if_neg (by omega), if_pos (Or.inr ⟨rfl, by omega, by omega⟩)]
    rw [e1] at hi
    linear_combination hi

/-- A stationary point of the squared norm of the combined residual on the
affine set `sum c = 1` is a minimiser: the inner block is the Gram matrix of
the residuals `e i`. -/
lemma diis_minimiser {K : Type} [LinearOrderedField K] {n m : Nat} (M : Fin n → Fin n → K)
    (e : Fin n → Fin m → K) (hM : ∀ i j, M i j = ∑ k, e i k * e j k) (c : Fin n → K)
    (lam : K) (hstat : ∀ i, ∑ j, M i j * c j = lam) (hc : ∑ i, c i = 1)
    (c' : Fin n → K) (hc' : ∑ i, c' i = 1) :
    ∑ k, (∑ i, c i * e i k) ^ 2 ≤ ∑ k, (∑ i, c' i * e i k) ^ 2 := by
  have hsplit : ∀ k, ∑ i, c' i * e i k =
      ∑ i, c i * e i k + ∑ i, (c' i - c i) * e i k := by
    intro k
    rw [← Finset.sum_add_distrib]
    apply Finset.sum_congr rfl
    intro i _
    ring
  have hprod : ∀ k, (∑ i, (c' i - c i) * e i k) * (∑ j, c j * e j k) =
      ∑ i, ∑ j, (c' i - c i) * (e i k * e j k * c j) := by
    intro k
    rw [Finset.sum_mul_sum]
    apply Finset.sum_congr rfl
    intro i _
    apply Finset.sum_congr rfl
    intro j _
    ring
  have hrow : ∀ i, ∑ k, ∑ j, (c' i - c i) * (e i k * e j k * c j) = (c' i - c i) * lam := by
    intro i
    rw [Finset.sum_comm, ← hstat i, Finset.mul_sum]
    apply Finset.sum_congr rfl
    intro j _
    rw [hM, Finset.sum_mul, Finset.mul_sum]
  have hcross : ∑ k, (∑ i, (c' i - c i) * e i k) * (∑ j, c j * e j k) = 0 := by
    simp only [hprod]
    rw [Finset.sum_comm]
    simp only [hrow]
    rw [← Finset.sum_mul, Finset.sum_sub_distrib, hc, hc']
    ring
  have hexp : ∑ k, (∑ i, c' i * e i k) ^ 2 =
      ∑ k, (∑ i, c i * e i k) ^ 2 +
        (2 * ∑ k, (∑ i, (c' i - c i) * e i k) * (∑ j, c j * e j k) +
          ∑ k, (∑ i, (c' i - c i) * e i k) ^ 2) := by
    rw [Finset.mul_sum, ← Finset.sum_add_distrib, ← Finset.sum_add_distrib]
    apply Finset.sum_congr rfl
    intro k _
    rw [hsplit k]
    ring
  rw [hexp, hcross]
  have hnn : 0 ≤ ∑ k, (∑ i, (c' i - c i) * e i k) ^ 2 :=
    Finset.sum_nonneg (fun k _ => sq_nonneg _)
  linarith

/-- A list known entry by entry sums to the sum of the entries. -/
lemma sum_of_getElem? {K : Type} [Field K] {n : Nat} (l : List K) (f : Fin n → K)
    (hlen : l.length = n) (h : ∀ i : Fin n, l[i.val]? = some (f i)) :
    l.sum = ∑ i, f i := by
  have : l = List.ofFn f := by
    apply List.ext_getElem?
    intro k
    by_cases hk : k < n
    · rw [h ⟨k, hk⟩, List.getElem?_ofFn]
      unfold List.ofFnNthVal
      rw [dif_pos hk]
    · rw [List.getElem?_eq_none (by omega), List.getElem?_eq_none (by rw [List.length_ofFn]; omega)]
  rw [this, List.sum_ofFn]

lemma numPrev_one (iteration : Nat) : numPrev 1 iteration = 1 := by
  unfold numPrev
  rw [if_neg (by omega)]

/-- The toy decomposition is exact for the bordered matrix of a one-slot
history with vanishing residual, at every iteration. -/
lemma toySVD_exact (iteration : Nat) :
    ExactSVD (numPrev 1 iteration + 1) (borderedMatrix 1 iteration [0] (fun _ _ => 0)) toySVD := by
  rw [numPrev_one]
  have hb : ∀ r c, borderedMatrix 1 iteration [(0 : ℚ)] (fun _ _ => 0) r c =
      if (1 ≤ r ∧ r ≤ 1) ∧ (1 ≤ c ∧ c ≤ 1) then 0
      else if (r = 0 ∧ 1 ≤ c ∧ c ≤ 1) ∨ (c = 0 ∧ 1 ≤ r ∧ r ≤ 1) then -1 else 0 := by
    intro r c
    rw [borderedMatrix_apply, numPrev_one]
    by_cases h : (1 ≤ r ∧ r ≤ 1) ∧ (1 ≤ c ∧ c ≤ 1)
    · rw [if_pos h, if_pos h]
      have e : (r - 1) * 1 + (c - 1) = 0 := by omega
      rw [e]; rfl
    · rw [if_neg h, if_neg h]
      simp
  refine ⟨?_, ?_, ?_, fun _ => rfl⟩
  · ext i j
    fin_cases i <;> fin_cases j <;>
      simp [Array2D.toMatrix, hb, toySVD, Matrix.mul_apply, Fin.sum_univ_two, Matrix.diagonal]
  · ext i j
    fin_cases i <;> fin_cases j <;>
      simp [Array2D.toMatrix, toySVD, Matrix.mul_apply, Fin.sum_univ_two]
  · ext i j
    fin_cases i <;> fin_cases j <;>
      simp [Array2D.toMatrix, toySVD, Matrix.mul_apply, Fin.sum_univ_two]

lemma toy_det_ne_zero (iteration : Nat) :
    ((borderedMatrix 1 iteration [(0 : ℚ)] (fun _ _ => 0)).toMatrix
      (numPrev 1 iteration + 1)).det ≠ 0 := by
  have h := toySVD_exact iteration
  rw [h.decomposition, Matrix.det_mul, Matrix.det_mul, Matrix.det_transpose]
  have h1 : (toySVD.u.toMatrix (numPrev 1 iteration + 1)).det ≠ 0 := by
    intro h0
    have := congrArg Matrix.det h.u_orthogonal
    rw [Matrix.det_mul, Matrix.det_transpose, h0, Matrix.det_one] at this
    simp at this
  have h2 : (toySVD.v.toMatrix (numPrev 1 iteration + 1)).det ≠ 0 := by
    intro h0
    have := congrArg Matrix.det h.v_orthogonal
    rw [Matrix.det_mul, Matrix.det_transpose, h0, Matrix.det_one] at this
    simp at this
  have h3 : (Matrix.diagonal fun j : Fin (numPrev 1 iteration + 1) => toySVD.s j).det ≠ 0 := by
    rw [Matrix.det_diagonal]
    simp [toySVD]
  exact mul_ne_zero (mul_ne_zero h1 h3) h2

/-- Claim C16.  For an iteration `>= 1`, given an exact singular value
decomposition of the bordered matrix `b` of dimension `numPrev + 1` and `b`
non-singular, the system `b x = (-1, 0, ..., 0)` has exactly one solution `x`,
and the `numPrev` coefficients that the code writes,
`c[i] = - sum_j u[0][j] * v[i+1][j] / s[j]`, are its components
`1, ..., numPrev`.  They minimise the squared norm of the combined residual
among all coefficients that sum to `1`, whenever the inner block of `b` holds
the dot products of the residuals. -/
theorem diisCoefficients_solve_bordered {K : Type} [LinearOrderedField K]
    (maxPrevDIISDipoles iteration : Nat) (hit : 1 ≤ iteration) (matrix : List K)
    (fresh : Array2D K) (jama : Array2D K → Nat → SVD K)
    (hsvd : ExactSVD (numPrev maxPrevDIISDipoles iteration + 1)
      (borderedMatrix maxPrevDIISDipoles iteration matrix fresh)
      (jama (borderedMatrix maxPrevDIISDipoles iteration matrix fresh)
        (numPrev maxPrevDIISDipoles iteration + 1)))
    (hdet : ((borderedMatrix maxPrevDIISDipoles iteration matrix fresh).toMatrix
      (numPrev maxPrevDIISDipoles iteration + 1)).det ≠ 0) :
    let n := numPrev maxPrevDIISDipoles iteration
    let b := borderedMatrix maxPrevDIISDipoles iteration matrix fresh
    let svd := jama b (n + 1)
    let coefficients := diisCoefficients maxPrevDIISDipoles iteration matrix fresh jama
    ∃ x : Fin (n + 1) → K,
      (b.toMatrix (n + 1)).mulVec x = Pi.single 0 (-1) ∧
      (∀ y, (b.toMatrix (n + 1)).mulVec y = Pi.single 0 (-1) → y = x) ∧
      coefficients.length = n ∧
      (∀ i : Fin n, coefficients[i.val]? = some (x i.succ)) ∧
      (∀ i : Fin n, coefficients[i.val]? =
        some (- ∑ j in Finset.range (n + 1), svd.u 0 j * svd.v (i.val + 1) j / svd.s j)) ∧
      (∀ (m : Nat) (e : Fin n → Fin m → K),
        (∀ i j : Fin n, b (i.val + 1) (j.val + 1) = ∑ k, e i k * e j k) →
        ∀ c' : Fin n → K, ∑ i, c' i = 1 →
          ∑ k, (∑ i, x i.succ * e i k) ^ 2 ≤ ∑ k, (∑ i, c' i * e i k) ^ 2) := by
  intro n b svd coefficients
  have hc : coefficients = svdCoefficients (n + 1) svd := by
    show diisCoefficients maxPrevDIISDipoles iteration matrix fresh jama = _
    unfold diisCoefficients
    rw [if_neg (by omega)]
  obtain ⟨x, h1, h2, h3, h4, h5⟩ := svdCoefficients_solution n b svd hsvd hdet
  refine ⟨x, h1, h2, hc ▸ h3, fun i => hc ▸ h4 i, fun i => ?_, ?_⟩
  · rw [hc, h4 i, h5 i]
  · intro m e hM c' hc'
    obtain ⟨r0, r1⟩ := bordered_rows maxPrevDIISDipoles iteration matrix fresh x h1
    exact diis_minimiser (fun i j => b (i.val + 1) (j.val + 1)) e hM (fun i => x i.succ)
      (x 0) r1 r0 c' hc'

/-- Witness for C16: `MaxPrevDIISDipoles = 1`, iteration `1`, vanishing residual. -/
theorem diisCoefficients_solve_bordered_witness :
    ∃ x : Fin (numPrev 1 1 + 1) → ℚ,
      ((borderedMatrix 1 1 [(0 : ℚ)] (fun _ _ => 0)).toMatrix (numPrev 1 1 + 1)).mulVec x =
        Pi.single 0 (-1) ∧
      ∀ i : Fin (numPrev 1 1),
        (diisCoefficients 1 1 [(0 : ℚ)] (fun _ _ => 0) (fun _ _ => toySVD))[i.val]? =
          some (x i.succ) :=
  have h := diisCoefficients_solve_bordered 1 1 (by decide) [(0 : ℚ)] (fun _ _ => 0)
    (fun _ _ => toySVD) (toySVD_exact 1) (toy_det_ne_zero 1)
  h.elim fun x hx => ⟨x, hx.1, hx.2.2.2.1⟩

/-- Claim C17.  The uploaded coefficients sum to `1`: at iteration `0`, and at
every iteration `>= 1` for which the bordered matrix is non-singular and its
singular value decomposition exact.  There are `numPrev` of them
(`MaxPrevDIISDipoles` is at least `1`). -/
theorem diisCoefficients_sum_one {K : Type} [Field K]
    (maxPrevDIISDipoles iteration : Nat) (hmax : 1 ≤ maxPrevDIISDipoles) (matrix : List K)
    (fresh : Array2D K) (jama : Array2D K → Nat → SVD K)
    (h : iteration = 0 ∨
      (ExactSVD (numPrev maxPrevDIISDipoles iteration + 1)
        (borderedMatrix maxPrevDIISDipoles iteration matrix fresh)
        (jama (borderedMatrix maxPrevDIISDipoles iteration matrix fresh)
          (numPrev maxPrevDIISDipoles iteration + 1)) ∧
       ((borderedMatrix maxPrevDIISDipoles iteration matrix fresh).toMatrix
        (numPrev maxPrevDIISDipoles iteration + 1)).det ≠ 0)) :
    (diisCoefficients maxPrevDIISDipoles iteration matrix fresh jama).length =
      numPrev maxPrevDIISDipoles iteration ∧
    (diisCoefficients maxPrevDIISDipoles iteration matrix fresh jama).sum = 1 := by
  by_cases h0 : iteration = 0
  · subst h0
    have e : diisCoefficients maxPrevDIISDipoles 0 matrix fresh jama = [1] := by
      unfold diisCoefficients
      rw [if_pos rfl]
    rw [e]
    refine ⟨?_, by simp⟩
    unfold numPrev
    split_ifs with h1
    · rfl
    · simp only [List.length_singleton]; omega
  · rcases h with h | ⟨hsvd, hdet⟩
    · exact absurd h h0
    · have e : diisCoefficients maxPrevDIISDipoles iteration matrix fresh jama =
          svdCoefficients (numPrev maxPrevDIISDipoles iteration + 1)
            (jama (borderedMatrix maxPrevDIISDipoles iteration matrix fresh)
              (numPrev maxPrevDIISDipoles iteration + 1)) := by
        unfold diisCoefficients
        rw [if_neg h0]
      obtain ⟨x, h1, _, h3, h4, _⟩ := svdCoefficients_solution _ _ _ hsvd hdet
      rw [e]
      refine ⟨h3, ?_⟩
      rw [sum_of_getElem? _ (fun i => x i.succ) h3 h4]
      exact (bordered_rows maxPrevDIISDipoles iteration matrix fresh x h1).1

/-- Witness for C17: iteration `0` with twenty slots, and iteration `3` with one
slot and the toy decomposition. -/
theorem diisCoefficients_sum_one_witness :
    (diisCoefficients 20 0 [(0 : ℚ)] (fun _ _ => 0) (fun _ _ => toySVD)).sum = 1 ∧
    (diisCoefficients 1 3 [(0 : ℚ)] (fun _ _ => 0) (fun _ _ => toySVD)).sum = 1 :=
  ⟨(diisCoefficients_sum_one 20 0 (by decide) [(0 : ℚ)] (fun _ _ => 0) (fun _ _ => toySVD)
      (Or.inl rfl)).2,
   (diisCoefficients_sum_one 1 3 (by decide) [(0 : ℚ)] (fun _ _ => 0) (fun _ _ => toySVD)
      (Or.inr ⟨toySVD_exact 3, toy_det_ne_zero 3⟩)).2⟩

/-- Claim C19.  At iteration `0` the code writes the single coefficient `1`
whatever the decomposition routine would return.  The bordered matrix of the
one-slot history is `0, -1; -1, m` with `m` the first entry of the downloaded
matrix; for every `m` its determinant is `-1`, the system
`b x = (-1, 0)` has the one solution `x = (m, 1)`, and the general solve,
from any exact decomposition of this matrix, gives the same single
coefficient `1`. -/
theorem first_iteration_agrees_with_solve {K : Type} [Field K] (maxPrevDIISDipoles : Nat)
    (hmax : 1 ≤ maxPrevDIISDipoles) (matrix : List K) (fresh : Array2D K)
    (jama : Array2D K → Nat → SVD K)
    (hsvd : ExactSVD 2 (borderedMatrix maxPrevDIISDipoles 0 matrix fresh)
      (jama (borderedMatrix maxPrevDIISDipoles 0 matrix fresh) 2)) :
    let b := borderedMatrix maxPrevDIISDipoles 0 matrix fresh
    let m := matrix.getD 0 0
    numPrev maxPrevDIISDipoles 0 = 1 ∧
    (b 0 0 = 0 ∧ b 0 1 = -1 ∧ b 1 0 = -1 ∧ b 1 1 = m) ∧
    (b.toMatrix 2).det = -1 ∧
    (∀ x : Fin 2 → K, (b.toMatrix 2).mulVec x = Pi.single 0 (-1) ↔ x 0 = m ∧ x 1 = 1) ∧
    diisCoefficients maxPrevDIISDipoles 0 matrix fresh jama = [1] ∧
    svdCoefficients (numPrev maxPrevDIISDipoles 0 + 1) (jama b 2) =
      diisCoefficients maxPrevDIISDipoles 0 matrix fresh jama := by
  intro b m
  have hn : numPrev maxPrevDIISDipoles 0 = 1 := by
    unfold numPrev
    split_ifs with h1
    · rfl
    · omega
  have hb : ∀ r c, b r c =
      if (1 ≤ r ∧ r ≤ 1) ∧ (1 ≤ c ∧ c ≤ 1) then
        matrix.getD ((r - 1) * maxPrevDIISDipoles + (c - 1)) 0
      else if (r = 0 ∧ 1 ≤ c ∧ c ≤ 1) ∨ (c = 0 ∧ 1 ≤ r ∧ r ≤ 1) then -1
      else if r = 0 ∧ c = 0 then 0
      else fresh r c := by
    intro r c
    show borderedMatrix maxPrevDIISDipoles 0 matrix fresh r c = _
    rw [borderedMatrix_apply, hn]
  have b00 : b 0 0 = 0 := by rw [hb]; simp
  have b01 : b 0 1 = -1 := by rw [hb]; simp
  have b10 : b 1 0 = -1 := by rw [hb]; simp
  have b11 : b 1 1 = m := by rw [hb]; simp [m]
  have hdet : (b.toMatrix 2).det = -1 := by
    rw [Matrix.det_fin_two]
    simp [Array2D.toMatrix, b00, b01, b10, b11]
  have hsol : ∀ x : Fin 2 → K,
      (b.toMatrix 2).mulVec x = Pi.single 0 (-1) ↔ x 0 = m ∧ x 1 = 1 := by
    intro x
    constructor
    · intro hx
      have h0 := congrFun hx 0
      have h1 := congrFun hx 1
      simp [Matrix.mulVec, Matrix.dotProduct, Fin.sum_univ_two, Array2D.toMatrix, b00, b01,
        b10, b11] at h0 h1
      refine ⟨?_, h0⟩
      rw [h0] at h1
      linear_combination - h1
    · rintro ⟨h0, h1⟩
      funext i
      fin_cases i <;>
        simp [Matrix.mulVec, Matrix.dotProduct, Fin.sum_univ_two, Array2D.toMatrix, b00, b01,
          b10, b11, h0, h1]
  have hc : diisCoefficients maxPrevDIISDipoles 0 matrix fresh jama = [1] := by
    unfold diisCoefficients
    rw [if_pos rfl]
  refine ⟨hn, ⟨b00, b01, b10, b11⟩, hdet, hsol, hc, ?_⟩
  rw [hc, hn]
  have hdet' : (b.toMatrix (1 + 1)).det ≠ 0 := by
    show (b.toMatrix 2).det ≠ 0
    rw [hdet]
    simp
  obtain ⟨x, h1, _, h3, h4, _⟩ := svdCoefficients_solution 1 b (jama b 2) hsvd hdet'
  have hx1 : x 1 = 1 := ((hsol x).mp h1).2
  have h5 := h4 0
  apply List.ext_getElem?
  intro k
  rcases Nat.eq_zero_or_pos k with rfl | hk
  · rw [show ((0 : Fin 1) : Nat) = 0 from rfl] at h5
    rw [h5]
    show some (x 1) = _
    rw [hx1]
    rfl
  · rw [List.getElem?_eq_none (by omega), List.getElem?_eq_none (by simp; omega)]

/-- Witness for C19: one slot, vanishing residual, the toy decomposition. -/
theorem first_iteration_agrees_with_solve_witness :
    diisCoefficients 1 0 [(0 : ℚ)] (fun _ _ => 0) (fun _ _ => toySVD) = [1] ∧
    svdCoefficients (numPrev 1 0 + 1) toySVD =
      diisCoefficients 1 0 [(0 : ℚ)] (fun _ _ => 0) (fun _ _ => toySVD) :=
  have h := first_iteration_agrees_with_solve 1 (by decide) [(0 : ℚ)] (fun _ _ => 0)
    (fun _ _ => toySVD) (toySVD_exact 0)
  ⟨h.2.2.2.2.1, h.2.2.2.2.2⟩

lemma getD_set_self (l : List ℚ) (i : Nat) (a : ℚ) (h : i < l.length) :
    (l.set i a).getD i 0 = a := by
  rw [List.getD_eq_getElem?_getD, List.getElem?_set_self h]
  rfl

lemma getD_set_ne (l : List ℚ) (i k : Nat) (a : ℚ) (h : i ≠ k) :
    (l.set i a).getD k 0 = l.getD k 0 := by
  rw [List.getD_eq_getElem?_getD, List.getD_eq_getElem?_getD, List.getElem?_set_ne h]

lemma repairInterior_length (m : List ℚ) (i : Nat) :
    (repairInterior m i).length = m.length := by
  unfold repairInterior
  split_ifs <;> simp

lemma repairInterior_getD_ne (m : List ℚ) (i k : Nat) (h : i ≠ k) :
    (repairInterior m i).getD k 0 = m.getD k 0 := by
  unfold repairInterior
  split_ifs
  · exact getD_set_ne _ _ _ _ h
  · rfl

lemma repairInterior_getD_of_le (m : List ℚ) (i k : Nat) (h : 1 / 10000000 ≤ m.getD k 0) :
    (repairInterior m i).getD k 0 = m.getD k 0 := by
  by_cases e : i = k
  · subst e
    unfold repairInterior
    rw [if_neg (not_lt.mpr h)]
  · exact repairInterior_getD_ne m i k e

lemma repairInterior_getD_self (m : List ℚ) (i : Nat) (hlen : i < m.length) :
    (repairInterior m i).getD i 0 =
      if m.getD i 0 < 1 / 10000000 then 9 / 10 * (m.getD (i - 1) 0 + m.getD (i + 1) 0)
      else m.getD i 0 := by
  unfold repairInterior
  split_ifs with h
  · exact getD_set_self _ _ _ hlen
  · rfl

lemma sweep_length (l : List Nat) (m : List ℚ) :
    (l.foldl repairInterior m).length = m.length := by
  induction l generalizing m with
  | nil => rfl
  | cons i l ih => rw [List.foldl_cons, ih, repairInterior_length]

lemma sweep_getD_not_mem (l : List Nat) (m : List ℚ) (k : Nat) (h : k ∉ l) :
    (l.foldl repairInterior m).getD k 0 = m.getD k 0 := by
  induction l generalizing m with
  | nil => rfl
  | cons i l ih =>
    rw [List.foldl_cons, ih _ (fun hk => h (List.mem_cons_of_mem _ hk)),
      repairInterior_getD_ne _ _ _ (fun e => h (by subst e; exact List.mem_cons_self _ _))]

lemma sweep_getD_of_le (l : List Nat) (m : List ℚ) (k : Nat)
    (h : 1 / 10000000 ≤ m.getD k 0) :
    (l.foldl repairInterior m).getD k 0 = m.getD k 0 := by
  induction l generalizing m with
  | nil => rfl
  | cons i l ih =>
    have e := repairInterior_getD_of_le m i k h
    rw [List.foldl_cons, ih _ (e ▸ h), e]

/-- The interior sweep at an index it visits: the left neighbour is the value
the sweep leaves there, the right neighbour is the value before the sweep. -/
lemma sweep_getD_visited (m : List ℚ) (cnt i : Nat) (h0 : 1 ≤ i) (h1 : i ≤ cnt)
    (hlen : i < m.length) :
    ((List.range' 1 cnt).foldl repairInterior m).getD i 0 =
      if m.getD i 0 < 1 / 10000000 then
        9 / 10 * (((List.range' 1 cnt).foldl repairInterior m).getD (i - 1) 0 + m.getD (i + 1) 0)
      else m.getD i 0 := by
  have hsplit : List.range' 1 cnt =
      List.range' 1 (i - 1) ++ (i :: List.range' (i + 1) (cnt - i)) := by
    have e1 : cnt = ((cnt - i) + 1) + (i - 1) := by omega
    have e2 : List.range' 1 cnt = List.range' 1 (i - 1) ++ List.range' (1 + (i - 1)) ((cnt - i) + 1) := by
      rw [List.range'_append_1, ← e1]
    rw [e2, List.range'_succ]
    have e3 : 1 + (i - 1) = i := by omega
    rw [e3]
  have hA : ∀ k, i ≤ k → ((List.range' 1 (i - 1)).foldl repairInterior m).getD k 0 = m.getD k 0 := by
    intro k hk
    apply sweep_getD_not_mem
    rw [List.mem_range'_1]
    omega
  have hlenA : ((List.range' 1 (i - 1)).foldl repairInterior m).length = m.length :=
    sweep_length _ _
  rw [hsplit, List.foldl_append, List.foldl_cons]
  rw [sweep_getD_not_mem _ _ i (by rw [List.mem_range'_1]; omega),
    sweep_getD_not_mem _ _ (i - 1) (by rw [List.mem_range'_1]; omega),
    repairInterior_getD_ne _ i (i - 1) (by omega)]
  rw [repairInterior_getD_self _ _ (by rw [hlenA]; exact hlen), hA i le_rfl,
    hA (i + 1) (by omega)]

/-- The three stages of `repairModuli`. -/
lemma repairModuli_stages (moduli : List ℚ) :
    ∃ m1 : List ℚ,
      m1.length = moduli.length ∧
      (∀ k, k ≠ 0 → m1.getD k 0 = moduli.getD k 0) ∧
      (1 / 10000000 ≤ moduli.getD 0 0 → m1.getD 0 0 = moduli.getD 0 0) ∧
      (∀ k, k ≠ moduli.length - 1 → (repairModuli moduli).getD k 0 =
        ((List.range' 1 (moduli.length - 2)).foldl repairInterior m1).getD k 0) ∧
      (1 / 10000000 ≤
          ((List.range' 1 (moduli.length - 2)).foldl repairInterior m1).getD
            (moduli.length - 1) 0 →
        (repairModuli moduli).getD (moduli.length - 1) 0 =
          ((List.range' 1 (moduli.length - 2)).foldl repairInterior m1).getD
            (moduli.length - 1) 0) ∧
      (repairModuli moduli).length = moduli.length := by
  refine ⟨if moduli.getD 0 0 < 1 / 10000000 then moduli.set 0 (9 / 10 * moduli.getD 1 0)
    else moduli, ?_, ?_, ?_, ?_, ?_, ?_⟩
  · split_ifs <;> simp
  · intro k hk
    split_ifs
    · exact getD_set_ne _ _ _ _ (Ne.symm hk)
    · rfl
  · intro h
    rw [if_neg (not_lt.mpr h)]
  · intro k hk
    unfold repairModuli
    simp only []
    split_ifs
    · exact getD_set_ne _ _ _ _ (Ne.symm hk)
    · rfl
    · exact getD_set_ne _ _ _ _ (Ne.symm hk)
    · rfl
  · intro h
    unfold repairModuli
    simp only []
    rw [if_neg (not_lt.mpr h)]
  · unfold repairModuli
    simp only []
    split_ifs <;> simp [sweep_length]

/-- Claim C20, as the code has it.  For an interior index `0 < i < ndata - 1`
whose modulus is below `1e-7`, the repaired value is `0.9` times the sum of its
two neighbours, `0.9 * (moduli[i-1] + moduli[i+1])`, with no division by two;
the left neighbour is the value the sweep has left at `i - 1`, the right
neighbour the original one.  Every entry that is at least `1e-7` is left
unchanged, and the length is kept. -/
theorem repairModuli_interior (moduli : List ℚ) (i : Nat) (h0 : 0 < i)
    (h1 : i + 1 < moduli.length) :
    (repairModuli moduli).length = moduli.length ∧
    (moduli.getD i 0 < 1 / 10000000 →
      (repairModuli moduli).getD i 0 =
        9 / 10 * ((repairModuli moduli).getD (i - 1) 0 + moduli.getD (i + 1) 0)) ∧
    (∀ k, 1 / 10000000 ≤ moduli.getD k 0 →
      (repairModuli moduli).getD k 0 = moduli.getD k 0) := by
  obtain ⟨m1, hlen, hne, h00, hres, hlast, hl⟩ := repairModuli_stages moduli
  refine ⟨hl, ?_, ?_⟩
  · intro hlt
    rw [hres i (by omega), hres (i - 1) (by omega),
      sweep_getD_visited m1 (moduli.length - 2) i h0 (by omega) (by omega),
      hne i (by omega), hne (i + 1) (by omega), if_pos hlt]
  · intro k hk
    have hk1 : m1.getD k 0 = moduli.getD k 0 := by
      rcases Nat.eq_zero_or_pos k with rfl | hp
      · exact h00 hk
      · exact hne k (by omega)
    have hk2 : ((List.range' 1 (moduli.length - 2)).foldl repairInterior m1).getD k 0 =
        m1.getD k 0 := sweep_getD_of_le _ _ _ (hk1 ▸ hk)
    by_cases e : k = moduli.length - 1
    · subst e
      rw [hlast (by rw [hk2, hk1]; exact hk), hk2, hk1]
    · rw [hres k e, hk2, hk1]

/-- Witness for C20: the moduli `1, 0, 1`. -/
theorem repairModuli_interior_witness :
    (repairModuli [1, 0, 1]).getD 1 0 =
      9 / 10 * ((repairModuli [1, 0, 1]).getD (1 - 1) 0 + ([1, 0, 1] : List ℚ).getD (1 + 1) 0) :=
  (repairModuli_interior [1, 0, 1] 1 (by decide) (by decide)).2.1 (by norm_num)

/-- Counterexample for C20 as stated: for the moduli `1, 0, 1` the interior
entry is below `1e-7` and both neighbours are `1`; the repair stores `9/5`, which
is `0.9 * (1 + 1)`, and not `0.9` times the average of the neighbours, `9/10`. -/
theorem repairModuli_not_average :
    ([1, 0, 1] : List ℚ).getD 1 0 < 1 / 10000000 ∧
    (repairModuli [1, 0, 1]).getD 1 0 = 9 / 5 ∧
    (repairModuli [1, 0, 1]).getD 1 0 ≠
      9 / 10 * ((repairModuli [1, 0, 1]).getD (1 - 1) 0 + ([1, 0, 1] : List ℚ).getD (1 + 1) 0) / 2 := by
  have e : repairModuli [1, 0, 1] = [1, 9 / 5, 1] := by
    norm_num [repairModuli, repairInterior, List.range']
  rw [e]
  norm_num

/-! ## C23 -/

/-- C23: for a periodic box in reduced form, `a = (ax, 0, 0)`, `b = (bx, by, 0)`,
`c = (cx, cy, cz)` with `ax`, `by`, `cz` non-zero, the reciprocal box vectors
`R` computed in `execute` satisfy in exact arithmetic
`sum_k R[i][k] * box[k][j] = 1` if `i = j` and `0` otherwise, so `R` times the
matrix with rows `a, b, c` is the identity (and so is the product in the other
order); the box may be triclinic. -/
theorem recipBoxVectors_inverse {K : Type} [Field K] (boxVectors : Fin 3 → Fin 3 → K)
    (h01 : boxVectors 0 1 = 0) (h02 : boxVectors 0 2 = 0) (h12 : boxVectors 1 2 = 0)
    (hx : boxVectors 0 0 ≠ 0) (hy : boxVectors 1 1 ≠ 0) (hz : boxVectors 2 2 ≠ 0) :
    (∀ i j : Fin 3, ∑ k : Fin 3, recipBoxVectors boxVectors i k * boxVectors k j =
      if i = j then 1 else 0) ∧
    Matrix.of (recipBoxVectors boxVectors) * Matrix.of boxVectors = 1 ∧
    Matrix.of boxVectors * Matrix.of (recipBoxVectors boxVectors) = 1 := by
  have key : ∀ i j : Fin 3, ∑ k : Fin 3, recipBoxVectors boxVectors i k * boxVectors k j =
      if i = j then 1 else 0 := by
    intro i j
    fin_cases i <;> fin_cases j <;>
      simp [recipBoxVectors, Fin.sum_univ_three, h01, h02, h12] <;>
      field_simp <;> ring
  have hmul : Matrix.of (recipBoxVectors boxVectors) * Matrix.of boxVectors = 1 := by
    ext i j
    rw [Matrix.mul_apply, Matrix.one_apply]
    exact key i j
  exact ⟨key, hmul, (Matrix.mul_eq_one_comm).mp hmul⟩

/-- Witness for C23: the triclinic box with rows `(2, 0, 0)`, `(1, 3, 0)`,
`(1, 1, 5)`. -/
theorem recipBoxVectors_inverse_witness :
    Matrix.of (recipBoxVectors toyBox) * Matrix.of toyBox = 1 ∧
    recipBoxVectors toyBox 2 0 = -1 / 15 :=
  ⟨(recipBoxVectors_inverse toyBox rfl rfl rfl (by norm_num [toyBox]) (by norm_num [toyBox])
      (by norm_num [toyBox])).2.1,
   by norm_num [recipBoxVectors, toyBox, Matrix.vecHead, Matrix.vecTail]⟩

/-! ## C26 -/

/-- C28: `findFFTDimension` is total on the unbounded integers: for every
`minimum` there is one value `r` that it returns with any fuel from
`2 * minimum` on, and that it returns whenever it returns.  For `minimum < 1`
this value is `1` (with any fuel).  For `minimum >= 1` it satisfies
`minimum <= r`, `r <= 2^k` for every power of two `2^k >= minimum`, hence
`r < 2 * minimum`, and `findFFTDimension(r) = r`. -/
theorem findFFTDimension_total (minimum : Int) :
    ∃ r : Int,
      (∀ fuel : Nat, 2 * minimum.toNat ≤ fuel → findFFTDimension fuel minimum = some r) ∧
      (∀ (fuel : Nat) (r' : Int), findFFTDimension fuel minimum = some r' → r' = r) ∧
      (minimum < 1 → r = 1 ∧ ∀ fuel : Nat, findFFTDimension fuel minimum = some 1) ∧
      (1 ≤ minimum →
        minimum ≤ r ∧ (∀ k : Nat, minimum ≤ 2 ^ k → r ≤ 2 ^ k) ∧ r < 2 * minimum ∧
        ∀ fuel : Nat, 2 * r.toNat ≤ fuel → findFFTDimension fuel r = some r) := by
  by_cases hm : minimum < 1
  · have h1 : ∀ fuel : Nat, findFFTDimension fuel minimum = some 1 := by
      intro fuel
      unfold findFFTDimension
      rw [if_pos hm]
    refine ⟨1, fun fuel _ => h1 fuel, ?_, fun _ => ⟨rfl, h1⟩, fun h => absurd hm (by omega)⟩
    intro fuel r' hr'
    rw [h1 fuel] at hr'
    exact (Option.some.inj hr').symm
  · have hm1 : 1 ≤ minimum := by omega
    obtain ⟨r, hr⟩ := findFFTDimension_isSome minimum (2 * minimum.toNat) (le_refl _)
    obtain ⟨h1, h2, h3⟩ := findFFTDimension_sound hm1 hr
    have huniq : ∀ (fuel : Nat) (r' : Int), findFFTDimension fuel minimum = some r' → r' = r := by
      intro fuel r' hr'
      obtain ⟨g1, g2, g3⟩ := findFFTDimension_sound hm1 hr'
      exact le_antisymm (g3 r h1 h2) (h3 r' g1 g2)
    refine ⟨r, ?_, huniq, fun h => absurd h hm, fun _ => ⟨h1, ?_, ?_, ?_⟩⟩
    · intro fuel hfuel
      obtain ⟨r', hr'⟩ := findFFTDimension_isSome minimum fuel hfuel
      rw [hr', huniq fuel r' hr']
    · intro k hk
      exact h3 _ hk (smooth7_two_pow k)
    · obtain ⟨s, hs, hle, hlt⟩ := exists_smooth7_between minimum hm1
      exact lt_of_le_of_lt (h3 s hle hs) hlt
    · intro fuel hfuel
      obtain ⟨r', hr'⟩ := findFFTDimension_isSome r fuel hfuel
      obtain ⟨g1, g2, g3⟩ := findFFTDimension_sound (by omega) hr'
      have : r' = r := le_antisymm (g3 r (le_refl _) h2) g1
      rw [hr', this]

/-- Witness for C28: `findFFTDimension(11) = 12 <= 16`, `findFFTDimension(12) = 12`
and `findFFTDimension(-3) = 1`. -/
theorem findFFTDimension_total_witness :
    findFFTDimension 22 11 = some 12 ∧ findFFTDimension 24 12 = some 12 ∧
    findFFTDimension 0 (-3) = some 1 ∧
    ∃ r : Int, findFFTDimension 22 11 = some r ∧ r ≤ 2 ^ 4 ∧ r < 2 * 11 :=
  ⟨by decide, by decide, by decide,
   (findFFTDimension_total 11).elim fun r h =>
     ⟨r, h.1 22 (by decide), (h.2.2.2 (by decide)).2.1 4 (by decide),
      (h.2.2.2 (by decide)).2.2.1⟩⟩

/-! ## C27 -/

lemma at4_translate (d : ℚ × ℚ × ℚ) (posq : List (Real4 ℚ)) (i : Nat) (hi : i < posq.length) :
    at4 (translate d posq) i =
      { x := (at4 posq i).x + d.1, y := (at4 posq i).y + d.2.1, z := (at4 posq i).z + d.2.2,
        w := (at4 posq i).w } := by
  unfold at4 translate
  rw [List.getD_eq_getElem _ _ (by rw [List.length_map]; exact hi), List.getD_eq_getElem _ _ hi,
    List.getElem_map]

/-- The first loop on translated positions: the total mass is the same and the
weighted sums move by the total mass times the translation. -/
lemma massStep_foldl_translate (d : ℚ × ℚ × ℚ) (posq velm : List (Real4 ℚ)) (l : List Nat)
    (hl : ∀ i ∈ l, i < posq.length) (acc acc' : MassSum)
    (hm : acc'.totalMass = acc.totalMass) (h0 : acc'.c0 = acc.c0 + acc.totalMass * d.1)
    (h1 : acc'.c1 = acc.c1 + acc.totalMass * d.2.1)
    (h2 : acc'.c2 = acc.c2 + acc.totalMass * d.2.2) :
    (l.foldl (massStep (translate d posq) velm) acc').totalMass =
      (l.foldl (massStep posq velm) acc).totalMass ∧
    (l.foldl (massStep (translate d posq) velm) acc').c0 =
      (l.foldl (massStep posq velm) acc).c0 +
        (l.foldl (massStep posq velm) acc).totalMass * d.1 ∧
    (l.foldl (massStep (translate d posq) velm) acc').c1 =
      (l.foldl (massStep posq velm) acc).c1 +
        (l.foldl (massStep posq velm) acc).totalMass * d.2.1 ∧
    (l.foldl (massStep (translate d posq) velm) acc').c2 =
      (l.foldl (massStep posq velm) acc).c2 +
        (l.foldl (massStep posq velm) acc).totalMass * d.2.2 := by
  induction l generalizing acc acc' with
  | nil => exact ⟨hm, h0, h1, h2⟩
  | cons i l ih =>
    simp only [List.foldl_cons]
    have hi : i < posq.length := hl i (List.mem_cons_self _ _)
    apply ih (fun j hj => hl j (List.mem_cons_of_mem _ hj))
    · simp only [massStep, hm]
    · simp only [massStep, at4_translate d posq i hi, hm, h0]
      ring
    · simp only [massStep, at4_translate d posq i hi, hm, h1]
      ring
    · simp only [massStep, at4_translate d posq i hi, hm, h2]
      ring

lemma posqLocal_translate (numAtoms : Nat) (posq velm : List (Real4 ℚ)) (d : ℚ × ℚ × ℚ)
    (hlen : numAtoms ≤ posq.length) (hmass : 0 < totalMass numAtoms posq velm) :
    posqLocal numAtoms (translate d posq) velm = posqLocal numAtoms posq velm := by
  obtain ⟨e, e0, e1, e2⟩ := massStep_foldl_translate d posq velm (List.range numAtoms)
    (fun i hi => lt_of_lt_of_le (List.mem_range.mp hi) hlen) ⟨0, 0, 0, 0⟩ ⟨0, 0, 0, 0⟩ rfl
    (by simp) (by simp) (by simp)
  unfold totalMass at hmass
  have hne : ((List.range numAtoms).foldl (massStep posq velm) ⟨0, 0, 0, 0⟩).totalMass ≠ 0 :=
    ne_of_gt hmass
  unfold posqLocal centerOfMass
  simp only [e, e0, e1, e2, if_pos hmass]
  apply List.map_congr_left
  intro i hi
  have hi' : i < posq.length := lt_of_lt_of_le (List.mem_range.mp hi) hlen
  rw [at4_translate d posq i hi']
  simp only [Real4.mk.injEq, and_true]
  refine ⟨?_, ?_, ?_⟩ <;> field_simp <;> ring

/-- C27: in exact arithmetic, when the total mass is positive, the thirteen
outputs of `computeSystemMultipoleMoments` do not change when one vector `d` is
added to the position of every particle, the charges, inverse masses, dipoles
and quadrupoles being kept: the local coordinates `posqLocal`, relative to the
centre of mass, are the same. -/
theorem computeSystemMultipoleMoments_translation_invariant (numAtoms : Nat)
    (posq velm : List (Real4 ℚ)) (labDipoleVec inducedDipoleVec quadrupoleVec : List ℚ)
    (d : ℚ × ℚ × ℚ) (hlen : numAtoms ≤ posq.length)
    (hmass : 0 < totalMass numAtoms posq velm) :
    posqLocal numAtoms (translate d posq) velm = posqLocal numAtoms posq velm ∧
    computeSystemMultipoleMoments numAtoms (translate d posq) velm labDipoleVec
        inducedDipoleVec quadrupoleVec =
      computeSystemMultipoleMoments numAtoms posq velm labDipoleVec inducedDipoleVec
        quadrupoleVec ∧
    (computeSystemMultipoleMoments numAtoms posq velm labDipoleVec inducedDipoleVec
      quadrupoleVec).length = 13 := by
  have h := posqLocal_translate numAtoms posq velm d hlen hmass
  refine ⟨h, ?_, rfl⟩
  unfold computeSystemMultipoleMoments systemMoments
  rw [h]

/-- Witness for C27: two charged particles of masses `1` and `2`, moved by
`(10, 20, 30)`. -/
theorem computeSystemMultipoleMoments_translation_invariant_witness :
    computeSystemMultipoleMoments 2
        (translate (10, 20, 30) [⟨1, 2, 3, 1⟩, ⟨4, 5, 6, -1⟩]) [⟨0, 0, 0, 1⟩, ⟨0, 0, 0, 1 / 2⟩]
        [1, 0, 0, 0, 1, 0] [] [] =
      computeSystemMultipoleMoments 2 [⟨1, 2, 3, 1⟩, ⟨4, 5, 6, -1⟩]
        [⟨0, 0, 0, 1⟩, ⟨0, 0, 0, 1 / 2⟩] [1, 0, 0, 0, 1, 0] [] [] :=
  (computeSystemMultipoleMoments_translation_invariant 2 [⟨1, 2, 3, 1⟩, ⟨4, 5, 6, -1⟩]
    [⟨0, 0, 0, 1⟩, ⟨0, 0, 0, 1 / 2⟩] [1, 0, 0, 0, 1, 0] [] [] (10, 20, 30) (by decide)
    (by norm_num [totalMass, massStep, at4, List.range, List.range.loop])).2.1

/-! ## C29 -/

/-- The signed frequency of an index `1 <= i <= ndata` for `ndata >= 2`. -/
lemma signedFrequency_bounds (ndata i : Int) (hn : 2 ≤ ndata) (h1 : 1 ≤ i) (h2 : i ≤ ndata) :
    ndata ∣ signedFrequency ndata i - (i - 1) ∧ |signedFrequency ndata i| < ndata ∧
    (signedFrequency ndata i = 0 ↔ i = 1) := by
  have hdiv : ndata.tdiv 2 = ndata / 2 := Int.tdiv_eq_ediv (by omega) (by omega)
  unfold signedFrequency
  rw [hdiv]
  split_ifs with h
  · refine ⟨⟨-1, by ring⟩, ?_, ?_⟩
    · rw [abs_lt]
      constructor <;> omega
    · constructor <;> intro h' <;> omega
  · refine ⟨⟨0, by ring⟩, ?_, ?_⟩
    · rw [abs_lt]
      constructor <;> omega
    · constructor <;> intro h' <;> omega

/-- The later iterations of the zeta loop leave the first entry alone. -/
lemma foldl_set_getD_zero {K : Type} [Field K] (f : List K → Nat → K) (l : List Nat)
    (hl : ∀ i ∈ l, 2 ≤ i) (moduli : List K) :
    (l.foldl (fun moduli i => moduli.set (i - 1) (f moduli i)) moduli).getD 0 0 =
      moduli.getD 0 0 := by
  induction l generalizing moduli with
  | nil => rfl
  | cons i l ih =>
    rw [List.foldl_cons, ih (fun j hj => hl j (List.mem_cons_of_mem _ hj))]
    have hi := hl i (List.mem_cons_self _ _)
    rw [List.getD_eq_getElem?_getD, List.getD_eq_getElem?_getD,
      List.getElem?_set_ne (by omega)]

/-- C29: for every `ndata >= 2` and every `i` in `1, ..., ndata`, the signed
frequency `k` (`i - 1` if `i <= ndata/2`, else `i - 1 - ndata`) is congruent to
`i - 1` modulo `ndata`, has `|k| < ndata`, and is `0` exactly for `i = 1`; hence
in exact arithmetic, with `M_PI` non-zero, for every `j >= 1` (in particular
`j = 1, ..., 50`) the denominators `pi*k/ndata + pi*j` and `pi*k/ndata - pi*j`
are non-zero.  For `i = 1` zeta is `1`, and the correction leaves `moduli[0]`
as it was. -/
theorem zeta_denominators_ne_zero {K : Type} [LinearOrderedField K] (pi : K) (hpi : pi ≠ 0)
    (pmeOrder : Nat) (ndata i : Int) (hn : 2 ≤ ndata) (h1 : 1 ≤ i) (h2 : i ≤ ndata) :
    ndata ∣ signedFrequency ndata i - (i - 1) ∧
    |signedFrequency ndata i| < ndata ∧
    (signedFrequency ndata i = 0 ↔ i = 1) ∧
    (∀ j : Nat, 1 ≤ j →
      pi * (signedFrequency ndata i : K) / (ndata : K) + pi * (j : K) ≠ 0 ∧
      pi * (signedFrequency ndata i : K) / (ndata : K) - pi * (j : K) ≠ 0) ∧
    zeta pi pmeOrder ndata 1 = 1 ∧
    (∀ moduli : List K, (moduli.length : Int) = ndata →
      (applyZeta pi pmeOrder moduli).getD 0 0 = moduli.getD 0 0) := by
  obtain ⟨b1, b2, b3⟩ := signedFrequency_bounds ndata i hn h1 h2
  have hzeta : zeta pi pmeOrder ndata 1 = 1 := by
    unfold zeta
    have : signedFrequency ndata 1 = 0 :=
      (signedFrequency_bounds ndata 1 hn (le_refl _) (by omega)).2.2.2 rfl
    simp only [this, if_true]
  refine ⟨b1, b2, b3, ?_, hzeta, ?_⟩
  · intro j hj
    have hnd : (ndata : K) ≠ 0 := by
      have : ndata ≠ 0 := by omega
      exact_mod_cast this
    rw [abs_lt] at b2
    have hj' : (1 : Int) ≤ (j : Int) := by exact_mod_cast hj
    have hprod : ndata ≤ (j : Int) * ndata := by nlinarith
    constructor
    · intro h
      have e : pi * (signedFrequency ndata i : K) / (ndata : K) + pi * (j : K) =
          pi * (((signedFrequency ndata i + (j : Int) * ndata : Int) : K)) / (ndata : K) := by
        push_cast
        field_simp
        ring
      rw [e, div_eq_zero_iff] at h
      rcases h with h | h
      · rcases mul_eq_zero.mp h with h | h
        · exact hpi h
        · have : signedFrequency ndata i + (j : Int) * ndata = 0 := by exact_mod_cast h
          omega
      · exact hnd h
    · intro h
      have e : pi * (signedFrequency ndata i : K) / (ndata : K) - pi * (j : K) =
          pi * (((signedFrequency ndata i - (j : Int) * ndata : Int) : K)) / (ndata : K) := by
        push_cast
        field_simp
        ring
      rw [e, div_eq_zero_iff] at h
      rcases h with h | h
      · rcases mul_eq_zero.mp h with h | h
        · exact hpi h
        · have : signedFrequency ndata i - (j : Int) * ndata = 0 := by exact_mod_cast h
          omega
      · exact hnd h
  · intro moduli hlen
    have hl : 2 ≤ moduli.length := by omega
    unfold applyZeta
    simp only []
    have hsplit : List.range' 1 moduli.length = 1 :: List.range' 2 (moduli.length - 1) := by
      obtain ⟨m, hm⟩ : ∃ m, moduli.length = m + 1 := ⟨moduli.length - 1, by omega⟩
      rw [hm, List.range'_succ]
      rfl
    rw [hsplit, List.foldl_cons,
      foldl_set_getD_zero
        (fun moduli' i => moduli'.getD (i - 1) 0 * zeta pi pmeOrder (moduli.length : Int) (i : Int) *
          zeta pi pmeOrder (moduli.length : Int) (i : Int))
        _ (by intro i hi; rw [List.mem_range'_1] at hi; exact hi.1)]
    have hz : zeta pi pmeOrder (moduli.length : Int) ((1 : Nat) : Int) = 1 := by
      rw [hlen]
      exact hzeta
    rw [hz, mul_one, mul_one]
    rw [List.getD_eq_getElem?_getD, List.getD_eq_getElem?_getD,
      List.getElem?_set_self (by omega)]
    rw [List.getElem?_eq_getElem (by omega)]
    rfl

/-- Witness for C29: `ndata = 4`, `i = 3` gives `k = -2`; the bound `ndata >= 2`
is needed, since for `ndata = 1`, `i = 1` the frequency is `-1` and the first
denominator with `j = 1` vanishes. -/
theorem zeta_denominators_ne_zero_witness :
    signedFrequency 4 3 = -2 ∧
    (22 / 7 : ℚ) * ((signedFrequency 4 3 : Int) : ℚ) / ((4 : Int) : ℚ) +
      22 / 7 * ((1 : Nat) : ℚ) ≠ 0 ∧
    (applyZeta (22 / 7 : ℚ) 5 [3, 1, 4, 1]).getD 0 0 = ([3, 1, 4, 1] : List ℚ).getD 0 0 ∧
    signedFrequency 1 1 = -1 ∧
    (22 / 7 : ℚ) * ((signedFrequency 1 1 : Int) : ℚ) / ((1 : Int) : ℚ) +
      22 / 7 * ((1 : Nat) : ℚ) = 0 :=
  have h := zeta_denominators_ne_zero (22 / 7 : ℚ) (by norm_num) 5 4 3 (by decide) (by decide)
    (by decide)
  ⟨by decide, (h.2.2.2.1 1 (le_refl _)).1, h.2.2.2.2.2 [3, 1, 4, 1] rfl, by decide,
   by rw [show signedFrequency 1 1 = -1 by decide]; norm_num⟩

/-! ## C30 -/

/-- What `initialize` leaves in `maxInducedIterations`, `inducedField` and
`pmeGrid`, however it ends. -/
theorem initialize_polarization {D F R : Type} (fm : FloatModel D F R) (fuel : Nat)
    (env : InitEnv D R) (force : AmoebaMultipoleForce D)
    (st : ElectrostaticsKernel F R × CudaContext R)
    (res : Result (ElectrostaticsKernel F R × CudaContext R))
    (h : ElectrostaticsKernel.initialize fm fuel env force st = some res) :
    res.state.1.maxInducedIterations =
      (if force.polarizationType = .Mutual then force.mutualInducedMaxIterations else 0) ∧
    res.state.1.inducedField =
      (if force.polarizationType = .Mutual then some (3 * st.2.paddedNumAtoms)
       else st.1.inducedField) ∧
    (force.nonbondedMethod = .PME → res.state.1.pmeGrid.isSome = true) ∧
    (force.nonbondedMethod ≠ .PME → res.state.1.pmeGrid = st.1.pmeGrid) := by
  unfold ElectrostaticsKernel.initialize at h
  by_cases hm : force.nonbondedMethod = NonbondedMethod.PME
  · simp only [hm, decide_True, if_true] at h
    cases hv : pmeGridSize fm fuel force env.calcPMEParameters with
    | none => simp [hv] at h
    | some v =>
      obtain ⟨a, gx, gy, gz⟩ := v
      simp only [hv] at h
      by_cases hok : env.cufftPlanOk = true
      · rw [if_pos hok] at h
        simp only [Option.some.injEq] at h
        subst h
        by_cases hp : force.polarizationType = PolarizationType.Mutual <;>
          simp [Result.state, hp, hm]
      · rw [if_neg hok] at h
        simp only [Option.some.injEq] at h
        subst h
        by_cases hp : force.polarizationType = PolarizationType.Mutual <;>
          simp [Result.state, hp, hm]
  · simp only [hm, decide_False, Bool.false_eq_true, if_false, Option.some.injEq] at h
    subst h
    by_cases hp : force.polarizationType = PolarizationType.Mutual <;>
      simp [Result.state, hp, hm]

/-- No operation before or after the loop uses the induced-field buffers or a
kernel of the self-consistency iteration. -/
theorem outside_loop_safe (pme useDoublePrecision : Bool) (e : Event)
    (he : e ∈ operationsBeforeLoop pme useDoublePrecision ++ operationsAfterLoop pme) :
    usesInducedField e = false ∧ ∀ kernel ∈ diisKernels, e ≠ .launch kernel := by
  revert e
  cases pme <;> cases useDoublePrecision <;> decide

/-- The kernels launched outside the loop exist after `initialize`. -/
theorem outside_loop_created (pme useDoublePrecision : Bool) (maxInducedIterations : Int)
    (kernel : KernelName)
    (he : Event.launch kernel ∈
      operationsBeforeLoop pme useDoublePrecision ++ operationsAfterLoop pme) :
    kernel ∈ createdKernels maxInducedIterations pme := by
  have h : kernel ∈ createdKernels 0 pme := by
    revert he
    cases pme <;> cases useDoublePrecision <;> cases kernel <;> decide
  unfold createdKernels at h ⊢
  simp only [lt_irrefl, gt_iff_lt, if_false, List.append_nil, List.mem_append] at h ⊢
  tauto

/-- The kernels launched inside the loop exist when the bound is positive. -/
theorem inside_loop_created (pme useDoublePrecision : Bool) (maxInducedIterations : Int)
    (hpos : 0 < maxInducedIterations) (kernel : KernelName)
    (he : Event.launch kernel ∈
      inducedFieldBody pme useDoublePrecision ++ iterateDipolesByDIIS false) :
    kernel ∈ createdKernels maxInducedIterations pme := by
  have h : kernel ∈ createdKernels 1 pme := by
    revert he
    cases pme <;> cases useDoublePrecision <;> cases kernel <;> decide
  unfold createdKernels at h ⊢
  simp only [gt_iff_lt, if_pos hpos, zero_lt_one, if_true] at h ⊢
  exact h

/-- An operation of the loop means that the bound is positive. -/
theorem pos_of_mem_loop (body : List Event) (converged : Nat → Bool) (m : Int) (e : Event)
    (he : e ∈ inducedDipoleLoop body converged m.toNat 0) : 0 < m := by
  by_contra hm
  have : m.toNat = 0 := by omega
  rw [this] at he
  simp [inducedDipoleLoop] at he

/-- C30: after `initialize` on a freshly constructed kernel object (however it
ends), `inducedField` and `inducedFieldPolar` exist exactly for mutual
polarization, the four kernels of the self-consistency iteration exist exactly
when `maxInducedIterations > 0`, and `maxInducedIterations` is `0` for any
other polarization.  Every operation of a later `execute` (PME or not,
whatever the convergence tests answer) that dereferences the induced-field
buffers is issued only with `maxInducedIterations > 0`, when the buffers
exist, and every kernel it launches has been created; with
`maxInducedIterations <= 0` it issues no such operation and launches none of
the four kernels. -/
theorem inducedField_used_only_when_created {D F R : Type} (fm : FloatModel D F R)
    (fuel : Nat) (env : InitEnv D R) (force : AmoebaMultipoleForce D)
    (st : ElectrostaticsKernel F R × CudaContext R)
    (res : Result (ElectrostaticsKernel F R × CudaContext R)) (converged : Nat → Bool)
    (hfield : st.1.inducedField = none) (hgrid : st.1.pmeGrid = none)
    (hinit : ElectrostaticsKernel.initialize fm fuel env force st = some res) :
    let k := res.state.1
    let created := createdKernels k.maxInducedIterations
      (decide (force.nonbondedMethod = .PME))
    let ops := executeOperations k.pmeGrid.isSome res.state.2.useDoublePrecision
      k.maxInducedIterations converged
    (k.inducedField.isSome = true ↔ force.polarizationType = .Mutual) ∧
    (force.polarizationType ≠ .Mutual → k.maxInducedIterations = 0) ∧
    (∀ kernel ∈ diisKernels, kernel ∈ created ↔ 0 < k.maxInducedIterations) ∧
    ( ElectrostaticsKernel.execute converged res.state).2.log =
      res.state.2.log ++ ((if k.hasInitializedScaleFactors = false then
        [Event.initializeScaleFactors] else []) ++ ops) ∧
    (∀ e ∈ ops, usesInducedField e = true →
      0 < k.maxInducedIterations ∧ k.inducedField.isSome = true) ∧
    (∀ kernel : KernelName, Event.launch kernel ∈ ops → kernel ∈ created) ∧
    (k.maxInducedIterations ≤ 0 →
      ∀ e ∈ ops, usesInducedField e = false ∧ ∀ kernel ∈ diisKernels, e ≠ .launch kernel) := by
  intro k created ops
  obtain ⟨hmax, hind, hpme1, hpme2⟩ := initialize_polarization fm fuel env force st res hinit
  have hpme : k.pmeGrid.isSome = decide (force.nonbondedMethod = .PME) := by
    by_cases hm : force.nonbondedMethod = .PME
    · rw [hpme1 hm, decide_eq_true hm]
    · have e : k.pmeGrid = none := (hpme2 hm).trans hgrid
      rw [e, decide_eq_false hm]
      rfl
  have hmutual : 0 < k.maxInducedIterations → force.polarizationType = .Mutual := by
    intro hpos
    by_contra hp
    have : k.maxInducedIterations = 0 := by
      show res.state.1.maxInducedIterations = 0
      rw [hmax, if_neg hp]
    omega
  have hsome : k.inducedField.isSome = true ↔ force.polarizationType = .Mutual := by
    show res.state.1.inducedField.isSome = true ↔ _
    rw [hind]
    by_cases hp : force.polarizationType = .Mutual
    · simp [hp]
    · simp [hp, hfield]
  have hops : ops = operationsBeforeLoop k.pmeGrid.isSome res.state.2.useDoublePrecision ++
      (inducedDipoleLoop (inducedFieldBody k.pmeGrid.isSome res.state.2.useDoublePrecision)
        converged k.maxInducedIterations.toNat 0 ++ operationsAfterLoop k.pmeGrid.isSome) :=
    executeOperations_eq _ _ _ _
  have hsplit : ∀ e ∈ ops,
      e ∈ operationsBeforeLoop k.pmeGrid.isSome res.state.2.useDoublePrecision ++
        operationsAfterLoop k.pmeGrid.isSome ∨
      (0 < k.maxInducedIterations ∧
        e ∈ inducedFieldBody k.pmeGrid.isSome res.state.2.useDoublePrecision ++
          iterateDipolesByDIIS false) := by
    intro e he
    rw [hops] at he
    simp only [List.mem_append] at he ⊢
    rcases he with h | h | h
    · exact Or.inl (Or.inl h)
    · exact Or.inr ⟨pos_of_mem_loop _ converged _ e h,
        List.mem_append.mp (mem_inducedDipoleLoop _ converged e _ _ h)⟩
    · exact Or.inl (Or.inr h)
  refine ⟨hsome, ?_, ?_, execute_log_operations converged res.state, ?_, ?_, ?_⟩
  · intro hp
    show res.state.1.maxInducedIterations = 0
    rw [hmax, if_neg hp]
  · intro kernel hk
    show kernel ∈ createdKernels k.maxInducedIterations _ ↔ _
    unfold createdKernels
    by_cases hpos : 0 < k.maxInducedIterations
    · simp only [gt_iff_lt, if_pos hpos]
      refine ⟨fun _ => hpos, fun _ => ?_⟩
      revert hk
      cases kernel <;> simp [diisKernels]
    · simp only [gt_iff_lt, if_neg hpos]
      refine ⟨fun h => ?_, fun h => absurd h hpos⟩
      exfalso
      revert hk h
      cases decide (force.nonbondedMethod = .PME) <;> cases kernel <;> simp [diisKernels]
  · intro e he huse
    rcases hsplit e he with h | ⟨hpos, _⟩
    · have := (outside_loop_safe _ _ e h).1
      rw [this] at huse
      exact absurd huse (by decide)
    · exact ⟨hpos, hsome.mpr (hmutual hpos)⟩
  · intro kernel he
    show kernel ∈ createdKernels k.maxInducedIterations _
    rw [← hpme]
    rcases hsplit _ he with h | ⟨hpos, h⟩
    · exact outside_loop_created _ _ _ kernel h
    · exact inside_loop_created _ _ _ hpos kernel h
  · intro hle e he
    rcases hsplit e he with h | ⟨hpos, _⟩
    · exact outside_loop_safe _ _ e h
    · omega

/-- Witness for C30: direct polarization, no PME; `execute` issues the
check of the scale factors and six operations, none of which touches the
induced-field buffers. -/
theorem inducedField_used_only_when_created_witness :
    ElectrostaticsKernel.initialize toyModel 0 toyEnv toyForceDirect (toyKernel, toyContext) =
      some toyDirectResult ∧
    toyDirectResult.state.1.inducedField = none ∧
    toyDirectResult.state.1.maxInducedIterations = 0 ∧
    ( ElectrostaticsKernel.execute (fun _ => false) toyDirectResult.state).2.log =
      [.initializeScaleFactors, .launch .computeLabFrameMoments, .launch .computeFixedField,
       .launch .recordInducedDipoles, .launch .computeElectrostatics,
       .launch .mapTorqueToForce, .copyPosqToLastPositions] ∧
    ∀ e ∈ executeOperations toyDirectResult.state.1.pmeGrid.isSome
        toyDirectResult.state.2.useDoublePrecision
        toyDirectResult.state.1.maxInducedIterations (fun _ => false),
      usesInducedField e = false ∧ ∀ kernel ∈ diisKernels, e ≠ .launch kernel :=
  ⟨rfl, rfl, rfl, rfl,
   (inducedField_used_only_when_created toyModel 0 toyEnv toyForceDirect (toyKernel, toyContext)
      toyDirectResult (fun _ => false) rfl rfl rfl).2.2.2.2.2.2 (by decide)⟩

/-! ## The covalent and polarization flags -/

lemma mem_setInsert (s : List Int) (a x : Int) : x ∈ setInsert s a ↔ x = a ∨ x ∈ s := by
  unfold setInsert
  split_ifs with h
  · constructor
    · exact Or.inr
    · rintro (rfl | h')
      · exact h
      · exact h'
  · exact List.mem_orderedInsert _

lemma nodup_setInsert (s : List Int) (a : Int) (hs : s.Nodup) : (setInsert s a).Nodup := by
  unfold setInsert
  split_ifs with h
  · exact hs
  · rw [(List.perm_orderedInsert _ a s).nodup_iff]
    exact List.nodup_cons.mpr ⟨h, hs⟩

lemma mem_setInsertRange (atoms s : List Int) (x : Int) :
    x ∈ setInsertRange s atoms ↔ x ∈ s ∨ x ∈ atoms := by
  unfold setInsertRange
  induction atoms generalizing s with
  | nil => simp
  | cons a atoms ih =>
    rw [List.foldl_cons, ih, mem_setInsert, List.mem_cons]
    tauto

lemma nodup_setInsertRange (atoms s : List Int) (hs : s.Nodup) :
    (setInsertRange s atoms).Nodup := by
  unfold setInsertRange
  induction atoms generalizing s with
  | nil => exact hs
  | cons a atoms ih =>
    rw [List.foldl_cons]
    exact ih _ (nodup_setInsert s a hs)

lemma flagStep_eq (covalentMap : CovalentMap) (st : FlagValues) (i : Nat) :
    flagStep covalentMap st i =
      ⟨st.covalentFlagValues ++ covalentRecords covalentMap i,
       st.polarizationFlagValues ++ polarizationRecords covalentMap i,
       st.exclusions.set i (st.exclusions.getD i [] ++ allExcludedAtoms covalentMap i)⟩ := by
  simp only [flagStep, covalentRecords, polarizationRecords, allExcludedAtoms, excludedAtoms,
    List.append_assoc]

/-- The state after the first `m` iterations of the loop. -/
lemma flagValues_foldl (covalentMap : CovalentMap) (n m : Nat) :
    ((List.range m).foldl (flagStep covalentMap) ⟨[], [], List.replicate n []⟩).covalentFlagValues =
      (List.range m).flatMap (covalentRecords covalentMap) ∧
    ((List.range m).foldl (flagStep covalentMap)
        ⟨[], [], List.replicate n []⟩).polarizationFlagValues =
      (List.range m).flatMap (polarizationRecords covalentMap) ∧
    ((List.range m).foldl (flagStep covalentMap) ⟨[], [], List.replicate n []⟩).exclusions.length
      = n ∧
    ∀ i, i < n →
      ((List.range m).foldl (flagStep covalentMap) ⟨[], [], List.replicate n []⟩).exclusions.getD
        i [] = if i < m then allExcludedAtoms covalentMap i else [] := by
  induction m with
  | zero =>
    refine ⟨rfl, rfl, by simp, ?_⟩
    intro i hi
    simp [List.getD_eq_getElem?_getD, List.getElem?_replicate, hi]
  | succ m ih =>
    obtain ⟨h1, h2, h3, h4⟩ := ih
    rw [List.range_succ, List.foldl_append, List.foldl_cons, List.foldl_nil, flagStep_eq]
    refine ⟨?_, ?_, ?_, ?_⟩
    · simp only [h1, List.flatMap_append, List.flatMap_cons, List.flatMap_nil, List.append_nil]
    · simp only [h2, List.flatMap_append, List.flatMap_cons, List.flatMap_nil, List.append_nil]
    · simp only [List.length_set, h3]
    · intro i hi
      simp only
      by_cases e : m = i
      · subst e
        rw [List.getD_eq_getElem?_getD, List.getElem?_set_self (by rw [h3]; exact hi), h4 m hi,
          if_neg (lt_irrefl _), if_pos (Nat.lt_succ_self _)]
        rfl
      · rw [List.getD_eq_getElem?_getD, List.getElem?_set_ne e, ← List.getD_eq_getElem?_getD,
          h4 i hi]
        by_cases h : i < m
        · rw [if_pos h, if_pos (by omega)]
        · rw [if_neg h, if_neg (by omega)]

lemma mem_excludedAtoms (covalentMap : CovalentMap) (i : Nat) (a : Int) :
    a ∈ excludedAtoms covalentMap i ↔
      a = i ∨ a ∈ covalentMap i .Covalent12 ∨ a ∈ covalentMap i .Covalent13 := by
  unfold excludedAtoms
  rw [mem_setInsertRange, mem_setInsertRange, mem_setInsert]
  simp only [List.not_mem_nil, or_false]
  tauto

lemma nodup_excludedAtoms (covalentMap : CovalentMap) (i : Nat) :
    (excludedAtoms covalentMap i).Nodup := by
  unfold excludedAtoms
  exact nodup_setInsertRange _ _ (nodup_setInsertRange _ _ (nodup_setInsert _ _ List.nodup_nil))

lemma mem_allExcludedAtoms (covalentMap : CovalentMap) (i : Nat) (a : Int) :
    a ∈ allExcludedAtoms covalentMap i ↔
      a = i ∨ a ∈ covalentMap i .Covalent12 ∨ a ∈ covalentMap i .Covalent13 ∨
      a ∈ covalentMap i .Covalent14 ∨ a ∈ covalentMap i .Covalent15 ∨
      a ∈ covalentMap i .PolarizationCovalent11 := by
  unfold allExcludedAtoms
  rw [mem_setInsertRange, mem_setInsertRange, mem_setInsertRange, mem_excludedAtoms]
  tauto

lemma mem_covalentRecords (covalentMap : CovalentMap) (i : Nat) (r : Int3) :
    r ∈ covalentRecords covalentMap i ↔
      r.x = i ∧
        ((r.z = 0 ∧ (r.y = i ∨ r.y ∈ covalentMap i .Covalent12 ∨
            r.y ∈ covalentMap i .Covalent13)) ∨
         (r.z = 1 ∧ r.y ∈ covalentMap i .Covalent14) ∨
         (r.z = 2 ∧ r.y ∈ covalentMap i .Covalent15)) := by
  obtain ⟨x, y, z⟩ := r
  simp only [covalentRecords, List.mem_append, List.mem_map, Int3.mk.injEq, mem_excludedAtoms]
  constructor
  · rintro (⟨a, ha, rfl, rfl, rfl⟩ | ⟨a, ha, rfl, rfl, rfl⟩ | ⟨a, ha, rfl, rfl, rfl⟩)
    · exact ⟨rfl, Or.inl ⟨rfl, ha⟩⟩
    · exact ⟨rfl, Or.inr (Or.inl ⟨rfl, ha⟩)⟩
    · exact ⟨rfl, Or.inr (Or.inr ⟨rfl, ha⟩)⟩
  · rintro ⟨rfl, (⟨rfl, ha⟩ | ⟨rfl, ha⟩ | ⟨rfl, ha⟩)⟩
    · exact Or.inl ⟨y, ha, rfl, rfl, rfl⟩
    · exact Or.inr (Or.inl ⟨y, ha, rfl, rfl, rfl⟩)
    · exact Or.inr (Or.inr ⟨y, ha, rfl, rfl, rfl⟩)

lemma mem_polarizationRecords (covalentMap : CovalentMap) (i : Nat) (r : Int2) :
    r ∈ polarizationRecords covalentMap i ↔
      r.x = i ∧ r.y ∈ covalentMap i .PolarizationCovalent11 ∧
        r.y ∉ covalentMap i .PolarizationCovalent12 := by
  obtain ⟨x, y⟩ := r
  simp only [polarizationRecords, List.mem_map, List.mem_filter, decide_eq_true_eq,
    Int2.mk.injEq]
  constructor
  · rintro ⟨a, ⟨h1, h2⟩, rfl, rfl⟩
    exact ⟨rfl, h1, h2⟩
  · rintro ⟨rfl, h1, h2⟩
    exact ⟨y, ⟨h1, h2⟩, rfl, rfl⟩

/-! ## C21 -/

/-- C21: the vector `covalentFlagValues` that `initialize` builds is, particle
by particle in the order `i = 0, 1, ...`, made of the records `(i, a, 0)` for
the elements `a` of a duplicate-free list holding exactly `i`, the atoms of
`Covalent12(i)` and those of `Covalent13(i)`, then `(i, a, 1)` for the entries
`a` of `Covalent14(i)`, then `(i, a, 2)` for the entries of `Covalent15(i)`, and
of nothing else.  So a record `(x, a, v)` is in the vector exactly when `x` is
a particle and either `v = 0` and `a` is `x` or a 1-2 or 1-3 partner, or `v = 1`
and `a` is a 1-4 partner, or `v = 2` and `a` is a 1-5 partner. -/
theorem covalentFlagValues_records (numMultipoles : Nat) (covalentMap : CovalentMap) :
    (∃ excluded : Nat → List Int,
      (∀ i, (excluded i).Nodup ∧ ∀ a : Int, a ∈ excluded i ↔
        a = i ∨ a ∈ covalentMap i .Covalent12 ∨ a ∈ covalentMap i .Covalent13) ∧
      (buildFlagValues numMultipoles covalentMap).covalentFlagValues =
        (List.range numMultipoles).flatMap fun i =>
          (excluded i).map (fun a => (⟨(i : Int), a, 0⟩ : Int3)) ++
          ((covalentMap i .Covalent14).map (fun a => (⟨(i : Int), a, 1⟩ : Int3)) ++
           (covalentMap i .Covalent15).map (fun a => (⟨(i : Int), a, 2⟩ : Int3)))) ∧
    (∀ r : Int3, r ∈ (buildFlagValues numMultipoles covalentMap).covalentFlagValues ↔
      ∃ i : Nat, i < numMultipoles ∧ r.x = i ∧
        ((r.z = 0 ∧ (r.y = i ∨ r.y ∈ covalentMap i .Covalent12 ∨
            r.y ∈ covalentMap i .Covalent13)) ∨
         (r.z = 1 ∧ r.y ∈ covalentMap i .Covalent14) ∨
         (r.z = 2 ∧ r.y ∈ covalentMap i .Covalent15))) ∧
    (buildFlagValues 4 toyCovalentMap).covalentFlagValues =
      [⟨0, 0, 0⟩, ⟨0, 1, 0⟩, ⟨0, 2, 0⟩, ⟨0, 3, 1⟩,
       ⟨1, 0, 0⟩, ⟨1, 1, 0⟩, ⟨1, 2, 0⟩, ⟨1, 3, 0⟩,
       ⟨2, 0, 0⟩, ⟨2, 1, 0⟩, ⟨2, 2, 0⟩, ⟨2, 3, 0⟩,
       ⟨3, 1, 0⟩, ⟨3, 2, 0⟩, ⟨3, 3, 0⟩, ⟨3, 0, 1⟩] := by
  have h := (flagValues_foldl covalentMap numMultipoles numMultipoles).1
  refine ⟨⟨excludedAtoms covalentMap,
    fun i => ⟨nodup_excludedAtoms covalentMap i, mem_excludedAtoms covalentMap i⟩, h⟩, ?_,
    by decide⟩
  intro r
  unfold buildFlagValues
  rw [h, List.mem_flatMap]
  simp only [List.mem_range, mem_covalentRecords]

/-! ## C22 -/

/-- C22: the vector `polarizationFlagValues` that `initialize` builds holds, for
the particles `i = 0, 1, ...` in order, the pairs `(i, a)` for the entries `a`
of `PolarizationCovalent11(i)` that are not in `PolarizationCovalent12(i)`.  So
the pair `(i, a)` is recorded exactly when `i` is a particle, `a` is in
`PolarizationCovalent11(i)` and `a` is not in `PolarizationCovalent12(i)`: an
atom on both lists is never flagged as being in the same group. -/
theorem polarizationFlagValues_iff (numMultipoles : Nat) (covalentMap : CovalentMap) :
    (buildFlagValues numMultipoles covalentMap).polarizationFlagValues =
      (List.range numMultipoles).flatMap (fun i =>
        ((covalentMap i .PolarizationCovalent11).filter
          fun a => decide (a ∉ covalentMap i .PolarizationCovalent12)).map
            fun a => (⟨(i : Int), a⟩ : Int2)) ∧
    (∀ (i : Nat) (a : Int),
      (⟨(i : Int), a⟩ : Int2) ∈ (buildFlagValues numMultipoles covalentMap).polarizationFlagValues ↔
        i < numMultipoles ∧ a ∈ covalentMap i .PolarizationCovalent11 ∧
          a ∉ covalentMap i .PolarizationCovalent12) ∧
    (∀ r ∈ (buildFlagValues numMultipoles covalentMap).polarizationFlagValues,
      0 ≤ r.x ∧ r.x < numMultipoles) ∧
    (buildFlagValues 4 toyCovalentMap).polarizationFlagValues = [⟨0, 0⟩, ⟨1, 0⟩, ⟨1, 1⟩] := by
  have h := (flagValues_foldl covalentMap numMultipoles numMultipoles).2.1
  have hmem : ∀ r : Int2,
      r ∈ (buildFlagValues numMultipoles covalentMap).polarizationFlagValues ↔
        ∃ i : Nat, i < numMultipoles ∧ r.x = i ∧
          r.y ∈ covalentMap i .PolarizationCovalent11 ∧
          r.y ∉ covalentMap i .PolarizationCovalent12 := by
    intro r
    unfold buildFlagValues
    rw [h, List.mem_flatMap]
    simp only [List.mem_range, mem_polarizationRecords]
  refine ⟨h, ?_, ?_, by decide⟩
  · intro i a
    rw [hmem]
    constructor
    · rintro ⟨j, hj, hx, h1, h2⟩
      have : i = j := by
        simp only at hx
        exact_mod_cast hx
      subst this
      exact ⟨hj, h1, h2⟩
    · rintro ⟨hi, h1, h2⟩
      exact ⟨i, hi, rfl, h1, h2⟩
  · intro r hr
    obtain ⟨i, hi, hx, _, _⟩ := (hmem r).mp hr
    rw [hx]
    constructor
    · exact Int.natCast_nonneg _
    · exact_mod_cast hi

/-! ## The exclusion tiles -/

lemma mem_pairInsert (tiles : List (Int × Int)) (p q : Int × Int) :
    q ∈ pairInsert tiles p ↔ q = p ∨ q ∈ tiles := by
  unfold pairInsert
  split_ifs with h
  · constructor
    · exact Or.inr
    · rintro (rfl | h')
      · exact h
      · exact h'
  · rw [List.mem_append, List.mem_singleton]
    tauto

lemma mem_foldl_pairInsert {α : Type} (f : α → Int × Int) (l : List α) (tiles : List (Int × Int))
    (q : Int × Int) :
    q ∈ l.foldl (fun tiles a => pairInsert tiles (f a)) tiles ↔
      q ∈ tiles ∨ ∃ a ∈ l, q = f a := by
  induction l generalizing tiles with
  | nil => simp
  | cons a l ih =>
    rw [List.foldl_cons, ih, mem_pairInsert]
    simp only [List.mem_cons, exists_eq_or_imp]
    tauto

/-- The set `tilesWithExclusions` holds exactly the tiles of the listed pairs. -/
lemma mem_tilesWithExclusions (tileSize : Int) (exclusions : List (List Int)) (q : Int × Int) :
    q ∈ tilesWithExclusions tileSize exclusions ↔
      ∃ atom1 : Nat, atom1 < exclusions.length ∧ ∃ atom2 ∈ exclusions.getD atom1 [],
        q = (max ((atom1 : Int).tdiv tileSize) (atom2.tdiv tileSize),
             min ((atom1 : Int).tdiv tileSize) (atom2.tdiv tileSize)) := by
  unfold tilesWithExclusions
  have key : ∀ (l : List Nat) (tiles : List (Int × Int)),
      q ∈ l.foldl (fun tiles atom1 =>
        (exclusions.getD atom1 []).foldl (fun tiles atom2 =>
          pairInsert tiles
            (max ((atom1 : Int).tdiv tileSize) (atom2.tdiv tileSize),
             min ((atom1 : Int).tdiv tileSize) (atom2.tdiv tileSize))) tiles) tiles ↔
      q ∈ tiles ∨ ∃ atom1 ∈ l, ∃ atom2 ∈ exclusions.getD atom1 [],
        q = (max ((atom1 : Int).tdiv tileSize) (atom2.tdiv tileSize),
             min ((atom1 : Int).tdiv tileSize) (atom2.tdiv tileSize)) := by
    intro l
    induction l with
    | nil => intro tiles; simp
    | cons a l ih =>
      intro tiles
      rw [List.foldl_cons, ih, mem_foldl_pairInsert]
      simp only [List.mem_cons, exists_eq_or_imp, or_assoc]
  rw [key]
  simp only [List.not_mem_nil, false_or, List.mem_range]

lemma lookedUpKey_eq (tileSize atom1 atom2 : Int) :
    lookedUpKey tileSize atom1 atom2 =
      (max (atom1.tdiv tileSize) (atom2.tdiv tileSize),
       min (atom1.tdiv tileSize) (atom2.tdiv tileSize)) := by
  unfold lookedUpKey
  split_ifs with h1 h2
  · rw [h1, max_self, min_self]
  · rw [max_eq_left (le_of_lt h2), min_eq_right (le_of_lt h2)]
  · have : atom1.tdiv tileSize < atom2.tdiv tileSize := by omega
    rw [max_eq_right (le_of_lt this), min_eq_left (le_of_lt this)]

/-- A key is in the map exactly when it is one of the downloaded tiles. -/
lemma buildExclusionTileMap_isSome (exclusionTiles : List (Int × Int)) (key : Int × Int) :
    (buildExclusionTileMap exclusionTiles key).isSome = true ↔ key ∈ exclusionTiles := by
  unfold buildExclusionTileMap
  have h : ∀ m : Nat,
      ((List.range m).foldl
        (fun (map : TileMap) i => fun key =>
          if exclusionTiles.getD i (0, 0) = key then some (i : Int) else map key)
        (fun _ => none) key).isSome = true ↔
      ∃ i, i < m ∧ exclusionTiles.getD i (0, 0) = key := by
    intro m
    induction m with
    | zero => simp
    | succ m ih =>
      rw [List.range_succ, List.foldl_append, List.foldl_cons, List.foldl_nil]
      by_cases e : exclusionTiles.getD m (0, 0) = key
      · simp only [e, if_true, Option.isSome_some, true_iff]
        exact ⟨m, Nat.lt_succ_self _, e⟩
      · simp only [e, if_false]
        rw [ih]
        constructor
        · rintro ⟨i, hi, h⟩
          exact ⟨i, by omega, h⟩
        · rintro ⟨i, hi, h⟩
          have : i ≠ m := fun hm => e (hm ▸ h)
          exact ⟨i, by omega, h⟩
  rw [h]
  constructor
  · rintro ⟨i, hi, h⟩
    rw [List.getD_eq_getElem _ _ hi] at h
    rw [← h]
    exact List.getElem_mem _
  · intro hk
    obtain ⟨i, hi, h⟩ := List.getElem_of_mem hk
    exact ⟨i, hi, by rw [List.getD_eq_getElem _ _ hi]; exact h⟩

/-- The processing of a covalent record reads the map at `lookedUpKey` only. -/
lemma covalentRecord_congr (tileSize : Int) (map map' : TileMap) (vec : List UInt2)
    (r : Int3) (h : map (lookedUpKey tileSize r.x r.y) = map' (lookedUpKey tileSize r.x r.y)) :
    covalentRecord tileSize map vec r = covalentRecord tileSize map' vec r := by
  unfold lookedUpKey at h
  unfold covalentRecord TileMap.get
  simp only
  split_ifs at h ⊢ with h1 h2 <;> rw [h]

/-- The processing of a polarization record reads the map at `lookedUpKey` only. -/
lemma polarizationRecord_congr (tileSize : Int) (map map' : TileMap) (vec : List Nat)
    (r : Int2) (h : map (lookedUpKey tileSize r.x r.y) = map' (lookedUpKey tileSize r.x r.y)) :
    polarizationRecord tileSize map vec r = polarizationRecord tileSize map' vec r := by
  unfold lookedUpKey at h
  unfold polarizationRecord TileMap.get
  simp only
  split_ifs at h ⊢ with h1 h2 <;> rw [h]

/-! ## C24 -/

/-- C24: every atom `a` of a record `(i, a, _)` of `covalentFlagValues` or
`(i, a)` of `polarizationFlagValues` built by `initialize` is in `exclusions[i]`,
which also holds `i` itself; hence the tile pair
`(max(i/T, a/T), min(i/T, a/T))` is in `tilesWithExclusions`.  This pair is the
key that `initializeScaleFactors` looks up for the record, and the only place
where it reads the map; so when the downloaded exclusion tiles hold every tile
of the exclusions given to the neighbour-list builder, every lookup finds its
key and none reads the default `0` of an absent key. -/
theorem flagged_pairs_are_exclusions (tileSize : Int) (numMultipoles : Nat)
    (covalentMap : CovalentMap) (exclusionTiles : List (Int × Int))
    (hnb : ∀ p ∈ tilesWithExclusions tileSize (buildFlagValues numMultipoles covalentMap).exclusions,
      p ∈ exclusionTiles) :
    let flags := buildFlagValues numMultipoles covalentMap
    let map := buildExclusionTileMap exclusionTiles
    flags.exclusions.length = numMultipoles ∧
    (∀ i : Nat, i < numMultipoles → (i : Int) ∈ flags.exclusions.getD i []) ∧
    (∀ r ∈ flags.covalentFlagValues, ∃ i : Nat, i < numMultipoles ∧ r.x = i ∧
      r.y ∈ flags.exclusions.getD i [] ∧
      lookedUpKey tileSize r.x r.y =
        (max (r.x.tdiv tileSize) (r.y.tdiv tileSize),
         min (r.x.tdiv tileSize) (r.y.tdiv tileSize)) ∧
      lookedUpKey tileSize r.x r.y ∈ tilesWithExclusions tileSize flags.exclusions ∧
      (map (lookedUpKey tileSize r.x r.y)).isSome = true) ∧
    (∀ r ∈ flags.polarizationFlagValues, ∃ i : Nat, i < numMultipoles ∧ r.x = i ∧
      r.y ∈ flags.exclusions.getD i [] ∧
      lookedUpKey tileSize r.x r.y =
        (max (r.x.tdiv tileSize) (r.y.tdiv tileSize),
         min (r.x.tdiv tileSize) (r.y.tdiv tileSize)) ∧
      lookedUpKey tileSize r.x r.y ∈ tilesWithExclusions tileSize flags.exclusions ∧
      (map (lookedUpKey tileSize r.x r.y)).isSome = true) ∧
    (∀ (map' : TileMap) (vec : List UInt2) (r : Int3),
      map (lookedUpKey tileSize r.x r.y) = map' (lookedUpKey tileSize r.x r.y) →
      covalentRecord tileSize map vec r = covalentRecord tileSize map' vec r) ∧
    (∀ (map' : TileMap) (vec : List Nat) (r : Int2),
      map (lookedUpKey tileSize r.x r.y) = map' (lookedUpKey tileSize r.x r.y) →
      polarizationRecord tileSize map vec r = polarizationRecord tileSize map' vec r) := by
  intro flags map
  obtain ⟨h1, h2, h3, h4⟩ := flagValues_foldl covalentMap numMultipoles numMultipoles
  have hlen : flags.exclusions.length = numMultipoles := h3
  have hexcl : ∀ i : Nat, i < numMultipoles →
      flags.exclusions.getD i [] = allExcludedAtoms covalentMap i := by
    intro i hi
    have := h4 i hi
    rw [if_pos hi] at this
    exact this
  have hkey : ∀ (i : Nat) (a : Int), i < numMultipoles → a ∈ flags.exclusions.getD i [] →
      lookedUpKey tileSize (i : Int) a ∈ tilesWithExclusions tileSize flags.exclusions ∧
      (map (lookedUpKey tileSize (i : Int) a)).isSome = true := by
    intro i a hi ha
    have hmem : lookedUpKey tileSize (i : Int) a ∈
        tilesWithExclusions tileSize flags.exclusions := by
      rw [mem_tilesWithExclusions, lookedUpKey_eq]
      exact ⟨i, by rw [hlen]; exact hi, a, ha, rfl⟩
    exact ⟨hmem, (buildExclusionTileMap_isSome _ _).mpr (hnb _ hmem)⟩
  refine ⟨hlen, ?_, ?_, ?_, fun map' vec r h => covalentRecord_congr tileSize map map' vec r h,
    fun map' vec r h => polarizationRecord_congr tileSize map map' vec r h⟩
  · intro i hi
    rw [hexcl i hi, mem_allExcludedAtoms]
    exact Or.inl rfl
  · intro r hr
    have hr' : r ∈ (List.range numMultipoles).flatMap (covalentRecords covalentMap) := by
      rw [← h1]; exact hr
    rw [List.mem_flatMap] at hr'
    obtain ⟨i, hi, hri⟩ := hr'
    rw [List.mem_range] at hi
    obtain ⟨hx, hcase⟩ := (mem_covalentRecords covalentMap i r).mp hri
    have hy : r.y ∈ flags.exclusions.getD i [] := by
      rw [hexcl i hi, mem_allExcludedAtoms]
      rcases hcase with ⟨_, h | h | h⟩ | ⟨_, h⟩ | ⟨_, h⟩ <;> simp only [h, true_or, or_true]
    refine ⟨i, hi, hx, hy, lookedUpKey_eq _ _ _, ?_⟩
    rw [hx]
    exact hkey i r.y hi hy
  · intro r hr
    have hr' : r ∈ (List.range numMultipoles).flatMap (polarizationRecords covalentMap) := by
      rw [← h2]; exact hr
    rw [List.mem_flatMap] at hr'
    obtain ⟨i, hi, hri⟩ := hr'
    rw [List.mem_range] at hi
    obtain ⟨hx, h11, _⟩ := (mem_polarizationRecords covalentMap i r).mp hri
    have hy : r.y ∈ flags.exclusions.getD i [] := by
      rw [hexcl i hi, mem_allExcludedAtoms]
      simp only [h11, or_true]
    refine ⟨i, hi, hx, hy, lookedUpKey_eq _ _ _, ?_⟩
    rw [hx]
    exact hkey i r.y hi hy

/-- Witness for C24: the chain of four atoms with tiles of two atoms; the
downloaded tiles are those of the exclusions, `(0, 0)`, `(1, 0)` and `(1, 1)`. -/
theorem flagged_pairs_are_exclusions_witness :
    tilesWithExclusions 2 (buildFlagValues 4 toyCovalentMap).exclusions =
      [(0, 0), (1, 0), (1, 1)] ∧
    (buildFlagValues 4 toyCovalentMap).exclusions =
      [[0, 1, 2, 3], [0, 1, 2, 3], [0, 1, 2, 3], [0, 1, 2, 3]] ∧
    ∀ r ∈ (buildFlagValues 4 toyCovalentMap).covalentFlagValues,
      ∃ i : Nat, i < 4 ∧ r.x = i ∧ r.y ∈ (buildFlagValues 4 toyCovalentMap).exclusions.getD i [] ∧
        lookedUpKey 2 r.x r.y = (max (r.x.tdiv 2) (r.y.tdiv 2), min (r.x.tdiv 2) (r.y.tdiv 2)) ∧
        lookedUpKey 2 r.x r.y ∈
          tilesWithExclusions 2 (buildFlagValues 4 toyCovalentMap).exclusions ∧
        (buildExclusionTileMap
          (tilesWithExclusions 2 (buildFlagValues 4 toyCovalentMap).exclusions)
          (lookedUpKey 2 r.x r.y)).isSome = true :=
  ⟨by decide, by decide,
   (flagged_pairs_are_exclusions 2 4 toyCovalentMap
      (tilesWithExclusions 2 (buildFlagValues 4 toyCovalentMap).exclusions)
      (fun _ hp => hp)).2.2.1⟩

/-! ## C25 -/

/-- C25: in `initializeScaleFactors`, for atoms `a` and `b` in different tiles
and any category `v`, the record `(a, b, v)` and the record `(b, a, v)` change
the flag vector in the same way: with `a` the atom in the higher-numbered
tile, the word at row `a - (a/T)*T` of the tile `(a/T, b/T)` gets the bits
`f1 << (b - (b/T)*T)` and `f2 << (b - (b/T)*T)`.  For two atoms of one tile the
single record sets both (row `a`, bit `b`) and (row `b`, bit `a`).  The same
holds for the polarization-group flags, with the one bit `1`. -/
theorem flag_placement_symmetric (tileSize : Int) (map : TileMap) (a b v : Int) :
    (b.tdiv tileSize < a.tdiv tileSize →
      (∀ vec : List UInt2,
        covalentRecord tileSize map vec ⟨a, b, v⟩ = covalentRecord tileSize map vec ⟨b, a, v⟩ ∧
        covalentRecord tileSize map vec ⟨a, b, v⟩ =
          orBits vec
            (map.get (a.tdiv tileSize, b.tdiv tileSize) * tileSize +
              (a - a.tdiv tileSize * tileSize))
            (shiftLeft (if v = 0 ∨ v = 1 then 1 else 0) (b - b.tdiv tileSize * tileSize))
            (shiftLeft (if v = 0 ∨ v = 2 then 1 else 0) (b - b.tdiv tileSize * tileSize))) ∧
      (∀ vec : List Nat,
        polarizationRecord tileSize map vec ⟨a, b⟩ = polarizationRecord tileSize map vec ⟨b, a⟩ ∧
        polarizationRecord tileSize map vec ⟨a, b⟩ =
          orBit vec
            (map.get (a.tdiv tileSize, b.tdiv tileSize) * tileSize +
              (a - a.tdiv tileSize * tileSize))
            (shiftLeft 1 (b - b.tdiv tileSize * tileSize)))) ∧
    (a.tdiv tileSize = b.tdiv tileSize →
      (∀ vec : List UInt2,
        covalentRecord tileSize map vec ⟨a, b, v⟩ =
          orBits
            (orBits vec
              (map.get (a.tdiv tileSize, b.tdiv tileSize) * tileSize +
                (a - a.tdiv tileSize * tileSize))
              (shiftLeft (if v = 0 ∨ v = 1 then 1 else 0) (b - b.tdiv tileSize * tileSize))
              (shiftLeft (if v = 0 ∨ v = 2 then 1 else 0) (b - b.tdiv tileSize * tileSize)))
            (map.get (a.tdiv tileSize, b.tdiv tileSize) * tileSize +
              (b - b.tdiv tileSize * tileSize))
            (shiftLeft (if v = 0 ∨ v = 1 then 1 else 0) (a - a.tdiv tileSize * tileSize))
            (shiftLeft (if v = 0 ∨ v = 2 then 1 else 0) (a - a.tdiv tileSize * tileSize))) ∧
      (∀ vec : List Nat,
        polarizationRecord tileSize map vec ⟨a, b⟩ =
          orBit
            (orBit vec
              (map.get (a.tdiv tileSize, b.tdiv tileSize) * tileSize +
                (a - a.tdiv tileSize * tileSize))
              (shiftLeft 1 (b - b.tdiv tileSize * tileSize)))
            (map.get (a.tdiv tileSize, b.tdiv tileSize) * tileSize +
              (b - b.tdiv tileSize * tileSize))
            (shiftLeft 1 (a - a.tdiv tileSize * tileSize)))) := by
  constructor
  · intro hlt
    have hne : a.tdiv tileSize ≠ b.tdiv tileSize := by omega
    have hne' : b.tdiv tileSize ≠ a.tdiv tileSize := by omega
    have hgt : a.tdiv tileSize > b.tdiv tileSize := hlt
    have hngt : ¬ b.tdiv tileSize > a.tdiv tileSize := by omega
    constructor
    · intro vec
      have e1 : covalentRecord tileSize map vec ⟨a, b, v⟩ =
          orBits vec
            (map.get (a.tdiv tileSize, b.tdiv tileSize) * tileSize +
              (a - a.tdiv tileSize * tileSize))
            (shiftLeft (if v = 0 ∨ v = 1 then 1 else 0) (b - b.tdiv tileSize * tileSize))
            (shiftLeft (if v = 0 ∨ v = 2 then 1 else 0) (b - b.tdiv tileSize * tileSize)) := by
        simp only [covalentRecord, if_neg hne, if_pos hgt]
      have e2 : covalentRecord tileSize map vec ⟨b, a, v⟩ =
          orBits vec
            (map.get (a.tdiv tileSize, b.tdiv tileSize) * tileSize +
              (a - a.tdiv tileSize * tileSize))
            (shiftLeft (if v = 0 ∨ v = 1 then 1 else 0) (b - b.tdiv tileSize * tileSize))
            (shiftLeft (if v = 0 ∨ v = 2 then 1 else 0) (b - b.tdiv tileSize * tileSize)) := by
        simp only [covalentRecord, if_neg hne', if_neg hngt]
      exact ⟨e1.trans e2.symm, e1⟩
    · intro vec
      have e1 : polarizationRecord tileSize map vec ⟨a, b⟩ =
          orBit vec
            (map.get (a.tdiv tileSize, b.tdiv tileSize) * tileSize +
              (a - a.tdiv tileSize * tileSize))
            (shiftLeft 1 (b - b.tdiv tileSize * tileSize)) := by
        simp only [polarizationRecord, if_neg hne, if_pos hgt]
      have e2 : polarizationRecord tileSize map vec ⟨b, a⟩ =
          orBit vec
            (map.get (a.tdiv tileSize, b.tdiv tileSize) * tileSize +
              (a - a.tdiv tileSize * tileSize))
            (shiftLeft 1 (b - b.tdiv tileSize * tileSize)) := by
        simp only [polarizationRecord, if_neg hne', if_neg hngt]
      exact ⟨e1.trans e2.symm, e1⟩
  · intro heq
    constructor
    · intro vec
      simp only [covalentRecord, if_pos heq]
    · intro vec
      simp only [polarizationRecord, if_pos heq]

/-- Witness for C25: tiles of 32 atoms, atom `40` (tile 1, offset 8) and atom
`3` (tile 0, offset 3), category `1`: either record sets bit `3` of the first
word of row `8` of tile `(1, 0)`, which has index `1` in the map. -/
theorem flag_placement_symmetric_witness :
    covalentRecord 32 (buildExclusionTileMap [(0, 0), (1, 0), (1, 1)])
        (List.replicate 96 ⟨0, 0⟩) ⟨40, 3, 1⟩ =
      covalentRecord 32 (buildExclusionTileMap [(0, 0), (1, 0), (1, 1)])
        (List.replicate 96 ⟨0, 0⟩) ⟨3, 40, 1⟩ ∧
    (covalentRecord 32 (buildExclusionTileMap [(0, 0), (1, 0), (1, 1)])
        (List.replicate 96 ⟨0, 0⟩) ⟨3, 40, 1⟩).getD 40 ⟨0, 0⟩ = ⟨8, 0⟩ :=
  ⟨((flag_placement_symmetric 32 (buildExclusionTileMap [(0, 0), (1, 0), (1, 1)]) 40 3 1).1
      (by decide)).1 (List.replicate 96 ⟨0, 0⟩) |>.1,
   by decide⟩

end MBPol
